import Mathlib

/-!
Verification of the poker engine in `src/poker.py`.

The development shallow-embeds the program's data model and algorithms:

* `Card`, `sortDesc`, `combinations`, `classify`, `evaluate_hand` embed the
  7-card hand evaluator `PokerGame._evaluate_hand`;
* `Player.bet` embeds `Player.bet`;
* `get_player_action`, `apply_action`, `run_betting_round` embed
  `PokerGame._get_player_action` and `PokerGame._run_betting_round`
  (the `input()` stream is made explicit as a list of tokens, and the
  local variables `current_bet` / `last_raiser` / the prompt events are
  made explicit state and an explicit log);
* `showdown_winners`, `split_pot` embed the showdown part of
  `PokerGame.play_round`;
* `Deck.deal`, `play_round_deals` embed `Deck.deal` and the sequence of
  deals performed by `PokerGame.play_round`.

Machine integers do not overflow in Python, so chip counts are `Int` and
card ranks are `Nat`.
-/

set_option maxRecDepth 200000

/-- A playing card: `rank` is the numeric `rank_value` (2..14, ace = 14),
`suit` is an arbitrary code for one of the four suit symbols. -/
structure Card where
  suit : Nat
  rank : Nat
deriving DecidableEq, Repr

/-- Python list comparison `a > b` on integer lists: lexicographic,
a strict prefix is smaller. -/
def listGt : List Nat → List Nat → Bool
  | _ :: _, [] => true
  | [], _ => false
  | a :: as, b :: bs => if a > b then true else if a < b then false else listGt as bs

/-- Python list comparison `a < b` on integer lists. -/
def listLt (a b : List Nat) : Bool := listGt b a

/-- Python tuple comparison `(r, v) > (r', v')` for an `(int, list)` score. -/
def scoreGt (a b : Int × List Nat) : Bool :=
  if a.1 > b.1 then true else if a.1 < b.1 then false else listGt a.2 b.2

/-- The descending, stable sort order used by
`sorted(hand, key=lambda card: card.rank_value, reverse=True)`. -/
def rankGe (a b : Card) : Prop := b.rank ≤ a.rank

instance : DecidableRel rankGe := fun a b => Nat.decLe b.rank a.rank

/-- `sorted(cards, key=rank_value, reverse=True)` (stable). -/
def sortDesc (l : List Card) : List Card := l.insertionSort rankGe

/-- `itertools.combinations(l, k)` in its exact enumeration order. -/
def combinations : Nat → List α → List (List α)
  | 0, _ => [[]]
  | _ + 1, [] => []
  | k + 1, x :: xs => (combinations k xs).map (x :: ·) ++ combinations (k + 1) xs

/-- First occurrences of each element, in order (the key order of
`collections.Counter`); `seen` accumulates the keys already emitted. -/
def firstOccsAux (seen : List Nat) : List Nat → List Nat
  | [] => []
  | x :: xs => if x ∈ seen then firstOccsAux seen xs else x :: firstOccsAux (x :: seen) xs

/-- First occurrences of each element, in order. -/
def firstOccs (l : List Nat) : List Nat := firstOccsAux [] l

/-- `Counter(ranks).items()` as `(rank, count)` pairs. -/
def rankCounts (ranks : List Nat) : List (Nat × Nat) :=
  (firstOccs ranks).map (fun r => (r, ranks.count r))

/-- The order used by
`sorted(rank_counts.items(), key=lambda item: (item[1], item[0]), reverse=True)`:
descending on `(count, rank)`. -/
def pairGe (a b : Nat × Nat) : Prop := b.2 < a.2 ∨ (b.2 = a.2 ∧ b.1 ≤ a.1)

instance : DecidableRel pairGe := fun _ _ => by unfold pairGe; infer_instance

/-- `sorted(pairs, key=(count, rank), reverse=True)`. -/
def sortPairsDesc (l : List (Nat × Nat)) : List (Nat × Nat) := l.insertionSort pairGe

/-- `len(set(l))`. -/
def setCard (l : List Nat) : Nat := l.dedup.length

/-- Python `set(a) == set(b)`. -/
def sameSet (a b : List Nat) : Bool := a.all (· ∈ b) && b.all (· ∈ a)

/-- `max(l)` of a nonempty integer list (0 for the empty list). -/
def maxL : List Nat → Nat
  | [] => 0
  | x :: xs => xs.foldl max x

/-- `min(l)` of a nonempty integer list (0 for the empty list). -/
def minL : List Nat → Nat
  | [] => 0
  | x :: xs => xs.foldl min x

/-- The ascending stable order by position in the wheel rank list
`[5, 4, 3, 2, 14]`, used by `sorted(combo, key=lambda c: ranks.index(c.rank_value))`. -/
def wheelIdxLe (ranks : List Nat) (a b : Card) : Prop :=
  ranks.indexOf a.rank ≤ ranks.indexOf b.rank

instance {ranks : List Nat} : DecidableRel (wheelIdxLe ranks) :=
  fun _ _ => Nat.decLe _ _

/-- The classification of one 5-card combination, as computed inside the
loop of `PokerGame._evaluate_hand`:
`handRank` is the category (`hand_rank`), `handValues` the count-sorted
tie-break ranks (`hand_values`), and `combo` the (possibly wheel-reordered)
display combination. -/
structure Classified where
  handRank : Nat
  handValues : List Nat
  combo : List Card
deriving DecidableEq, Repr

/-- The body of the combination loop of `PokerGame._evaluate_hand`. -/
def classify (combo0 : List Card) : Classified :=
  let combo1 := sortDesc combo0
  let ranks := combo1.map Card.rank
  let suits := combo1.map Card.suit
  let isFlush := setCard suits == 1
  let isStraight := setCard ranks == 5 && (maxL ranks - minL ranks == 4)
  let isWheel := !isStraight && sameSet ranks [14, 2, 3, 4, 5]
  let isStraight2 := isStraight || isWheel
  let ranks2 := if isWheel then [5, 4, 3, 2, 14] else ranks
  let combo2 := if isWheel then combo1.insertionSort (wheelIdxLe [5, 4, 3, 2, 14]) else combo1
  let sortedByCount := sortPairsDesc (rankCounts ranks)
  let counts := sortedByCount.map Prod.snd
  let handValues := sortedByCount.map Prod.fst
  let handRank : Nat :=
    if isStraight2 && isFlush then (if ranks2.headD 0 == 14 then 9 else 8)
    else if counts.headD 0 == 4 then 7
    else if counts.take 2 == [3, 2] then 6
    else if isFlush then 5
    else if isStraight2 then 4
    else if counts.headD 0 == 3 then 3
    else if counts.take 2 == [2, 2] then 2
    else if counts.headD 0 == 2 then 1
    else 0
  ⟨handRank, handValues, combo2⟩

/-- One step of the best-hand fold: keep `best` unless the current
combination's `(hand_rank, hand_values)` beats `(best[0], ranks of best[1])`. -/
def evalStep (best : Int × List Card) (combo : List Card) : Int × List Card :=
  let cl := classify combo
  if scoreGt ((cl.handRank : Int), cl.handValues) (best.1, best.2.map Card.rank)
  then ((cl.handRank : Int), cl.combo) else best

/-- `PokerGame._evaluate_hand`: the best `(rank, five cards)` over all
21 five-card combinations of the 7 input cards. -/
def evaluate_hand (hand : List Card) : Int × List Card :=
  (combinations 5 (sortDesc hand)).foldl evalStep (-1, [])

/-! ## Betting: `Player.bet`, `_get_player_action`, `_run_betting_round` -/

/-- The betting-round view of a `Player` object. -/
structure Player where
  chips : Int
  currentBet : Int
  isFolded : Bool
  isAllIn : Bool
deriving DecidableEq, Repr

instance : Inhabited Player := ⟨⟨0, 0, false, false⟩⟩

/-- `Player.bet`: clamp to an all-in, move chips to the street commitment,
set the all-in flag when the stack empties.  Returns the amount actually
moved together with the updated player. -/
def Player.bet (p : Player) (amount : Int) : Int × Player :=
  let amount := if amount > p.chips then p.chips else amount
  let chips' := p.chips - amount
  (amount, { p with
      chips := chips'
      currentBet := p.currentBet + amount
      isAllIn := if chips' == 0 then true else p.isAllIn })

/-- One token of the `input()` stream: an action word (recognized or not),
a numeric amount entry, or a non-numeric amount entry. -/
inductive InTok where
  | fold | check | call | bet | raise
  | other
  | num (n : Int)
  | nan
deriving DecidableEq, Repr

/-- The action strings `_get_player_action` can hand back to the betting
loop (`fold` is communicated as `None`; the dead string comparison
`action == 'fold'` in `_run_betting_round` is kept for faithfulness). -/
inductive PAct where
  | fold | check | call | raise
deriving DecidableEq, Repr

/-- The result of `_get_player_action`: the `(action, amount)` pair, the
player object (mutated on fold), the unconsumed input, and the number of
action prompts that were shown. -/
structure ActionResult where
  act : Option PAct
  amount : Int
  player : Player
  rest : List InTok
  prompts : Nat
deriving DecidableEq, Repr

/-- The inner `while True` amount loop of `_get_player_action`
(`isBet` distinguishes the typed word `bet` from `raise`). -/
def amountLoop (isBet : Bool) (currentBet chips : Int) :
    Nat → List InTok → Option (Int × List InTok)
  | 0, _ => none
  | _, [] => none
  | fuel + 1, t :: ts =>
    match t with
    | .num n =>
        if isBet && decide (n < 20) then amountLoop isBet currentBet chips fuel ts
        else if !isBet && decide (n < currentBet) then amountLoop isBet currentBet chips fuel ts
        else if n > chips then amountLoop isBet currentBet chips fuel ts
        else some (n, ts)
    | _ => amountLoop isBet currentBet chips fuel ts

/-- `PokerGame._get_player_action`: solicit one action from `player`
facing `currentBet`, re-prompting on invalid input.  `none` models the
process blocking forever (fuel or input exhausted). -/
def get_player_action (player : Player) (currentBet : Int) :
    Nat → List InTok → Option ActionResult
  | 0, _ => none
  | _ + 1, [] => none
  | fuel + 1, t :: ts =>
    let again (ts' : List InTok) : Option ActionResult :=
      (get_player_action player currentBet fuel ts').map
        (fun r => { r with prompts := r.prompts + 1 })
    match t with
    | .fold => some ⟨none, 0, { player with isFolded := true }, ts, 1⟩
    | .check =>
        if player.currentBet < currentBet then again ts
        else some ⟨some .check, 0, player, ts, 1⟩
    | .call =>
        some ⟨some .call, min (currentBet - player.currentBet) player.chips, player, ts, 1⟩
    | .bet =>
        if player.chips ≤ currentBet - player.currentBet then again ts
        else match amountLoop true currentBet player.chips (fuel + 1) ts with
          | some (n, ts') => some ⟨some .raise, n, player, ts', 1⟩
          | none => none
    | .raise =>
        if player.chips ≤ currentBet - player.currentBet then again ts
        else match amountLoop false currentBet player.chips (fuel + 1) ts with
          | some (n, ts') => some ⟨some .raise, n, player, ts', 1⟩
          | none => none
    | _ => again ts

/-- The mutable state of one run of `_run_betting_round`: the shared player
list, the pot, the locals `current_bet` / `last_raiser` (as an index) /
`active_players`, and a log of action-prompt events (one player index per
prompt shown). -/
structure RoundState where
  players : List Player
  pot : Int
  currentBet : Int
  lastRaiser : Option Nat
  activePlayers : Int
  promptLog : List Nat
deriving DecidableEq, Repr

/-- Applying the `(action, amount)` returned by `_get_player_action` for
player `i` (whose post-solicitation object is `p'`): the action-dispatch
block in the body of `_run_betting_round`'s loop. -/
def apply_action (st : RoundState) (i : Nat) (act : Option PAct) (amount : Int)
    (p' : Player) : RoundState :=
  let st := { st with players := st.players.set i p' }
  if act = some .fold then
    { st with activePlayers := st.activePlayers - 1 }
  else if act = some .call ∨ act = some .check then
    if amount > 0 then
      let r := p'.bet amount
      { st with players := st.players.set i r.2, pot := st.pot + r.1 }
    else st
  else if act = some .raise then
    let total := p'.currentBet + amount
    let st :=
      if total > st.currentBet then
        { st with currentBet := total, lastRaiser := some i }
      else
        { st with currentBet := amount, lastRaiser := some i }
    let r := p'.bet amount
    { st with players := st.players.set i r.2, pot := st.pot + r.1 }
  else st

/-- The `while active_players > 1` loop of `_run_betting_round`;
`i` is `current_player_index`, `gfuel` bounds each `_get_player_action`
call, `fuel` bounds the number of loop iterations. -/
def betting_loop (startIndex : Nat) (gfuel : Nat) :
    Nat → Nat → RoundState → List InTok → Option (RoundState × List InTok)
  | 0, _, _, _ => none
  | fuel + 1, i, st, toks =>
    if st.activePlayers > 1 then
      let p := st.players.getD i default
      if !p.isFolded && !p.isAllIn then
        if st.lastRaiser = some i then some (st, toks)
        else
          match get_player_action p st.currentBet gfuel toks with
          | none => none
          | some r =>
            let st := { st with promptLog := st.promptLog ++ List.replicate r.prompts i }
            let st := apply_action st i r.act r.amount r.player
            let i' := (i + 1) % st.players.length
            if st.lastRaiser = none ∧ i' = startIndex then some (st, r.rest)
            else if ((st.players.filter (fun q => !q.isFolded)).length : Int) ≤ 1 then
              some (st, r.rest)
            else betting_loop startIndex gfuel fuel i' st r.rest
      else
        let i' := (i + 1) % st.players.length
        if st.lastRaiser = none ∧ i' = startIndex then some (st, toks)
        else if ((st.players.filter (fun q => !q.isFolded)).length : Int) ≤ 1 then
          some (st, toks)
        else betting_loop startIndex gfuel fuel i' st toks
    else some (st, toks)

/-- `PokerGame._run_betting_round`: reset street commitments, then run the
betting loop from `startIndex`. -/
def run_betting_round (players : List Player) (startIndex : Nat) (pot : Int)
    (toks : List InTok) (fuel gfuel : Nat) : Option (RoundState × List InTok) :=
  let active := ((players.filter (fun p => !p.isFolded && !p.isAllIn)).length : Int)
  let players' := players.map (fun p => { p with currentBet := 0 })
  betting_loop startIndex gfuel fuel (startIndex % players.length)
    ⟨players', pot, 0, none, active, []⟩ toks

/-! ## Showdown: winner selection and pot split from `PokerGame.play_round` -/

/-- The comparison key `(x[0], [c.rank_value for c in x[1]])` used by
`max` over evaluated hands. -/
def handScore (e : Int × List Card) : Int × List Nat := (e.1, e.2.map Card.rank)

/-- Python `max(iterable, key=handScore)`: the first maximal element. -/
def maxByScore : List (Int × List Card) → Int × List Card
  | [] => (-1, [])
  | x :: xs => xs.foldl (fun acc y => if scoreGt (handScore y) (handScore acc) then y else acc) x

/-- The winner-selection fragment of `PokerGame.play_round`: evaluate each
active player's 7 cards, take the `hand_rank` of the maximal evaluated hand,
and return the indices of all players whose `hand_rank` equals it. -/
def showdown_winners (hands : List (List Card)) : List Nat :=
  let evals := hands.map evaluate_hand
  let bestRank := (maxByScore evals).1
  (List.range hands.length).filter (fun i => (evals.getD i (-1, [])).1 == bestRank)

/-- The split-pot fragment of `PokerGame.play_round`: each winner's chips
grow by `pot // len(winners)` (Python floor division). -/
def split_pot (pot : Int) (winners : List Nat) (chips : List Int) : List Int :=
  winners.foldl
    (fun cs i => cs.set i (cs.getD i 0 + Int.fdiv pot (winners.length : Int))) chips

/-! ## Dealing: `Deck.deal` and the deal sequence of `play_round` -/

namespace Deck

/-- `Deck.deal`: `none` is the `ValueError` raised when fewer cards remain
than requested; otherwise the dealt cards and the remaining deck. -/
def deal (cards : List Card) (numCards : Nat) : Option (List Card × List Card) :=
  if cards.length < numCards then none
  else some (cards.take numCards, cards.drop numCards)

end Deck

/-- The hole-card deals of `play_round`: two cards to each of `n` players. -/
def deal_hands : List Card → Nat → Option (List (List Card) × List Card)
  | deck, 0 => some ([], deck)
  | deck, n + 1 => do
    let (h, deck') ← Deck.deal deck 2
    let (hs, deck'') ← deal_hands deck' n
    some (h :: hs, deck'')

/-- The full deal sequence of `PokerGame.play_round`: two hole cards per
player, then the flop (3), turn (1) and river (1); each street's deal
happens only if more than one player remains un-folded, which the flags
`f1 f2 f3` record. -/
def play_round_deals (deck : List Card) (numPlayers : Nat) (f1 f2 f3 : Bool) :
    Option (List (List Card) × List Card × List Card) :=
  match deal_hands deck numPlayers with
  | none => none
  | some (hands, d1) =>
    match (if f1 then Deck.deal d1 3 else some ([], d1)) with
    | none => none
    | some (flop, d2) =>
      match (if f2 then Deck.deal d2 1 else some ([], d2)) with
      | none => none
      | some (turnCard, d3) =>
        match (if f3 then Deck.deal d3 1 else some ([], d3)) with
        | none => none
        | some (riverCard, d4) => some (hands, flop ++ turnCard ++ riverCard, d4)

/-! ## Small list helpers -/

theorem List.set_getD_self (l : List α) (i : Nat) (d : α) (h : i < l.length) :
    l.set i (l.getD i d) = l := by
  induction l generalizing i with
  | nil => simp at h
  | cons x xs ih =>
    cases i with
    | zero => simp [List.getD]
    | succ n =>
      simp only [List.length_cons, Nat.succ_lt_succ_iff] at h
      simp only [List.set, List.getD_cons_succ]
      rw [ih n h]

theorem List.getD_set_ne (l : List α) (i j : Nat) (v d : α) (h : i ≠ j) :
    (l.set i v).getD j d = l.getD j d := by
  induction l generalizing i j with
  | nil => simp
  | cons x xs ih =>
    cases i with
    | zero => cases j with
      | zero => exact absurd rfl h
      | succ m => simp [List.getD_cons_succ]
    | succ n => cases j with
      | zero => simp [List.getD_cons_zero]
      | succ m =>
        simp only [List.set, List.getD_cons_succ]
        exact ih n m (fun hc => h (by rw [hc]))

theorem List.getD_set_self (l : List α) (i : Nat) (v d : α) (h : i < l.length) :
    (l.set i v).getD i d = v := by
  induction l generalizing i with
  | nil => simp at h
  | cons x xs ih =>
    cases i with
    | zero => simp [List.getD_cons_zero]
    | succ n =>
      simp only [List.length_cons, Nat.succ_lt_succ_iff] at h
      simp only [List.set, List.getD_cons_succ]
      exact ih n h

theorem List.sum_set_int (l : List Int) (i : Nat) (v : Int) (h : i < l.length) :
    (l.set i v).sum = l.sum - l.getD i 0 + v := by
  induction l generalizing i with
  | nil => simp at h
  | cons x xs ih =>
    cases i with
    | zero => simp [List.getD_cons_zero]; ring
    | succ n =>
      simp only [List.length_cons, Nat.succ_lt_succ_iff] at h
      simp only [List.set, List.sum_cons, List.getD_cons_succ, ih n h]
      ring

/-! ## C10: `Player.bet` -/

/-- C10: for non-negative chips and amount, `Player.bet` moves exactly
`min amount chips` from the stack into the street commitment: the return
value is that minimum, chips stay non-negative, `chips + currentBet` is
preserved, and the all-in flag ends up set iff the stack is empty after
the call or the flag was already set. -/
theorem player_bet_spec (p : Player) (amount : Int)
    (hc : 0 ≤ p.chips) (ha : 0 ≤ amount) :
    (p.bet amount).1 = min amount p.chips ∧
    (p.bet amount).2.chips = p.chips - min amount p.chips ∧
    0 ≤ (p.bet amount).2.chips ∧
    (p.bet amount).2.currentBet = p.currentBet + min amount p.chips ∧
    (p.bet amount).2.chips + (p.bet amount).2.currentBet = p.chips + p.currentBet ∧
    ((p.bet amount).2.isAllIn = true ↔
      (p.bet amount).2.chips = 0 ∨ p.isAllIn = true) := by
  have hbet : p.bet amount = (min amount p.chips,
      { p with chips := p.chips - min amount p.chips,
               currentBet := p.currentBet + min amount p.chips,
               isAllIn := if p.chips - min amount p.chips == 0 then true
                          else p.isAllIn }) := by
    unfold Player.bet
    by_cases hgt : amount > p.chips
    · simp [if_pos hgt, min_eq_right (le_of_lt hgt)]
    · simp [if_neg hgt, min_eq_left (le_of_not_lt hgt)]
  have hmr : min amount p.chips ≤ p.chips := min_le_right _ _
  rw [hbet]
  refine ⟨rfl, rfl, by simp only; omega, rfl, by simp only; ring, ?_⟩
  simp only
  by_cases hz : (p.chips - min amount p.chips : Int) = 0
  · simp [hz]
  · simp [hz]

/-- Witness for C10 at chips 5, amount 3. -/
theorem player_bet_spec_witness :
    ((⟨5, 2, false, false⟩ : Player).bet 3).1 = min 3 5 ∧
    ((⟨5, 2, false, false⟩ : Player).bet 3).2.chips = 5 - min 3 5 ∧
    (0 : Int) ≤ ((⟨5, 2, false, false⟩ : Player).bet 3).2.chips ∧
    ((⟨5, 2, false, false⟩ : Player).bet 3).2.currentBet = 2 + min 3 5 ∧
    ((⟨5, 2, false, false⟩ : Player).bet 3).2.chips +
      ((⟨5, 2, false, false⟩ : Player).bet 3).2.currentBet = 5 + 2 ∧
    (((⟨5, 2, false, false⟩ : Player).bet 3).2.isAllIn = true ↔
      ((⟨5, 2, false, false⟩ : Player).bet 3).2.chips = 0 ∨
        (⟨5, 2, false, false⟩ : Player).isAllIn = true) :=
  player_bet_spec ⟨5, 2, false, false⟩ 3 (by decide) (by decide)

/-! ## C6: pot split arithmetic -/

theorem split_pot_foldl_length (amt : Int) (ws : List Nat) (chips : List Int) :
    (ws.foldl (fun cs j => cs.set j (cs.getD j 0 + amt)) chips).length = chips.length := by
  induction ws generalizing chips with
  | nil => rfl
  | cons w tail ih =>
    simp only [List.foldl_cons]
    rw [ih, List.length_set]

theorem split_pot_foldl_getD (amt : Int) (ws : List Nat) (chips : List Int)
    (i : Nat) (hi : i ∉ ws) :
    (ws.foldl (fun cs j => cs.set j (cs.getD j 0 + amt)) chips).getD i 0 = chips.getD i 0 := by
  induction ws generalizing chips with
  | nil => rfl
  | cons w tail ih =>
    simp only [List.foldl_cons]
    rw [ih _ (fun h => hi (List.mem_cons_of_mem _ h))]
    exact List.getD_set_ne _ _ _ _ _ (fun h => hi (h ▸ List.mem_cons_self _ _))

theorem split_pot_foldl_sum (amt : Int) (ws : List Nat) (chips : List Int)
    (hlt : ∀ j ∈ ws, j < chips.length) :
    (ws.foldl (fun cs j => cs.set j (cs.getD j 0 + amt)) chips).sum
      = chips.sum + (ws.length : Int) * amt := by
  induction ws generalizing chips with
  | nil => simp
  | cons w tail ih =>
    simp only [List.foldl_cons]
    have hw : w < chips.length := hlt w (List.mem_cons_self _ _)
    have hlt' : ∀ j ∈ tail, j < (chips.set w (chips.getD w 0 + amt)).length := by
      intro j hj
      rw [List.length_set]
      exact hlt j (List.mem_cons_of_mem _ hj)
    rw [ih _ hlt', List.sum_set_int _ _ _ hw]
    simp only [List.length_cons]
    push_cast
    ring

theorem split_pot_foldl_getD_mem (amt : Int) (ws : List Nat) (chips : List Int)
    (hnd : ws.Nodup) (hlt : ∀ j ∈ ws, j < chips.length) (i : Nat) (hi : i ∈ ws) :
    (ws.foldl (fun cs j => cs.set j (cs.getD j 0 + amt)) chips).getD i 0
      = chips.getD i 0 + amt := by
  induction ws generalizing chips with
  | nil => simp at hi
  | cons w tail ih =>
    simp only [List.foldl_cons]
    rcases List.mem_cons.mp hi with rfl | htail
    · rw [split_pot_foldl_getD _ _ _ _ (List.nodup_cons.mp hnd).1]
      exact List.getD_set_self _ _ _ _ (hlt _ (List.mem_cons_self _ _))
    · have hne : w ≠ i := fun h => (List.nodup_cons.mp hnd).1 (h ▸ htail)
      rw [ih _ (List.nodup_cons.mp hnd).2 (fun j hj => by
            rw [List.length_set]; exact hlt j (List.mem_cons_of_mem _ hj)) htail]
      rw [List.getD_set_ne _ _ _ _ _ hne]

/-- C6: when `n ≥ 2` distinct winners split the pot, each winner's chips
grow by exactly `pot // n` (floor division), every other position is
unchanged, and the sum of all chips grows by `pot - pot % n` only — the
remainder `pot % n` is awarded to no one, so the total chips in play
(stacks plus pot) drop by `pot % n`. -/
theorem split_pot_spec (pot : Int) (winners : List Nat) (chips : List Int)
    (hn : 2 ≤ winners.length) (hnd : winners.Nodup)
    (hlt : ∀ i ∈ winners, i < chips.length) :
    (∀ i ∈ winners, (split_pot pot winners chips).getD i 0
        = chips.getD i 0 + Int.fdiv pot (winners.length : Int)) ∧
    (∀ i, i ∉ winners → (split_pot pot winners chips).getD i 0 = chips.getD i 0) ∧
    (split_pot pot winners chips).sum
        = chips.sum + (pot - Int.fmod pot (winners.length : Int)) := by
  unfold split_pot
  refine ⟨?_, ?_, ?_⟩
  · intro i hi
    exact split_pot_foldl_getD_mem _ _ _ hnd hlt i hi
  · intro i hi
    exact split_pot_foldl_getD _ _ _ _ hi
  · rw [split_pot_foldl_sum _ _ _ hlt]
    have h2 : (winners.length : Int) ≠ 0 := by
      have : (2 : Int) ≤ (winners.length : Int) := by exact_mod_cast hn
      omega
    have := Int.fdiv_add_fmod pot (winners.length : Int)
    omega

/-- Witness for C6: pot 101 split between winners 0 and 2 of three stacks. -/
theorem split_pot_spec_witness :
    (∀ i ∈ [0, 2], (split_pot 101 [0, 2] [5, 6, 7]).getD i 0
        = ([5, 6, 7] : List Int).getD i 0 + Int.fdiv 101 (([0, 2] : List Nat).length : Int)) ∧
    (∀ i, i ∉ ([0, 2] : List Nat) → (split_pot 101 [0, 2] [5, 6, 7]).getD i 0
        = ([5, 6, 7] : List Int).getD i 0) ∧
    (split_pot 101 [0, 2] [5, 6, 7]).sum
        = ([5, 6, 7] : List Int).sum + (101 - Int.fmod 101 (([0, 2] : List Nat).length : Int)) :=
  split_pot_spec 101 [0, 2] [5, 6, 7] (by decide) (by decide) (by decide)

/-! ## C9: deck exhaustion -/

theorem deal_hands_success (deck : List Card) (n : Nat) (h : 2 * n ≤ deck.length) :
    ∃ hs d', deal_hands deck n = some (hs, d') ∧ d'.length = deck.length - 2 * n := by
  induction n generalizing deck with
  | zero => exact ⟨[], deck, rfl, by simp⟩
  | succ m ih =>
    have h2 : 2 ≤ deck.length := by omega
    have hdeal : Deck.deal deck 2 = some (deck.take 2, deck.drop 2) := by
      unfold Deck.deal
      rw [if_neg (by omega)]
    have hlen : (deck.drop 2).length = deck.length - 2 := by simp
    obtain ⟨hs, d', hrec, hlen'⟩ := ih (deck.drop 2) (by omega)
    refine ⟨deck.take 2 :: hs, d', ?_, by omega⟩
    simp only [deal_hands, hdeal, Option.bind_eq_bind, Option.some_bind, hrec]

theorem deal_some (d : List Card) (n : Nat) (h : n ≤ d.length) :
    Deck.deal d n = some (d.take n, d.drop n) := by
  unfold Deck.deal
  rw [if_neg (by omega)]

/-- C9: `Deck.deal` fails exactly when more cards are requested than
remain; and starting from a full 52-card deck, the deal sequence of
`play_round` (two hole cards to each of at most nine players, then up to
five community cards) never reaches that failure, whichever streets are
actually dealt. -/
theorem deck_deal_safe :
    (∀ (cards : List Card) (n : Nat), Deck.deal cards n = none ↔ cards.length < n) ∧
    (∀ (deck : List Card) (p : Nat) (f1 f2 f3 : Bool),
      deck.length = 52 → p ≤ 9 → (play_round_deals deck p f1 f2 f3).isSome) := by
  constructor
  · intro cards n
    unfold Deck.deal
    by_cases h : cards.length < n
    · simp [h]
    · simp [h]
  · intro deck p f1 f2 f3 hlen hp
    obtain ⟨hs, d1, hdh, hd1⟩ := deal_hands_success deck p (by omega)
    have hd1len : 5 ≤ d1.length := by omega
    have hflop : ∃ c d2, (if f1 then Deck.deal d1 3 else some ([], d1)) = some (c, d2)
        ∧ 2 ≤ d2.length := by
      cases f1 with
      | false => exact ⟨[], d1, rfl, by omega⟩
      | true =>
        refine ⟨d1.take 3, d1.drop 3, deal_some d1 3 (by omega), ?_⟩
        rw [List.length_drop]
        omega
    obtain ⟨c1, d2, hc1, hd2⟩ := hflop
    have hturn : ∃ c d3, (if f2 then Deck.deal d2 1 else some ([], d2)) = some (c, d3)
        ∧ 1 ≤ d3.length := by
      cases f2 with
      | false => exact ⟨[], d2, rfl, by omega⟩
      | true =>
        refine ⟨d2.take 1, d2.drop 1, deal_some d2 1 (by omega), ?_⟩
        rw [List.length_drop]
        omega
    obtain ⟨c2, d3, hc2, hd3⟩ := hturn
    have hriver : ∃ c d4, (if f3 then Deck.deal d3 1 else some ([], d3)) = some (c, d4) := by
      cases f3 with
      | false => exact ⟨[], d3, rfl⟩
      | true => exact ⟨d3.take 1, d3.drop 1, deal_some d3 1 (by omega)⟩
    obtain ⟨c3, d4, hc3⟩ := hriver
    unfold play_round_deals
    simp only [hdh, hc1, hc2, hc3, Option.isSome_some]

/-- Witness for C9: a concrete full deck with nine players, all streets dealt. -/
theorem deck_deal_safe_witness :
    (Deck.deal [] 1 = none ↔ ([] : List Card).length < 1) ∧
    (play_round_deals ((List.range 52).map (fun i => ⟨i / 13, 2 + i % 13⟩)) 9
      true true true).isSome := by
  constructor
  · exact deck_deal_safe.1 [] 1
  · exact deck_deal_safe.2 _ 9 true true true (by decide) (by decide)

/-! ## C1: showdown winner selection ignores the tie-break -/

/-- A board with no possible straight or flush. -/
def communityC1 : List Card := [⟨0, 3⟩, ⟨2, 5⟩, ⟨3, 7⟩, ⟨1, 9⟩, ⟨0, 11⟩]

/-- Hole cards A♠ A♥ plus the board: a pair of aces. -/
def handAcesC1 : List Card := [⟨0, 14⟩, ⟨1, 14⟩] ++ communityC1

/-- Hole cards K♠ K♦ plus the board: a pair of kings. -/
def handKingsC1 : List Card := [⟨0, 13⟩, ⟨2, 13⟩] ++ communityC1

/-- C1 fails on the code: with a pair of aces against a pair of kings on a
dry board, both hands evaluate to category 1 and the kings' tie-break
sequence is strictly lower, yet `play_round`'s winner filter
(`hand[0] == best_rank`, category only) declares *both* players winners
and splits the pot. -/
theorem showdown_winners_ignore_tiebreak :
    showdown_winners [handAcesC1, handKingsC1] = [0, 1] ∧
    (evaluate_hand handAcesC1).1 = 1 ∧ (evaluate_hand handKingsC1).1 = 1 ∧
    listLt ((evaluate_hand handKingsC1).2.map Card.rank)
      ((evaluate_hand handAcesC1).2.map Card.rank) = true := by decide

/-! ## C4: which actions update `current_bet` / `last_raiser` -/

theorem get_call_amount (player : Player) (currentBet : Int) :
    ∀ (fuel : Nat) (toks : List InTok) (r : ActionResult),
      get_player_action player currentBet fuel toks = some r → r.act = some PAct.call →
      r.amount = min (currentBet - player.currentBet) player.chips := by
  intro fuel
  induction fuel with
  | zero =>
    intro toks r h _
    simp [get_player_action] at h
  | succ n ih =>
    intro toks r h hact
    cases toks with
    | nil => simp [get_player_action] at h
    | cons t ts =>
      cases t with
      | fold =>
        simp only [get_player_action] at h
        obtain rfl := Option.some_injective _ h
        simp at hact
      | check =>
        simp only [get_player_action] at h
        by_cases hlt : player.currentBet < currentBet
        · rw [if_pos hlt] at h
          obtain ⟨r', hr', rfl⟩ := Option.map_eq_some'.mp h
          exact ih ts r' hr' hact
        · rw [if_neg hlt] at h
          obtain rfl := Option.some_injective _ h
          simp at hact
      | call =>
        simp only [get_player_action] at h
        obtain rfl := Option.some_injective _ h
        rfl
      | bet =>
        simp only [get_player_action] at h
        by_cases hle : player.chips ≤ currentBet - player.currentBet
        · rw [if_pos hle] at h
          obtain ⟨r', hr', rfl⟩ := Option.map_eq_some'.mp h
          exact ih ts r' hr' hact
        · rw [if_neg hle] at h
          cases hm : amountLoop true currentBet player.chips (n + 1) ts with
          | none => rw [hm] at h; exact absurd h (by simp)
          | some v =>
            rw [hm] at h
            obtain rfl := Option.some_injective _ h
            simp at hact
      | raise =>
        simp only [get_player_action] at h
        by_cases hle : player.chips ≤ currentBet - player.currentBet
        · rw [if_pos hle] at h
          obtain ⟨r', hr', rfl⟩ := Option.map_eq_some'.mp h
          exact ih ts r' hr' hact
        · rw [if_neg hle] at h
          cases hm : amountLoop false currentBet player.chips (n + 1) ts with
          | none => rw [hm] at h; exact absurd h (by simp)
          | some v =>
            rw [hm] at h
            obtain rfl := Option.some_injective _ h
            simp at hact
      | other =>
        simp only [get_player_action] at h
        obtain ⟨r', hr', rfl⟩ := Option.map_eq_some'.mp h
        exact ih ts r' hr' hact
      | num m =>
        simp only [get_player_action] at h
        obtain ⟨r', hr', rfl⟩ := Option.map_eq_some'.mp h
        exact ih ts r' hr' hact
      | nan =>
        simp only [get_player_action] at h
        obtain ⟨r', hr', rfl⟩ := Option.map_eq_some'.mp h
        exact ih ts r' hr' hact

/-- C4 (amended): a call or check — including the partial all-in call,
whose amount `_get_player_action` clamps to
`min(current_bet - player.current_bet, chips)` — never changes
`current_bet` or `last_raiser`; but a validated bet/raise *always* records
the actor as `last_raiser` and assigns `current_bet` (to the total
commitment when it strictly exceeds the previous `current_bet`, and to the
raw amount otherwise), so an exact-match raise also updates both. -/
theorem betting_action_updates :
    (∀ (st : RoundState) (i : Nat) (amount : Int) (p' : Player),
      ((apply_action st i (some .call) amount p').currentBet = st.currentBet ∧
        (apply_action st i (some .call) amount p').lastRaiser = st.lastRaiser) ∧
      ((apply_action st i (some .check) amount p').currentBet = st.currentBet ∧
        (apply_action st i (some .check) amount p').lastRaiser = st.lastRaiser)) ∧
    (∀ (player : Player) (currentBet : Int) (fuel : Nat) (toks : List InTok)
        (r : ActionResult),
      get_player_action player currentBet fuel toks = some r → r.act = some PAct.call →
      r.amount = min (currentBet - player.currentBet) player.chips) ∧
    (∀ (st : RoundState) (i : Nat) (amount : Int) (p' : Player),
      (apply_action st i (some .raise) amount p').lastRaiser = some i ∧
      (apply_action st i (some .raise) amount p').currentBet =
        (if p'.currentBet + amount > st.currentBet then p'.currentBet + amount else amount)) := by
  refine ⟨?_, ?_, ?_⟩
  · intro st i amount p'
    constructor
    · unfold apply_action
      by_cases h : amount > 0 <;> simp [h]
    · unfold apply_action
      by_cases h : amount > 0 <;> simp [h]
  · intro player currentBet fuel toks r
    exact get_call_amount player currentBet fuel toks r
  · intro st i amount p'
    unfold apply_action
    by_cases h : p'.currentBet + amount > st.currentBet <;> simp [h]

/-- Witness for C4's amended theorem on a concrete state and script. -/
theorem betting_action_updates_witness :
    ((apply_action ⟨[⟨7, 1, false, false⟩], 9, 6, some 0, 1, []⟩ 0 (some .call) 5
        ⟨7, 1, false, false⟩).currentBet = 6 ∧
      (apply_action ⟨[⟨7, 1, false, false⟩], 9, 6, some 0, 1, []⟩ 0 (some .call) 5
        ⟨7, 1, false, false⟩).lastRaiser = some 0) ∧
    ((⟨some PAct.call, min (6 - 1) 3, ⟨3, 1, false, false⟩, [], 1⟩ : ActionResult).amount
      = min (6 - (⟨3, 1, false, false⟩ : Player).currentBet) (⟨3, 1, false, false⟩ : Player).chips) ∧
    ((apply_action ⟨[⟨7, 0, false, false⟩], 9, 40, none, 1, []⟩ 0 (some .raise) 40
        ⟨7, 0, false, false⟩).lastRaiser = some 0) := by
  refine ⟨⟨(betting_action_updates.1 _ 0 5 _).1.1, (betting_action_updates.1 _ 0 5 _).1.2⟩, ?_, ?_⟩
  · exact betting_action_updates.2.1 ⟨3, 1, false, false⟩ 6 2 [.call]
      ⟨some PAct.call, min (6 - 1) 3, ⟨3, 1, false, false⟩, [], 1⟩ (by decide) (by decide)
  · exact (betting_action_updates.2.2 _ 0 40 _).1

/-- C4 fails as stated: facing `current_bet = 40` with no street commitment,
a player may type `raise 40`; `_get_player_action` validates it
(`40 ≥ current_bet`, enough chips) and `_run_betting_round` then lands in
its `else` branch — the total commitment `0 + 40` does *not* strictly
exceed the previous `current_bet`, yet `last_raiser` is set to this player
(and `current_bet` is re-assigned), so the claim's "only an action whose
total commitment strictly exceeds the previous currentBet may update
currentBet and lastAggressor" is false.  The full betting round
`bet 40 / raise 40 / call / call` ends with `last_raiser` pointing at the
exact-match raiser. -/
theorem exact_match_raise_updates_aggressor :
    get_player_action ⟨1000, 0, false, false⟩ 40 5 [.raise, .num 40]
      = some ⟨some .raise, 40, ⟨1000, 0, false, false⟩, [], 1⟩ ∧
    ¬((⟨1000, 0, false, false⟩ : Player).currentBet + 40 >
        (⟨[⟨960, 40, false, false⟩, ⟨1000, 0, false, false⟩, ⟨1000, 0, false, false⟩],
          40, 40, some 0, 3, [0, 1]⟩ : RoundState).currentBet) ∧
    (apply_action ⟨[⟨960, 40, false, false⟩, ⟨1000, 0, false, false⟩, ⟨1000, 0, false, false⟩],
        40, 40, some 0, 3, [0, 1]⟩ 1 (some .raise) 40 ⟨1000, 0, false, false⟩).lastRaiser
      = some 1 ∧
    (apply_action ⟨[⟨960, 40, false, false⟩, ⟨1000, 0, false, false⟩, ⟨1000, 0, false, false⟩],
        40, 40, some 0, 3, [0, 1]⟩ 1 (some .raise) 40 ⟨1000, 0, false, false⟩).currentBet
      = 40 ∧
    (run_betting_round
        [⟨1000, 0, false, false⟩, ⟨1000, 0, false, false⟩, ⟨1000, 0, false, false⟩] 0 0
        [.bet, .num 40, .raise, .num 40, .call, .call] 20 10).map
        (fun out => (out.1.lastRaiser, out.1.currentBet, out.1.pot))
      = some (some 1, 40, 120) := by decide

/-! ## C7: an all-check street -/

theorem List.getD_mem_of_lt (l : List α) (i : Nat) (d : α) (h : i < l.length) :
    l.getD i d ∈ l := by
  induction l generalizing i with
  | nil => simp at h
  | cons x xs ih =>
    cases i with
    | zero => simp [List.getD_cons_zero]
    | succ n =>
      simp only [List.length_cons, Nat.succ_lt_succ_iff] at h
      exact List.mem_cons_of_mem _ (ih n h)

theorem mod_shift_nodup (start n c : Nat) (hn : 0 < n) (hc : c ≤ n) :
    ((List.range c).map (fun j => (start + j) % n)).Nodup := by
  refine List.Nodup.map_on ?_ (List.nodup_range c)
  intro x hx y hy hxy
  rw [List.mem_range] at hx hy
  by_contra hne
  rcases Nat.lt_or_ge x y with hlt | hge
  · have hmod : (start + x) ≡ (start + y) [MOD n] := hxy
    have := (Nat.modEq_iff_dvd' (by omega)).mp hmod
    have hdvd : n ∣ (y - x) := by
      have h2 : start + y - (start + x) = y - x := by omega
      rwa [h2] at this
    have := Nat.le_of_dvd (by omega) hdvd
    omega
  · have hlt : y < x := by omega
    have hmod : (start + y) ≡ (start + x) [MOD n] := hxy.symm
    have := (Nat.modEq_iff_dvd' (by omega)).mp hmod
    have hdvd : n ∣ (x - y) := by
      have h2 : start + x - (start + y) = x - y := by omega
      rwa [h2] at this
    have := Nat.le_of_dvd (by omega) hdvd
    omega

theorem get_check_eval (p : Player) (g m : Nat) (hp : p.currentBet = 0) :
    get_player_action p 0 (g + 1) (InTok.check :: List.replicate m InTok.check)
      = some ⟨some .check, 0, p, List.replicate m InTok.check, 1⟩ := by
  simp only [get_player_action]
  rw [if_neg (by rw [hp]; exact lt_irrefl 0)]

theorem apply_check_eval (st : RoundState) (i : Nat) (p : Player)
    (hp : st.players.getD i default = p) (hi : i < st.players.length) :
    apply_action st i (some .check) 0 p = st := by
  unfold apply_action
  rw [if_neg (by simp), if_pos (Or.inr rfl), if_neg (by omega)]
  have : st.players.set i p = st.players := by
    rw [← hp]
    exact List.set_getD_self _ _ _ hi
  rw [this]

theorem all_check_loop (P : List Player) (start : Nat) (pot : Int) (g : Nat)
    (a : Int) (ha : 1 < a)
    (hstart : start < P.length)
    (hbets : ∀ p ∈ P, p.currentBet = 0)
    (hnf : 1 < ((P.filter (fun q => !q.isFolded)).length : Int)) :
    ∀ (fuel : Nat), ∀ (k m : Nat) (log : List Nat),
      k < P.length → P.length - k ≤ fuel → P.length - k ≤ m →
      ∃ newlog rest,
        betting_loop start (g + 1) fuel ((start + k) % P.length)
            ⟨P, pot, 0, none, a, log⟩ (List.replicate m InTok.check)
          = some (⟨P, pot, 0, none, a, log ++ newlog⟩, rest) ∧
        List.Sublist newlog
          ((List.range (P.length - k)).map (fun j => (start + k + j) % P.length)) := by
  intro fuel
  induction fuel with
  | zero =>
    intro k m log hk hf _
    omega
  | succ f ih =>
    intro k m log hk hf hm
    have hnpos : 0 < P.length := by omega
    have hi : (start + k) % P.length < P.length := Nat.mod_lt _ hnpos
    obtain ⟨m', rfl⟩ : ∃ m', m = m' + 1 := ⟨m - 1, by omega⟩
    have hpmem : P.getD ((start + k) % P.length) default ∈ P :=
      List.getD_mem_of_lt _ _ _ hi
    have hpbet : (P.getD ((start + k) % P.length) default).currentBet = 0 := hbets _ hpmem
    have hadv : ((start + k) % P.length + 1) % P.length = (start + (k + 1)) % P.length := by
      have hieq : (start + k) % P.length % P.length = (start + k) % P.length :=
        Nat.mod_eq_of_lt hi
      have hmodeq : ((start + k) % P.length + 1) % P.length = (start + k + 1) % P.length :=
        Nat.ModEq.add_right 1 (hieq.trans rfl)
      rwa [show start + (k + 1) = start + k + 1 by omega]
    have hwrap : k + 1 = P.length → (start + (k + 1)) % P.length = start := by
      intro hkn
      rw [hkn, Nat.add_mod_right, Nat.mod_eq_of_lt hstart]
    have hnowrap : k + 1 < P.length → (start + (k + 1)) % P.length ≠ start := by
      intro hkn heq
      have h1 : (start + (k + 1)) % P.length = start % P.length := by
        rw [heq, Nat.mod_eq_of_lt hstart]
      have h2 : (start + (k + 1)) ≡ start [MOD P.length] := h1
      have h3 := (Nat.modEq_iff_dvd' (by omega)).mp h2.symm
      have h4 : start + (k + 1) - start = k + 1 := by omega
      rw [h4] at h3
      have := Nat.le_of_dvd (by omega) h3
      omega
    have hrange : (List.range (P.length - k)).map (fun j => (start + k + j) % P.length)
        = (start + k) % P.length ::
          (List.range (P.length - (k + 1))).map (fun j => (start + (k + 1) + j) % P.length) := by
      have h1 : P.length - k = (P.length - (k + 1)) + 1 := by omega
      rw [h1, List.range_succ_eq_map, List.map_cons, List.map_map]
      congr 1
      apply List.map_congr_left
      intro j _
      simp only [Function.comp_apply]
      congr 1
      omega
    simp only [betting_loop]
    rw [if_pos ha]
    try dsimp only
    by_cases hact : (!(P.getD ((start + k) % P.length) default).isFolded
        && !(P.getD ((start + k) % P.length) default).isAllIn) = true
    · -- the player acts: one check
      rw [hact, if_pos rfl, if_neg (by simp)]
      rw [List.replicate_succ, get_check_eval _ g m' hpbet]
      try dsimp only
      rw [apply_check_eval _ ((start + k) % P.length) _ rfl hi]
      try dsimp only
      rw [hadv]
      by_cases hkn : k + 1 = P.length
      · have hcond : (none : Option Nat) = none ∧ (start + (k + 1)) % P.length = start :=
          ⟨rfl, hwrap hkn⟩
        rw [if_pos hcond]
        refine ⟨[(start + k) % P.length], List.replicate m' InTok.check,
          by simp [List.replicate], ?_⟩
        rw [hrange]
        exact List.Sublist.cons₂ _ (List.nil_sublist _)
      · rw [if_neg (by
          intro hc
          exact hnowrap (by omega) hc.2)]
        rw [if_neg (by omega)]
        obtain ⟨newlog', rest, hrec, hsub⟩ :=
          ih (k + 1) m' (log ++ List.replicate 1 ((start + k) % P.length))
            (by omega) (by omega) (by omega)
        refine ⟨(start + k) % P.length :: newlog', rest, ?_, ?_⟩
        · rw [show log ++ (start + k) % P.length :: newlog'
              = (log ++ List.replicate 1 ((start + k) % P.length)) ++ newlog' by simp]
          exact hrec
        · rw [hrange]
          exact List.Sublist.cons₂ _ hsub
    · -- folded or all-in player: skipped
      have hact' : (!(P.getD ((start + k) % P.length) default).isFolded
          && !(P.getD ((start + k) % P.length) default).isAllIn) = false := by
        revert hact
        cases (!(P.getD ((start + k) % P.length) default).isFolded
          && !(P.getD ((start + k) % P.length) default).isAllIn) <;> simp
      rw [hact']
      rw [if_neg (by simp)]
      try dsimp only
      rw [hadv]
      by_cases hkn : k + 1 = P.length
      · have hcond : True ∧ (start + (k + 1)) % P.length = start :=
          ⟨trivial, hwrap hkn⟩
        rw [if_pos hcond]
        exact ⟨[], List.replicate (m' + 1) InTok.check, by simp, List.nil_sublist _⟩
      · rw [if_neg (by
          intro hc
          exact hnowrap (by omega) hc.2)]
        rw [if_neg (by omega)]
        obtain ⟨newlog', rest, hrec, hsub⟩ :=
          ih (k + 1) (m' + 1) log (by omega) (by omega) (by omega)
        refine ⟨newlog', rest, hrec, ?_⟩
        rw [hrange]
        exact hsub.cons _

theorem length_filter_reset (players : List Player) (q : Player → Bool)
    (hq : ∀ p : Player, q { p with currentBet := 0 } = q p) :
    ((players.map (fun p => { p with currentBet := 0 })).filter q).length
      = (players.filter q).length := by
  induction players with
  | nil => rfl
  | cons p ps ih =>
    simp only [List.map_cons, List.filter_cons, hq]
    by_cases h : q p
    · rw [if_pos h, if_pos h]
      simpa using ih
    · rw [if_neg h, if_neg h]
      exact ih

theorem active_le_nonfolded (P : List Player) :
    ((P.filter (fun p => !p.isFolded && !p.isAllIn)).length)
      ≤ ((P.filter (fun p => !p.isFolded)).length) := by
  induction P with
  | nil => exact Nat.le_refl _
  | cons p ps ih =>
    simp only [List.filter_cons]
    by_cases h1 : (!p.isFolded && !p.isAllIn) = true
    · have h2 : (!p.isFolded) = true := by
        revert h1
        cases p.isFolded <;> cases p.isAllIn <;> simp
      rw [if_pos h1, if_pos h2]
      simpa using ih
    · by_cases h2 : (!p.isFolded) = true
      · rw [if_neg h1, if_pos h2]
        simp only [List.length_cons]
        omega
      · rw [if_neg h1, if_neg h2]
        exact ih

/-- C7: in a street where every solicited player checks, the betting round
closes with the pot unchanged, no aggressor recorded, the players exactly
as the street-start reset left them, and a prompt log without duplicates —
each active player is solicited at most once, in one pass from the start
index (fuel `players.length + 1` iterations suffices). -/
theorem all_check_round (players : List Player) (startIndex : Nat) (pot : Int)
    (g m : Nat)
    (hstart : startIndex < players.length)
    (hm : players.length ≤ m) :
    ∃ log rest,
      run_betting_round players startIndex pot (List.replicate m InTok.check)
          (players.length + 1) (g + 1)
        = some (⟨players.map (fun p => { p with currentBet := 0 }), pot, 0, none,
            ((players.filter (fun p => !p.isFolded && !p.isAllIn)).length : Int), log⟩, rest) ∧
      log.Nodup := by
  unfold run_betting_round
  have hlen : (players.map (fun p => { p with currentBet := 0 })).length = players.length := by
    simp
  by_cases ha : 1 <
      ((players.filter (fun p => !p.isFolded && !p.isAllIn)).length : Int)
  · have hbets : ∀ p ∈ players.map (fun p => { p with currentBet := 0 }),
        p.currentBet = 0 := by
      intro p hp
      obtain ⟨q, _, rfl⟩ := List.mem_map.mp hp
      rfl
    have hnf : 1 < (((players.map (fun p => { p with currentBet := 0 })).filter
        (fun q => !q.isFolded)).length : Int) := by
      rw [length_filter_reset players (fun q => !q.isFolded) (fun p => rfl)]
      have h1 := active_le_nonfolded players
      have h2 : ((players.filter (fun p => !p.isFolded && !p.isAllIn)).length : Int)
          ≤ ((players.filter (fun p => !p.isFolded)).length : Int) := by
        exact_mod_cast h1
      omega
    obtain ⟨newlog, rest, hloop, hsub⟩ :=
      all_check_loop (players.map (fun p => { p with currentBet := 0 })) startIndex pot g
        _ ha (by rw [hlen]; exact hstart) hbets hnf
        (players.length + 1) 0 m [] (by omega) (by omega) (by omega)
    refine ⟨newlog, rest, ?_, ?_⟩
    · rw [show startIndex % players.length = (startIndex + 0) %
          (players.map (fun p => { p with currentBet := 0 })).length by
            rw [hlen, Nat.add_zero]]
      rw [hloop]
      simp
    · refine List.Nodup.sublist hsub ?_
      have heq : (List.range ((players.map (fun p => { p with currentBet := 0 })).length - 0)).map
          (fun j => (startIndex + 0 + j) %
            (players.map (fun p => { p with currentBet := 0 })).length)
          = (List.range players.length).map (fun j => (startIndex + j) % players.length) := by
        rw [hlen]
        simp
      rw [heq]
      exact mod_shift_nodup startIndex players.length players.length (by omega) (le_refl _)
  · -- at most one active player: the loop exits immediately
    refine ⟨[], List.replicate m InTok.check, ?_, List.nodup_nil⟩
    simp only [betting_loop]
    rw [if_neg ha]

/-- Witness for C7: three fresh players, start index 1, three check tokens. -/
theorem all_check_round_witness :
    ∃ log rest,
      run_betting_round
          [⟨1000, 0, false, false⟩, ⟨1000, 0, false, false⟩, ⟨1000, 0, false, false⟩] 1 7
          (List.replicate 3 InTok.check) 4 1
        = some (⟨([⟨1000, 0, false, false⟩, ⟨1000, 0, false, false⟩,
              ⟨1000, 0, false, false⟩] : List Player).map (fun p => { p with currentBet := 0 }),
            7, 0, none,
            ((([⟨1000, 0, false, false⟩, ⟨1000, 0, false, false⟩,
              ⟨1000, 0, false, false⟩] : List Player).filter
                (fun p => !p.isFolded && !p.isAllIn)).length : Int), log⟩, rest) ∧
      log.Nodup :=
  all_check_round
    [⟨1000, 0, false, false⟩, ⟨1000, 0, false, false⟩, ⟨1000, 0, false, false⟩]
    1 7 0 3 (by decide) (by decide)

/-! ## Order theory for Python list/tuple comparison -/

theorem listGt_irrefl (a : List Nat) : listGt a a = false := by
  induction a with
  | nil => rfl
  | cons x xs ih => simp [listGt, ih]

theorem listGt_asymm (a b : List Nat) (h : listGt a b = true) : listGt b a = false := by
  induction a generalizing b with
  | nil => cases b <;> simp [listGt] at h ⊢
  | cons x xs ih =>
    cases b with
    | nil => simp [listGt]
    | cons y ys =>
      simp only [listGt] at h ⊢
      by_cases hxy : x > y
      · rw [if_pos hxy] at h
        rw [if_neg (by omega), if_pos hxy]
      · rw [if_neg hxy] at h
        by_cases hyx : x < y
        · rw [if_pos hyx] at h
          exact absurd h (by simp)
        · rw [if_neg hyx] at h
          rw [if_neg (by omega), if_neg (by omega)]
          exact ih ys h

theorem listGt_trans (a b c : List Nat) (hab : listGt a b = true) (hbc : listGt b c = true) :
    listGt a c = true := by
  induction a generalizing b c with
  | nil => cases b <;> simp [listGt] at hab
  | cons x xs ih =>
    cases b with
    | nil => cases c <;> simp [listGt] at hbc
    | cons y ys =>
      cases c with
      | nil => simp [listGt]
      | cons z zs =>
        simp only [listGt] at hab hbc ⊢
        by_cases hxy : x > y <;> by_cases hyz : y > z
        · rw [if_pos (by omega)]
        · rw [if_neg hyz] at hbc
          by_cases hzy : y < z
          · rw [if_pos hzy] at hbc
            exact absurd hbc (by simp)
          · rw [if_pos (by omega)]
        · rw [if_neg hxy] at hab
          by_cases hyx : x < y
          · rw [if_pos hyx] at hab
            exact absurd hab (by simp)
          · rw [if_pos (by omega)]
        · rw [if_neg hxy] at hab
          rw [if_neg hyz] at hbc
          by_cases hyx : x < y
          · rw [if_pos hyx] at hab
            exact absurd hab (by simp)
          · by_cases hzy : y < z
            · rw [if_pos hzy] at hbc
              exact absurd hbc (by simp)
            · rw [if_neg hyx] at hab
              rw [if_neg hzy] at hbc
              have hxz : ¬ x > z := by omega
              have hzx : ¬ x < z := by omega
              rw [if_neg hxz, if_neg hzx]
              exact ih ys zs hab hbc

theorem listGt_total (a b : List Nat) (hab : listGt a b = false) (hba : listGt b a = false) :
    a = b := by
  induction a generalizing b with
  | nil =>
    cases b with
    | nil => rfl
    | cons y ys => simp [listGt] at hba
  | cons x xs ih =>
    cases b with
    | nil => simp [listGt] at hab
    | cons y ys =>
      simp only [listGt] at hab hba
      by_cases hxy : x > y
      · rw [if_pos hxy] at hab
        exact absurd hab (by simp)
      · by_cases hyx : y > x
        · rw [if_pos hyx] at hba
          exact absurd hba (by simp)
        · have hx : x = y := by omega
          subst hx
          rw [if_neg hxy, if_neg (by omega)] at hab
          rw [if_neg hxy, if_neg (by omega)] at hba
          rw [ih ys hab hba]

theorem scoreGt_irrefl (a : Int × List Nat) : scoreGt a a = false := by
  simp [scoreGt, listGt_irrefl]

theorem scoreGt_trans (a b c : Int × List Nat) (hab : scoreGt a b = true)
    (hbc : scoreGt b c = true) : scoreGt a c = true := by
  simp only [scoreGt] at hab hbc ⊢
  by_cases h1 : a.1 > b.1 <;> by_cases h2 : b.1 > c.1
  · rw [if_pos (by omega)]
  · rw [if_neg h2] at hbc
    by_cases h3 : b.1 < c.1
    · rw [if_pos h3] at hbc
      exact absurd hbc (by simp)
    · rw [if_pos (by omega)]
  · rw [if_neg h1] at hab
    by_cases h3 : a.1 < b.1
    · rw [if_pos h3] at hab
      exact absurd hab (by simp)
    · rw [if_pos (by omega)]
  · rw [if_neg h1] at hab
    rw [if_neg h2] at hbc
    by_cases h3 : a.1 < b.1
    · rw [if_pos h3] at hab
      exact absurd hab (by simp)
    · by_cases h4 : b.1 < c.1
      · rw [if_pos h4] at hbc
        exact absurd hbc (by simp)
      · rw [if_neg h3] at hab
        rw [if_neg h4] at hbc
        rw [if_neg (by omega), if_neg (by omega)]
        exact listGt_trans _ _ _ hab hbc

theorem scoreGt_asymm (a b : Int × List Nat) (h : scoreGt a b = true) :
    scoreGt b a = false := by
  simp only [scoreGt] at h ⊢
  by_cases h1 : a.1 > b.1
  · rw [if_neg (by omega), if_pos (by omega)]
  · rw [if_neg h1] at h
    by_cases h2 : a.1 < b.1
    · rw [if_pos h2] at h
      exact absurd h (by simp)
    · rw [if_neg h2] at h
      rw [if_neg (by omega), if_neg (by omega)]
      exact listGt_asymm _ _ h

/-! ## Sorting and combination foundations -/

instance : IsTotal Card rankGe := ⟨fun a b => le_total b.rank a.rank⟩

instance : IsTrans Card rankGe := ⟨fun _ _ _ hab hbc => le_trans hbc hab⟩

theorem sortDesc_sorted (l : List Card) : (sortDesc l).Sorted rankGe :=
  List.sorted_insertionSort rankGe l

theorem sortDesc_perm (l : List Card) : (sortDesc l).Perm l :=
  List.perm_insertionSort rankGe l

theorem sortDesc_eq_self {l : List Card} (h : l.Sorted rankGe) : sortDesc l = l :=
  h.insertionSort_eq

theorem mem_combinations {k : Nat} {l c : List α} :
    c ∈ combinations k l ↔ c.Sublist l ∧ c.length = k := by
  induction l generalizing k c with
  | nil =>
    cases k with
    | zero =>
      simp only [combinations, List.mem_singleton]
      constructor
      · rintro rfl
        exact ⟨List.Sublist.refl _, rfl⟩
      · rintro ⟨hs, hl⟩
        exact List.eq_nil_of_length_eq_zero hl
    | succ m =>
      simp only [combinations, List.not_mem_nil, false_iff, not_and]
      intro hs hl
      have hle := hs.length_le
      simp only [List.length_nil, Nat.le_zero] at hle
      omega
  | cons x xs ih =>
    cases k with
    | zero =>
      simp only [combinations, List.mem_singleton]
      constructor
      · rintro rfl
        exact ⟨List.nil_sublist _, rfl⟩
      · rintro ⟨hs, hl⟩
        exact List.eq_nil_of_length_eq_zero hl
    | succ m =>
      simp only [combinations, List.mem_append, List.mem_map]
      constructor
      · rintro (⟨c', hc', rfl⟩ | hc)
        · obtain ⟨hs, hl⟩ := ih.mp hc'
          exact ⟨hs.cons₂ x, by simp [hl]⟩
        · obtain ⟨hs, hl⟩ := ih.mp hc
          exact ⟨hs.cons x, hl⟩
      · rintro ⟨hs, hl⟩
        cases hs with
        | cons _ h =>
          exact Or.inr (ih.mpr ⟨h, hl⟩)
        | cons₂ _ h =>
          rename_i c'
          exact Or.inl ⟨c', ih.mpr ⟨h, by simpa using hl⟩, rfl⟩

/-- Any size-`k` sub-multiset of `l` appears, in some order, among
`combinations k l`. -/
theorem combinations_of_subperm {k : Nat} {l s : List α}
    (h : s.Subperm l) (hk : s.length = k) :
    ∃ c ∈ combinations k l, c.Perm s := by
  obtain ⟨c, hperm, hsub⟩ := h
  exact ⟨c, mem_combinations.mpr ⟨hsub, by rw [hperm.length_eq, hk]⟩, hperm⟩

/-! ## Category bounds and the category of the evaluator's result -/

/-- The category (`hand_rank`) of one combination. -/
def catOf (c : List Card) : Nat := (classify c).handRank

theorem catOf_le_nine (c : List Card) : catOf c ≤ 9 := by
  unfold catOf classify
  dsimp only
  split_ifs <;> omega

theorem evalStep_fst (b : Int × List Card) (c : List Card) :
    (evalStep b c).1 = max b.1 ((catOf c : Int)) := by
  unfold evalStep catOf
  dsimp only
  by_cases h : scoreGt (((classify c).handRank : Int), (classify c).handValues)
      (b.1, b.2.map Card.rank) = true
  · rw [if_pos h]
    simp only [scoreGt] at h
    by_cases h1 : ((classify c).handRank : Int) > b.1
    · omega
    · rw [if_neg h1] at h
      by_cases h2 : ((classify c).handRank : Int) < b.1
      · rw [if_pos h2] at h
        exact absurd h (by simp)
      · omega
  · rw [if_neg h]
    simp only [scoreGt] at h
    by_cases h1 : ((classify c).handRank : Int) > b.1
    · rw [if_pos h1] at h
      exact absurd h (by simp)
    · omega

theorem foldl_evalStep_fst (cs : List (List Card)) (b : Int × List Card) :
    (cs.foldl evalStep b).1 = cs.foldl (fun m c => max m ((catOf c : Int))) b.1 := by
  induction cs generalizing b with
  | nil => rfl
  | cons c cs ih =>
    simp only [List.foldl_cons]
    rw [ih, evalStep_fst]

theorem foldl_max_le (cs : List (List Card)) (b M : Int)
    (hb : b ≤ M) (hcs : ∀ c ∈ cs, (catOf c : Int) ≤ M) :
    cs.foldl (fun m c => max m ((catOf c : Int))) b ≤ M := by
  induction cs generalizing b with
  | nil => exact hb
  | cons c cs ih =>
    simp only [List.foldl_cons]
    exact ih _ (max_le hb (hcs c (List.mem_cons_self _ _)))
      (fun c' hc' => hcs c' (List.mem_cons_of_mem _ hc'))

theorem foldl_catmax_init_le (cs : List (List Card)) (b : Int) :
    b ≤ cs.foldl (fun m c => max m ((catOf c : Int))) b := by
  induction cs generalizing b with
  | nil => exact le_refl _
  | cons c cs ih =>
    simp only [List.foldl_cons]
    exact le_trans (le_max_left _ _) (ih _)

theorem le_foldl_max (cs : List (List Card)) (b : Int) (c : List Card) (hc : c ∈ cs) :
    (catOf c : Int) ≤ cs.foldl (fun m c => max m ((catOf c : Int))) b := by
  induction cs generalizing b with
  | nil => simp at hc
  | cons c' cs ih =>
    simp only [List.foldl_cons]
    rcases List.mem_cons.mp hc with rfl | hmem
    · exact le_trans (le_max_right _ _) (foldl_catmax_init_le _ _)
    · exact ih _ hmem

theorem foldl_evalStep_mem (cs : List (List Card)) (b : Int × List Card) :
    cs.foldl evalStep b = b ∨
      ∃ c ∈ cs, cs.foldl evalStep b = (((classify c).handRank : Int), (classify c).combo) := by
  induction cs generalizing b with
  | nil => exact Or.inl rfl
  | cons c cs ih =>
    simp only [List.foldl_cons]
    rcases ih (evalStep b c) with heq | ⟨c', hc', heq⟩
    · rw [heq]
      unfold evalStep
      dsimp only
      by_cases h : scoreGt (((classify c).handRank : Int), (classify c).handValues)
          (b.1, b.2.map Card.rank) = true
      · rw [if_pos h]
        exact Or.inr ⟨c, List.mem_cons_self _ _, rfl⟩
      · rw [if_neg h]
        exact Or.inl rfl
    · exact Or.inr ⟨c', List.mem_cons_of_mem _ hc', heq⟩

/-! ## Rank-level views of sorted combinations -/

theorem sortDesc_ranks_perm (c : List Card) :
    ((sortDesc c).map Card.rank).Perm (c.map Card.rank) :=
  (sortDesc_perm c).map _

theorem sortDesc_ranks_sorted (c : List Card) :
    ((sortDesc c).map Card.rank).Sorted (· ≥ ·) :=
  List.Pairwise.map _ (fun _ _ h => h) (sortDesc_sorted c)

theorem ranks_sorted_unique {a b : List Nat} (hp : a.Perm b)
    (ha : a.Sorted (· ≥ ·)) (hb : b.Sorted (· ≥ ·)) : a = b :=
  List.eq_of_perm_of_sorted hp ha hb

/-- The descending rank sequence of `sortDesc c` is determined by the rank
multiset of `c`. -/
theorem sortDesc_ranks_eq {c : List Card} {rs : List Nat}
    (hperm : (c.map Card.rank).Perm rs) (hrs : rs.Sorted (· ≥ ·)) :
    (sortDesc c).map Card.rank = rs :=
  ranks_sorted_unique ((sortDesc_ranks_perm c).trans hperm) (sortDesc_ranks_sorted c) hrs

theorem dedup_replicate_succ (n : Nat) (s : Nat) :
    (List.replicate (n + 1) s).dedup = [s] := by
  induction n with
  | zero =>
    rw [show List.replicate 1 s = [s] from rfl,
      List.dedup_cons_of_not_mem (by simp), List.dedup_nil]
  | succ m ih =>
    rw [List.replicate_succ, List.dedup_cons_of_mem (by simp), ih]

theorem setCard_replicate (n : Nat) (s : Nat) : setCard (List.replicate (n + 1) s) = 1 := by
  unfold setCard
  rw [dedup_replicate_succ]
  rfl

/-! ## C5: royal flushes and other straight flushes -/

theorem suits_replicate (c : List Card) (s : Nat) (h : ∀ x ∈ c, x.suit = s) :
    (sortDesc c).map Card.suit = List.replicate (sortDesc c).length s := by
  rw [List.eq_replicate_iff]
  refine ⟨by simp, ?_⟩
  intro b hb
  obtain ⟨x, hx, rfl⟩ := List.mem_map.mp hb
  exact h x ((sortDesc_perm c).mem_iff.mp hx)

theorem classify_royal (c : List Card) (s : Nat)
    (hperm : (c.map Card.rank).Perm [14, 13, 12, 11, 10])
    (hsuits : ∀ x ∈ c, x.suit = s) :
    catOf c = 9 := by
  have hranks : (sortDesc c).map Card.rank = [14, 13, 12, 11, 10] :=
    sortDesc_ranks_eq hperm (by decide)
  have hlen : (sortDesc c).length = 5 := by
    have := congrArg List.length hranks
    simpa using this
  have hsuits' : (sortDesc c).map Card.suit = List.replicate 5 s := by
    rw [suits_replicate c s hsuits, hlen]
  unfold catOf classify
  dsimp only
  rw [hranks, hsuits']
  rw [show (5 : Nat) = 4 + 1 by rfl, setCard_replicate]
  decide

/-- When no five-card subset is a royal flush but some subset is a straight
flush, the evaluator's category is exactly 8 — it never reports 9.  When the
input contains a royal flush, the category is exactly 9 (C5). -/
theorem evaluate_straight_flush_cats (hand : List Card) (s : Nat) :
    ((∀ r ∈ [10, 11, 12, 13, 14], (⟨s, r⟩ : Card) ∈ hand) → hand.Nodup →
      (evaluate_hand hand).1 = 9) ∧
    ((∃ c ∈ combinations 5 (sortDesc hand), catOf c = 8) →
      (∀ c ∈ combinations 5 (sortDesc hand), catOf c ≠ 9) →
      (evaluate_hand hand).1 = 8) := by
  constructor
  · intro hmem hnd
    -- the royal five cards form a sub-multiset of the hand
    have hsub : ([⟨s, 14⟩, ⟨s, 13⟩, ⟨s, 12⟩, ⟨s, 11⟩, ⟨s, 10⟩] : List Card).Subperm hand := by
      refine (List.subperm_ext_iff).mpr ?_
      intro x hx
      simp only [List.mem_cons, List.not_mem_nil, or_false] at hx
      have hxmem : x ∈ hand := by
        rcases hx with rfl | rfl | rfl | rfl | rfl
        · exact hmem 14 (by norm_num)
        · exact hmem 13 (by norm_num)
        · exact hmem 12 (by norm_num)
        · exact hmem 11 (by norm_num)
        · exact hmem 10 (by norm_num)
      have h1 : List.count x [(⟨s, 14⟩ : Card), ⟨s, 13⟩, ⟨s, 12⟩, ⟨s, 11⟩, ⟨s, 10⟩] ≤ 1 := by
        rcases hx with rfl | rfl | rfl | rfl | rfl <;>
          simp [List.count_cons, Card.mk.injEq]
      have h2 : 1 ≤ List.count x hand := by
        have := List.count_pos_iff_mem.mpr hxmem
        omega
      have h3 : List.count x hand ≤ 1 := List.nodup_iff_count_le_one.mp hnd x
      omega
    have hsub' : ([⟨s, 14⟩, ⟨s, 13⟩, ⟨s, 12⟩, ⟨s, 11⟩, ⟨s, 10⟩] : List Card).Subperm
        (sortDesc hand) := hsub.trans (sortDesc_perm hand).symm.subperm
    obtain ⟨c, hcmem, hcperm⟩ := combinations_of_subperm hsub' rfl
    have hc9 : catOf c = 9 := by
      refine classify_royal c s ?_ ?_
      · simpa using hcperm.map Card.rank
      · intro x hx
        have hx' := hcperm.mem_iff.mp hx
        simp only [List.mem_cons, List.not_mem_nil, or_false] at hx'
        rcases hx' with rfl | rfl | rfl | rfl | rfl
        · rfl
        · rfl
        · rfl
        · rfl
        · rfl
    unfold evaluate_hand
    rw [foldl_evalStep_fst]
    dsimp only
    have hle : (combinations 5 (sortDesc hand)).foldl
        (fun m c => max m ((catOf c : Int))) (-1) ≤ 9 :=
      foldl_max_le _ _ _ (by omega) (fun c' _ => by
        have := catOf_le_nine c'
        omega)
    have hge : (9 : Int) ≤ (combinations 5 (sortDesc hand)).foldl
        (fun m c => max m ((catOf c : Int))) (-1) := by
      have := le_foldl_max (combinations 5 (sortDesc hand)) (-1) c hcmem
      rw [hc9] at this
      exact_mod_cast this
    omega
  · intro ⟨c, hcmem, hc8⟩ hno9
    unfold evaluate_hand
    rw [foldl_evalStep_fst]
    dsimp only
    have hle : (combinations 5 (sortDesc hand)).foldl
        (fun m c => max m ((catOf c : Int))) (-1) ≤ 8 :=
      foldl_max_le _ _ _ (by omega) (fun c' hc' => by
        have h1 := catOf_le_nine c'
        have h2 := hno9 c' hc'
        have : catOf c' ≤ 8 := by omega
        exact_mod_cast this)
    have hge : (8 : Int) ≤ (combinations 5 (sortDesc hand)).foldl
        (fun m c => max m ((catOf c : Int))) (-1) := by
      have := le_foldl_max (combinations 5 (sortDesc hand)) (-1) c hcmem
      rw [hc8] at this
      exact_mod_cast this
    omega

/-- Witness for C5: a concrete royal-flush hand evaluates to 9 and a
concrete steel-wheel (ace-low straight-flush) hand to 8. -/
theorem evaluate_straight_flush_cats_witness :
    (evaluate_hand [⟨0, 10⟩, ⟨0, 11⟩, ⟨0, 12⟩, ⟨0, 13⟩, ⟨0, 14⟩, ⟨1, 2⟩, ⟨2, 7⟩]).1 = 9 ∧
    (evaluate_hand [⟨0, 14⟩, ⟨0, 2⟩, ⟨0, 3⟩, ⟨0, 4⟩, ⟨0, 5⟩, ⟨1, 9⟩, ⟨2, 12⟩]).1 = 8 :=
  ⟨(evaluate_straight_flush_cats
      [⟨0, 10⟩, ⟨0, 11⟩, ⟨0, 12⟩, ⟨0, 13⟩, ⟨0, 14⟩, ⟨1, 2⟩, ⟨2, 7⟩] 0).1
      (by decide) (by decide),
   (evaluate_straight_flush_cats
      [⟨0, 14⟩, ⟨0, 2⟩, ⟨0, 3⟩, ⟨0, 4⟩, ⟨0, 5⟩, ⟨1, 9⟩, ⟨2, 12⟩] 0).2
      (by decide) (by decide)⟩

/-! ## C3: the wheel straight -/

instance : IsTotal Card (wheelIdxLe [5, 4, 3, 2, 14]) :=
  ⟨fun a b => le_total _ _⟩

instance : IsTrans Card (wheelIdxLe [5, 4, 3, 2, 14]) :=
  ⟨fun _ _ _ hab hbc => le_trans hab hbc⟩

theorem wheel_sort_ranks (l : List Card)
    (hperm : (l.map Card.rank).Perm [14, 5, 4, 3, 2]) :
    ((l.insertionSort (wheelIdxLe [5, 4, 3, 2, 14])).map Card.rank) = [5, 4, 3, 2, 14] := by
  have hperm2 : ((l.insertionSort (wheelIdxLe [5, 4, 3, 2, 14])).map Card.rank).Perm
      [14, 5, 4, 3, 2] :=
    ((List.perm_insertionSort _ l).map Card.rank).trans hperm
  have hsorted0 : (l.insertionSort (wheelIdxLe [5, 4, 3, 2, 14])).Sorted
      (wheelIdxLe [5, 4, 3, 2, 14]) :=
    @List.sorted_insertionSort Card (wheelIdxLe [5, 4, 3, 2, 14]) _ _ _ l
  have hsorted : (((l.insertionSort (wheelIdxLe [5, 4, 3, 2, 14])).map Card.rank).map
      (fun r => [5, 4, 3, 2, 14].indexOf r)).Sorted (· ≤ ·) := by
    rw [List.map_map]
    exact List.Pairwise.map _ (fun _ _ h => h) hsorted0
  have hmid : (([14, 5, 4, 3, 2] : List Nat).map
      (fun r => [5, 4, 3, 2, 14].indexOf r)).Perm [0, 1, 2, 3, 4] := by decide
  have hkeyperm : (((l.insertionSort (wheelIdxLe [5, 4, 3, 2, 14])).map Card.rank).map
      (fun r => [5, 4, 3, 2, 14].indexOf r)).Perm [0, 1, 2, 3, 4] :=
    (hperm2.map _).trans hmid
  have hs2 : ([0, 1, 2, 3, 4] : List Nat).Sorted (· ≤ ·) := by decide
  have hkeys : ((l.insertionSort (wheelIdxLe [5, 4, 3, 2, 14])).map Card.rank).map
      (fun r => [5, 4, 3, 2, 14].indexOf r) = [0, 1, 2, 3, 4] :=
    List.eq_of_perm_of_sorted hkeyperm hsorted hs2
  have hptw : ∀ r ∈ (l.insertionSort (wheelIdxLe [5, 4, 3, 2, 14])).map Card.rank,
      id r = ((fun k => ([5, 4, 3, 2, 14] : List Nat).getD k 0) ∘
        (fun r => [5, 4, 3, 2, 14].indexOf r)) r := by
    intro r hr
    have hrmem := hperm2.mem_iff.mp hr
    simp only [List.mem_cons, List.not_mem_nil, or_false] at hrmem
    rcases hrmem with rfl | rfl | rfl | rfl | rfl <;> rfl
  calc (l.insertionSort (wheelIdxLe [5, 4, 3, 2, 14])).map Card.rank
      = ((l.insertionSort (wheelIdxLe [5, 4, 3, 2, 14])).map Card.rank).map id := by
        rw [List.map_id]
    _ = ((l.insertionSort (wheelIdxLe [5, 4, 3, 2, 14])).map Card.rank).map
        ((fun k => ([5, 4, 3, 2, 14] : List Nat).getD k 0) ∘
          (fun r => [5, 4, 3, 2, 14].indexOf r)) := List.map_congr_left hptw
    _ = (((l.insertionSort (wheelIdxLe [5, 4, 3, 2, 14])).map Card.rank).map
        (fun r => [5, 4, 3, 2, 14].indexOf r)).map
          (fun k => ([5, 4, 3, 2, 14] : List Nat).getD k 0) := by
        simp only [List.map_map]
        rfl
    _ = [5, 4, 3, 2, 14] := by
        rw [hkeys]
        rfl

theorem classify_wheel_display (c : List Card)
    (hperm : (c.map Card.rank).Perm [14, 5, 4, 3, 2]) :
    (classify c).combo.map Card.rank = [5, 4, 3, 2, 14] := by
  have hranks : (sortDesc c).map Card.rank = [14, 5, 4, 3, 2] :=
    sortDesc_ranks_eq hperm (by decide)
  have hsortperm : ((sortDesc c).map Card.rank).Perm [14, 5, 4, 3, 2] := by
    rw [hranks]
  unfold classify
  dsimp only
  rw [hranks]
  rw [if_pos (by decide : ((!(setCard [14, 5, 4, 3, 2] == 5 &&
      (maxL [14, 5, 4, 3, 2] - minL [14, 5, 4, 3, 2] == 4))) &&
      sameSet [14, 5, 4, 3, 2] [14, 2, 3, 4, 5]) = true)]
  exact wheel_sort_ranks _ hsortperm

/-- C3: whenever the best hand of a 7-card input is the wheel straight —
every combination's category is at most `M ∈ {4, 8}`, some combination
attains `M`, and every combination attaining `M` has the rank multiset
`{14, 2, 3, 4, 5}` — the evaluator returns category `M ≥ 4` with the
display ranks `[5, 4, 3, 2, 14]`: its tie-break is five-high and compares
strictly below a six-high straight's `[6, 5, 4, 3, 2]` (so the wheel is
never ranked as ace-high). -/
theorem evaluate_wheel (hand : List Card) (M : Nat)
    (hM : M = 4 ∨ M = 8)
    (hub : ∀ c ∈ combinations 5 (sortDesc hand), catOf c ≤ M)
    (hex : ∃ c ∈ combinations 5 (sortDesc hand), catOf c = M)
    (hwheel : ∀ c ∈ combinations 5 (sortDesc hand), catOf c = M →
      (c.map Card.rank).Perm [14, 5, 4, 3, 2]) :
    (evaluate_hand hand).1 = M ∧ 4 ≤ M ∧
    (evaluate_hand hand).2.map Card.rank = [5, 4, 3, 2, 14] ∧
    listLt ((evaluate_hand hand).2.map Card.rank) [6, 5, 4, 3, 2] = true := by
  obtain ⟨c0, hc0mem, hc0⟩ := hex
  have hcat : (evaluate_hand hand).1 = M := by
    unfold evaluate_hand
    rw [foldl_evalStep_fst]
    dsimp only
    have hle : (combinations 5 (sortDesc hand)).foldl
        (fun m c => max m ((catOf c : Int))) (-1) ≤ (M : Int) :=
      foldl_max_le _ _ _ (by omega) (fun c' hc' => by
        have := hub c' hc'
        exact_mod_cast this)
    have hge : ((M : Int)) ≤ (combinations 5 (sortDesc hand)).foldl
        (fun m c => max m ((catOf c : Int))) (-1) := by
      have := le_foldl_max (combinations 5 (sortDesc hand)) (-1) c0 hc0mem
      rw [hc0] at this
      exact this
    omega
  have hM4 : 4 ≤ M := by rcases hM with rfl | rfl <;> omega
  refine ⟨hcat, hM4, ?_, ?_⟩
  · rcases foldl_evalStep_mem (combinations 5 (sortDesc hand)) (-1, []) with heq | ⟨c, hcmem, heq⟩
    · exfalso
      have : (evaluate_hand hand).1 = (-1 : Int) := by
        unfold evaluate_hand
        rw [heq]
      rw [hcat] at this
      omega
    · have hres : evaluate_hand hand = (((classify c).handRank : Int), (classify c).combo) := by
        unfold evaluate_hand
        exact heq
      have hfst : ((classify c).handRank : Int) = (M : Int) := by
        rw [← hcat, hres]
      have hcM : catOf c = M := by
        unfold catOf
        exact_mod_cast hfst
      rw [hres]
      exact classify_wheel_display c (hwheel c hcmem hcM)
  · rcases foldl_evalStep_mem (combinations 5 (sortDesc hand)) (-1, []) with heq | ⟨c, hcmem, heq⟩
    · exfalso
      have : (evaluate_hand hand).1 = (-1 : Int) := by
        unfold evaluate_hand
        rw [heq]
      rw [hcat] at this
      omega
    · have hres : evaluate_hand hand = (((classify c).handRank : Int), (classify c).combo) := by
        unfold evaluate_hand
        exact heq
      have hfst : ((classify c).handRank : Int) = (M : Int) := by
        rw [← hcat, hres]
      have hcM : catOf c = M := by
        unfold catOf
        exact_mod_cast hfst
      have hdisp : (evaluate_hand hand).2.map Card.rank = [5, 4, 3, 2, 14] := by
        rw [hres]
        exact classify_wheel_display c (hwheel c hcmem hcM)
      rw [hdisp]
      decide

/-- Witness for C3: the wheel A♠ 2♥ 3♦ 4♣ 5♠ with side cards 9♦ J♣. -/
theorem evaluate_wheel_witness :
    (evaluate_hand [⟨0, 14⟩, ⟨1, 2⟩, ⟨2, 3⟩, ⟨3, 4⟩, ⟨0, 5⟩, ⟨2, 9⟩, ⟨3, 11⟩]).1 = 4 ∧ 4 ≤ 4 ∧
    (evaluate_hand [⟨0, 14⟩, ⟨1, 2⟩, ⟨2, 3⟩, ⟨3, 4⟩, ⟨0, 5⟩, ⟨2, 9⟩, ⟨3, 11⟩]).2.map Card.rank
      = [5, 4, 3, 2, 14] ∧
    listLt ((evaluate_hand [⟨0, 14⟩, ⟨1, 2⟩, ⟨2, 3⟩, ⟨3, 4⟩, ⟨0, 5⟩, ⟨2, 9⟩, ⟨3, 11⟩]).2.map
      Card.rank) [6, 5, 4, 3, 2] = true :=
  evaluate_wheel [⟨0, 14⟩, ⟨1, 2⟩, ⟨2, 3⟩, ⟨3, 4⟩, ⟨0, 5⟩, ⟨2, 9⟩, ⟨3, 11⟩] 4
    (Or.inl rfl) (by decide) (by decide) (by decide)

/-! ## Pointwise domination of combinations

`Dom l c c'` says that `c` and `c'` are equal-length sublists of `l` and
that, position by position, each element of `c` occurs in `l` no later
than the corresponding element of `c'`.  Such a `c` is enumerated by
`itertools.combinations` no later than `c'`. -/

inductive Dom : List Card → List Card → List Card → Prop where
  | nil (l : List Card) : Dom l [] []
  | take2 (x : Card) {l F F' : List Card} : Dom l F F' → Dom (x :: l) (x :: F) (x :: F')
  | take1 (x : Card) {l F F' : List Card} :
      F' ≠ [] → F'.Sublist l → Dom l F F'.tail → Dom (x :: l) (x :: F) F'
  | skip (x : Card) {l F F' : List Card} : Dom l F F' → Dom (x :: l) F F'

theorem Dom.sublist_left {l F F' : List Card} (h : Dom l F F') : F.Sublist l := by
  induction h with
  | nil => exact List.nil_sublist _
  | take2 x _ ih => exact ih.cons₂ x
  | take1 x _ _ _ ih => exact ih.cons₂ x
  | skip x _ ih => exact ih.cons x

theorem Dom.sublist_right {l F F' : List Card} (h : Dom l F F') : F'.Sublist l := by
  induction h with
  | nil => exact List.nil_sublist _
  | take2 x _ ih => exact ih.cons₂ x
  | take1 x _ hsub _ _ => exact hsub.cons x
  | skip x _ ih => exact ih.cons x

theorem Dom.length_eq {l F F' : List Card} (h : Dom l F F') : F.length = F'.length := by
  induction h with
  | nil => rfl
  | take2 x _ ih => simp [ih]
  | take1 x hne _ _ ih =>
    obtain ⟨y, ys, rfl⟩ := List.exists_cons_of_ne_nil hne
    simpa using ih
  | skip x _ ih => exact ih

theorem Dom.refl {l F : List Card} (h : F.Sublist l) : Dom l F F := by
  induction l generalizing F with
  | nil =>
    have := List.sublist_nil.mp h
    subst this
    exact Dom.nil []
  | cons x xs ih =>
    cases h with
    | cons _ h' => exact Dom.skip x (ih h')
    | cons₂ _ h' => exact Dom.take2 x (ih h')

/-- Counting characterization: if, within every prefix of `l`, `c` has at
least as many elements as `c'`, then `c` pointwise dominates `c'`. -/
theorem dom_of_counts {l : List Card} (hnd : l.Nodup) :
    ∀ {c c' : List Card}, c.Sublist l → c'.Sublist l → c.length = c'.length →
    (∀ p q, l = p ++ q → (c'.filter (· ∈ p)).length ≤ (c.filter (· ∈ p)).length) →
    Dom l c c' := by
  induction l with
  | nil =>
    intro c c' hc hc' _ _
    obtain rfl := List.sublist_nil.mp hc
    obtain rfl := List.sublist_nil.mp hc'
    exact Dom.nil []
  | cons x xs ih =>
    intro c c' hc hc' hlen hcnt
    have hx_not : x ∉ xs := (List.nodup_cons.mp hnd).1
    have hnd' : xs.Nodup := (List.nodup_cons.mp hnd).2
    have filter_drop : ∀ (d : List Card), d.Sublist xs → ∀ (p' : List Card),
        d.filter (· ∈ x :: p') = d.filter (· ∈ p') := by
      intro d hd p'
      refine List.filter_congr ?_
      intro y hy
      have hyx : y ≠ x := by
        intro h
        exact hx_not (h ▸ hd.subset hy)
      simp [List.mem_cons, hyx]
    cases hc with
    | cons _ hcx =>
      -- x ∉ c
      cases hc' with
      | cons _ hcx' =>
        -- x in neither: skip
        refine Dom.skip x (ih hnd' hcx hcx' hlen ?_)
        intro p' q' hsplit
        have h := hcnt (x :: p') q' (by rw [hsplit]; rfl)
        rwa [filter_drop c hcx p', filter_drop c' hcx' p'] at h
      | cons₂ _ h' =>
        -- x ∈ c' but not c: impossible by the one-element prefix [x]
        exfalso
        rename_i F'
        have h := hcnt [x] xs rfl
        have hc'f : (1 : Nat) ≤ ((x :: F').filter (· ∈ [x])).length := by
          simp [List.filter_cons]
        have hcf : (c.filter (· ∈ [x])).length = 0 := by
          rw [List.length_eq_zero, List.filter_eq_nil]
          intro y hy
          have hyx : y ≠ x := by
            intro hh
            exact hx_not (hh ▸ hcx.subset hy)
          simp [hyx]
        omega
    | cons₂ _ hF =>
      rename_i F
      cases hc' with
      | cons₂ _ hF' =>
        -- x at the head of both: take2
        rename_i F'
        refine Dom.take2 x (ih hnd' hF hF' (by simpa using hlen) ?_)
        intro p' q' hsplit
        have h := hcnt (x :: p') q' (by rw [hsplit]; rfl)
        have hxF : x ∉ F := fun hmem => hx_not (hF.subset hmem)
        have hxF' : x ∉ F' := fun hmem => hx_not (hF'.subset hmem)
        have e1 : (x :: F).filter (· ∈ x :: p') = x :: F.filter (· ∈ p') := by
          rw [List.filter_cons, if_pos (by simp)]
          rw [filter_drop F hF p']
        have e2 : (x :: F').filter (· ∈ x :: p') = x :: F'.filter (· ∈ p') := by
          rw [List.filter_cons, if_pos (by simp)]
          rw [filter_drop F' hF' p']
        rw [e1, e2] at h
        simpa using h
      | cons _ hcx' =>
        -- x at the head of c only: take1
        have hne : c' ≠ [] := by
          intro h
          rw [h] at hlen
          simp at hlen
        refine Dom.take1 x hne hcx' (ih hnd' hF ?_ ?_ ?_)
        · exact (List.tail_sublist c').trans hcx'
        · cases c' with
          | nil => exact absurd rfl hne
          | cons y ys => simpa using hlen
        · intro p' q' hsplit
          have h := hcnt (x :: p') q' (by rw [hsplit]; rfl)
          have e1 : (x :: F).filter (· ∈ x :: p') = x :: F.filter (· ∈ p') := by
            rw [List.filter_cons, if_pos (by simp)]
            rw [filter_drop F hF p']
          rw [e1, filter_drop c' hcx' p'] at h
          cases c' with
          | nil => exact absurd rfl hne
          | cons y ys =>
            by_cases hyp : y ∈ p'
            · rw [List.filter_cons, if_pos (by simpa using hyp)] at h
              simp only [List.length_cons] at h
              simpa using Nat.le_of_succ_le_succ h
            · -- y ∉ p': then no element of ys is in p' either
              have hys : (ys.filter (· ∈ p')).length = 0 := by
                rw [List.length_eq_zero, List.filter_eq_nil]
                intro z hz
                -- y :: ys is a sublist of xs = p' ++ q'; its head avoids p',
                -- hence the whole of it lives in q'
                subst hsplit
                obtain ⟨c₁, c₂, hdec, hsub1, hsub2⟩ := List.sublist_append_iff.mp hcx'
                have hc1nil : c₁ = [] := by
                  cases c₁ with
                  | nil => rfl
                  | cons w ws =>
                    exfalso
                    have : w = y := by
                      have := congrArg (fun t => t.head?) hdec
                      simpa using this.symm
                    exact hyp (this ▸ hsub1.subset (List.mem_cons_self _ _))
                rw [hc1nil, List.nil_append] at hdec
                have hzq : z ∈ c₂ := by
                  rw [← hdec]
                  exact List.mem_cons_of_mem _ hz
                have hzq' : z ∈ q' := hsub2.subset hzq
                have hdisj := (List.nodup_append.mp hnd').2.2
                simp only [decide_eq_true_eq]
                intro hzp
                exact hdisj hzp hzq'
              rw [List.filter_cons, if_neg (by simpa using hyp)] at h
              have : (ys.filter (· ∈ p')).length ≤ (F.filter (· ∈ p')).length := by
                rw [hys]
                omega
              simpa using this

/-! ## Enumeration order of `itertools.combinations` -/

theorem combinations_nodup {k : Nat} {l : List α} (hnd : l.Nodup) :
    (combinations k l).Nodup := by
  induction l generalizing k with
  | nil =>
    cases k with
    | zero => simp [combinations]
    | succ m => simp [combinations]
  | cons x xs ih =>
    cases k with
    | zero => simp [combinations]
    | succ m =>
      simp only [combinations]
      rw [List.nodup_append]
      refine ⟨?_, ih (List.nodup_cons.mp hnd).2, ?_⟩
      · exact ((ih (List.nodup_cons.mp hnd).2).map
          (fun a b h => by simpa using h))
      · intro c hc1 hc2
        obtain ⟨c', _, rfl⟩ := List.mem_map.mp hc1
        have hsub := (mem_combinations.mp hc2).1
        exact (List.nodup_cons.mp hnd).1 (hsub.subset (List.mem_cons_self _ _))

/-- A dominating combination is enumerated no later than the combination
it dominates. -/
theorem combinations_dom_precedes {l : List Card} :
    ∀ {k : Nat} {c c' : List Card}, c ∈ combinations k l → c' ∈ combinations k l →
      Dom l c c' →
      ∃ B A, combinations k l = B ++ c :: A ∧ c' ∈ c :: A := by
  induction l with
  | nil =>
    intro k c c' hc hc' _
    cases k with
    | zero =>
      simp only [combinations, List.mem_singleton] at hc hc'
      subst hc
      subst hc'
      exact ⟨[], [], rfl, List.mem_singleton.mpr rfl⟩
    | succ m => simp [combinations] at hc
  | cons x xs ih =>
    intro k c c' hc hc' hdom
    cases k with
    | zero =>
      simp only [combinations, List.mem_singleton] at hc hc'
      subst hc
      subst hc'
      exact ⟨[], [], rfl, List.mem_singleton.mpr rfl⟩
    | succ m =>
      have hlen := (mem_combinations.mp hc).2
      cases hdom with
      | nil => simp at hlen
      | take2 _ hdom' =>
        rename_i F F'
        have hF : F ∈ combinations m xs := by
          refine mem_combinations.mpr ⟨hdom'.sublist_left, ?_⟩
          simpa using hlen
        have hF' : F' ∈ combinations m xs := by
          refine mem_combinations.mpr ⟨hdom'.sublist_right, ?_⟩
          have := (mem_combinations.mp hc').2
          simpa using this
        obtain ⟨B', A', hsplit, hmem⟩ := ih hF hF' hdom'
        refine ⟨(B'.map (x :: ·)), A'.map (x :: ·) ++ combinations (m + 1) xs, ?_, ?_⟩
        · simp only [combinations, hsplit, List.map_append, List.map_cons, List.append_assoc,
            List.cons_append]
        · rcases List.mem_cons.mp hmem with rfl | hmem'
          · exact List.mem_cons_self _ _
          · exact List.mem_cons_of_mem _ (List.mem_append_left _ (List.mem_map_of_mem _ hmem'))
      | take1 _ hne hsub hdom' =>
        rename_i F
        have hF : F ∈ combinations m xs := by
          refine mem_combinations.mpr ⟨hdom'.sublist_left, ?_⟩
          simpa using hlen
        have hcmem1 : x :: F ∈ (combinations m xs).map (x :: ·) :=
          List.mem_map.mpr ⟨F, hF, rfl⟩
        obtain ⟨B1, A1, hsplit1⟩ := List.append_of_mem hcmem1
        refine ⟨B1, A1 ++ combinations (m + 1) xs, ?_, ?_⟩
        · simp only [combinations, hsplit1, List.append_assoc, List.cons_append]
        · refine List.mem_cons_of_mem _ (List.mem_append_right _ ?_)
          exact mem_combinations.mpr ⟨hsub, (mem_combinations.mp hc').2⟩
      | skip _ hdom' =>
        have hcm : c ∈ combinations (m + 1) xs :=
          mem_combinations.mpr ⟨hdom'.sublist_left, hlen⟩
        have hcm' : c' ∈ combinations (m + 1) xs :=
          mem_combinations.mpr ⟨hdom'.sublist_right, (mem_combinations.mp hc').2⟩
        obtain ⟨B', A', hsplit, hmem⟩ := ih hcm hcm' hdom'
        refine ⟨(combinations m xs).map (x :: ·) ++ B', A', ?_, hmem⟩
        simp only [combinations, hsplit, List.append_assoc]

theorem nodup_split_unique_aux {A A' : List α} (a : α) :
    ∀ {B B' : List α}, a ∉ B → a ∉ B' → B ++ a :: A = B' ++ a :: A' →
      B = B' ∧ A = A' := by
  intro B
  induction B with
  | nil =>
    intro B' _ hnb' heq
    cases B' with
    | nil => simpa using heq
    | cons b bs =>
      exfalso
      have hab : a = b := by
        have := congrArg List.head? heq
        simpa using this
      exact hnb' (hab ▸ List.mem_cons_self _ _)
  | cons b bs ihB =>
    intro B' hnb hnb' heq
    cases B' with
    | nil =>
      exfalso
      have hba : b = a := by
        have := congrArg List.head? heq
        simpa using this
      exact hnb (hba ▸ List.mem_cons_self _ _)
    | cons b' bs' =>
      have hb : b = b' := by
        have := congrArg List.head? heq
        simpa using this
      subst hb
      have htail : bs ++ a :: A = bs' ++ a :: A' := by simpa using heq
      obtain ⟨hB, hA⟩ := ihB (fun hm => hnb (List.mem_cons_of_mem _ hm))
        (fun hm => hnb' (List.mem_cons_of_mem _ hm)) htail
      exact ⟨by rw [hB], hA⟩

/-- Unique split of a duplicate-free list at one of its members. -/
theorem nodup_split_unique {l B A B' A' : List α} (hnd : l.Nodup) (a : α)
    (h1 : l = B ++ a :: A) (h2 : l = B' ++ a :: A') : B = B' ∧ A = A' := by
  have hna : a ∉ B := by
    intro hmem
    rw [h1] at hnd
    exact (List.nodup_append.mp hnd).2.2 hmem (List.mem_cons_self _ _)
  have hnb' : a ∉ B' := by
    intro hmem
    rw [h2] at hnd
    exact (List.nodup_append.mp hnd).2.2 hmem (List.mem_cons_self _ _)
  exact nodup_split_unique_aux a hna hnb' (h1.symm.trans h2)

/-! ## Named views of the loop body's intermediate values -/

/-- `ranks` of the loop body: the descending rank sequence of a combination. -/
def ranksOf (c : List Card) : List Nat := (sortDesc c).map Card.rank

/-- `suits` of the loop body. -/
def suitsOf (c : List Card) : List Nat := (sortDesc c).map Card.suit

/-- `is_flush` of the loop body. -/
def isFlushOf (c : List Card) : Bool := setCard (suitsOf c) == 1

/-- `is_straight` of the loop body before the wheel check. -/
def isStraightOf (c : List Card) : Bool :=
  setCard (ranksOf c) == 5 && (maxL (ranksOf c) - minL (ranksOf c) == 4)

/-- The ace-low straight (wheel) test of the loop body. -/
def isWheel (c : List Card) : Bool :=
  !isStraightOf c && sameSet (ranksOf c) [14, 2, 3, 4, 5]

/-- `is_straight` after the wheel check. -/
def isStraight2Of (c : List Card) : Bool := isStraightOf c || isWheel c

/-- `ranks` after the wheel reassignment. -/
def ranks2Of (c : List Card) : List Nat := if isWheel c then [5, 4, 3, 2, 14] else ranksOf c

/-- `sorted_by_count` of the loop body. -/
def sbcOf (c : List Card) : List (Nat × Nat) := sortPairsDesc (rankCounts (ranksOf c))

/-- `counts` of the loop body. -/
def countsOf (c : List Card) : List Nat := (sbcOf c).map Prod.snd

/-- `hand_values` of the loop body. -/
def hvOf (c : List Card) : List Nat := (classify c).handValues

/-- The rank sequence of the stored display combination. -/
def rawOf (c : List Card) : List Nat := (classify c).combo.map Card.rank

/-- The tiebreak key a combination realizes: `hand_values`, with a wheel's key
being `[5, 4, 3, 2, 14]` (high card five), matching its display cards. -/
def trueKey (c : List Card) : List Nat :=
  if isWheel c then [5, 4, 3, 2, 14] else hvOf c

/-- The corrected comparison score of one combination. -/
def trueScore (c : List Card) : Int × List Nat := ((catOf c : Int), trueKey c)

theorem hvOf_eq (c : List Card) : hvOf c = (sbcOf c).map Prod.fst := rfl

theorem catOf_eq (c : List Card) : catOf c =
    (if isStraight2Of c && isFlushOf c then (if (ranks2Of c).headD 0 == 14 then 9 else 8)
     else if (countsOf c).headD 0 == 4 then 7
     else if (countsOf c).take 2 == [3, 2] then 6
     else if isFlushOf c then 5
     else if isStraight2Of c then 4
     else if (countsOf c).headD 0 == 3 then 3
     else if (countsOf c).take 2 == [2, 2] then 2
     else if (countsOf c).headD 0 == 2 then 1
     else 0) := rfl

theorem classify_combo (c : List Card) : (classify c).combo =
    (if isWheel c then (sortDesc c).insertionSort (wheelIdxLe [5, 4, 3, 2, 14])
     else sortDesc c) := rfl

theorem rawOf_eq (c : List Card) : rawOf c =
    ((if isWheel c then (sortDesc c).insertionSort (wheelIdxLe [5, 4, 3, 2, 14])
      else sortDesc c).map Card.rank) := by
  unfold rawOf
  rw [classify_combo]

theorem rawOf_not_wheel {c : List Card} (h : isWheel c = false) : rawOf c = ranksOf c := by
  rw [rawOf_eq, h]
  rfl

/-! ## The strict list order: further facts -/

theorem listGt_cons_cons (a b : Nat) (as bs : List Nat) :
    listGt (a :: as) (b :: bs) =
      (decide (b < a) || (decide (a = b) && listGt as bs)) := by
  simp only [listGt]
  by_cases h1 : a > b
  · rw [if_pos h1]
    have : decide (b < a) = true := by simpa using h1
    rw [this, Bool.true_or]
  · rw [if_neg h1]
    by_cases h2 : a < b
    · rw [if_pos h2]
      have hba : decide (b < a) = false := by simpa using (by omega : ¬ b < a)
      have hab : decide (a = b) = false := by simpa using (by omega : ¬ a = b)
      rw [hba, hab, Bool.false_or, Bool.false_and]
    · rw [if_neg h2]
      have hba : decide (b < a) = false := by simpa using (by omega : ¬ b < a)
      have hab : decide (a = b) = true := by simpa using (by omega : a = b)
      rw [hba, hab, Bool.false_or, Bool.true_and]

theorem listGt_le_trans {a b c : List Nat} (hab : listGt a b = false)
    (hbc : listGt b c = false) : listGt a c = false := by
  cases hac : listGt a c
  · rfl
  · cases hba : listGt b a
    · rw [listGt_total a b hab hba] at hac
      rw [hac] at hbc
      cases hbc
    · have := listGt_trans b a c hba hac
      rw [this] at hbc
      cases hbc

/-! ## `Counter` and `sorted_by_count`: foundations -/

theorem mem_firstOccsAux (l : List Nat) : ∀ (seen : List Nat) (x : Nat),
    x ∈ firstOccsAux seen l ↔ x ∈ l ∧ x ∉ seen := by
  induction l with
  | nil => intro seen x; simp [firstOccsAux]
  | cons y ys ih =>
    intro seen x
    simp only [firstOccsAux]
    by_cases hy : y ∈ seen
    · rw [if_pos hy, ih]
      simp only [List.mem_cons]
      constructor
      · rintro ⟨h1, h2⟩
        exact ⟨Or.inr h1, h2⟩
      · rintro ⟨h1 | h1, h2⟩
        · subst h1
          exact absurd hy h2
        · exact ⟨h1, h2⟩
    · rw [if_neg hy]
      simp only [List.mem_cons, ih, List.mem_cons]
      constructor
      · rintro (rfl | ⟨h1, h2⟩)
        · exact ⟨Or.inl rfl, hy⟩
        · exact ⟨Or.inr h1, fun hx => h2 (Or.inr hx)⟩
      · rintro ⟨rfl | h1, h2⟩
        · exact Or.inl rfl
        · by_cases hxy : x = y
          · exact Or.inl hxy
          · exact Or.inr ⟨h1, fun hx => hx.elim hxy h2⟩

theorem nodup_firstOccsAux (l : List Nat) : ∀ (seen : List Nat),
    (firstOccsAux seen l).Nodup := by
  induction l with
  | nil => intro seen; simp [firstOccsAux]
  | cons y ys ih =>
    intro seen
    simp only [firstOccsAux]
    by_cases hy : y ∈ seen
    · rw [if_pos hy]
      exact ih _
    · rw [if_neg hy]
      refine List.nodup_cons.mpr ⟨fun hmem => ?_, ih _⟩
      exact ((mem_firstOccsAux ys (y :: seen) y).mp hmem).2 (List.mem_cons_self _ _)

theorem mem_firstOccs {l : List Nat} {x : Nat} : x ∈ firstOccs l ↔ x ∈ l := by
  unfold firstOccs
  rw [mem_firstOccsAux]
  simp

theorem nodup_firstOccs (l : List Nat) : (firstOccs l).Nodup := nodup_firstOccsAux l []

theorem mem_rankCounts {rs : List Nat} {p : Nat × Nat} :
    p ∈ rankCounts rs ↔ p.1 ∈ rs ∧ p.2 = rs.count p.1 := by
  unfold rankCounts
  rw [List.mem_map]
  constructor
  · rintro ⟨r, hr, rfl⟩
    exact ⟨mem_firstOccs.mp hr, rfl⟩
  · rintro ⟨h1, h2⟩
    exact ⟨p.1, mem_firstOccs.mpr h1, by rw [← h2]⟩

theorem rankCounts_keys : (rankCounts rs).map Prod.fst = firstOccs rs := by
  unfold rankCounts
  rw [List.map_map]
  exact List.map_id _

theorem rankCounts_keys_nodup (rs : List Nat) :
    ((rankCounts rs).map Prod.fst).Nodup := by
  rw [rankCounts_keys]
  exact nodup_firstOccs rs

instance : IsTotal (Nat × Nat) pairGe :=
  ⟨fun a b => by unfold pairGe; omega⟩

instance : IsTrans (Nat × Nat) pairGe :=
  ⟨fun a b c hab hbc => by unfold pairGe at *; omega⟩

instance : IsAntisymm (Nat × Nat) pairGe :=
  ⟨fun a b hab hba => by
    obtain ⟨a1, a2⟩ := a
    obtain ⟨b1, b2⟩ := b
    simp only [pairGe, Prod.mk.injEq] at hab hba ⊢
    omega⟩

theorem sortPairsDesc_sorted (l : List (Nat × Nat)) : (sortPairsDesc l).Sorted pairGe :=
  List.sorted_insertionSort _ _

theorem sortPairsDesc_perm (l : List (Nat × Nat)) : (sortPairsDesc l).Perm l :=
  List.perm_insertionSort _ _

/-- The sort by `(count, rank)` descending has a unique sorted answer. -/
theorem sortPairsDesc_eq {l L : List (Nat × Nat)} (hp : L.Perm l) (hs : L.Sorted pairGe) :
    sortPairsDesc l = L :=
  List.eq_of_perm_of_sorted ((sortPairsDesc_perm l).trans hp.symm) (sortPairsDesc_sorted l) hs

theorem count_flatMap_list (l : List Nat) (f : Nat → List Nat) (a : Nat) :
    (l.flatMap f).count a = (l.map (fun x => (f x).count a)).sum := by
  induction l with
  | nil => rfl
  | cons x xs ih => simp [List.flatMap_cons, List.count_append, ih]

theorem length_flatMap_list (l : List Nat) (f : Nat → List Nat) :
    (l.flatMap f).length = (l.map (fun x => (f x).length)).sum := by
  induction l with
  | nil => rfl
  | cons x xs ih =>
    simp only [List.flatMap_cons, List.length_append, ih, List.map_cons, List.sum_cons]

theorem sum_map_ite (ks : List Nat) (x : Nat) (v : Nat) :
    (ks.map (fun r => if x = r then v else 0)).sum = ks.count x * v := by
  induction ks with
  | nil => simp
  | cons k ks ih =>
    by_cases h : x = k
    · subst h
      simp only [List.map_cons, List.sum_cons, if_pos rfl, ih, List.count_cons_self,
        Nat.succ_mul]
      exact Nat.add_comm _ _
    · simp only [List.map_cons, List.sum_cons, if_neg h, ih, Nat.zero_add]
      rw [List.count_cons_of_ne h]

/-- A list is, up to permutation, each of its distinct values repeated its
count many times. -/
theorem perm_flat_counts (rs : List Nat) :
    rs.Perm ((firstOccs rs).flatMap (fun r => List.replicate (rs.count r) r)) := by
  rw [List.perm_iff_count]
  intro x
  rw [count_flatMap_list]
  have hmap : ((firstOccs rs).map fun r => (List.replicate (rs.count r) r).count x)
      = (firstOccs rs).map fun r => if x = r then rs.count x else 0 := by
    apply List.map_congr_left
    intro r _
    rw [List.count_replicate]
    by_cases h : x = r
    · rw [if_pos h, if_pos (by simpa using h.symm), h]
    · rw [if_neg h, if_neg (by simpa using fun hh => h hh.symm)]
  rw [hmap, sum_map_ite]
  by_cases hx : x ∈ rs
  · have : (firstOccs rs).count x = 1 :=
      List.count_eq_one_of_mem (nodup_firstOccs rs) (mem_firstOccs.mpr hx)
    rw [this, Nat.one_mul]
  · have h0 : rs.count x = 0 := List.count_eq_zero.mpr hx
    have : (firstOccs rs).count x = 0 := List.count_eq_zero.mpr (fun h => hx (mem_firstOccs.mp h))
    rw [this, h0]

/-- The counts of the distinct values sum to the length. -/
theorem sum_counts_firstOccs (rs : List Nat) :
    ((firstOccs rs).map (fun r => rs.count r)).sum = rs.length := by
  have hlen := (perm_flat_counts rs).length_eq
  rw [length_flatMap_list] at hlen
  have hmap : ((firstOccs rs).map fun x => (List.replicate (rs.count x) x).length)
      = (firstOccs rs).map fun r => rs.count r := by
    apply List.map_congr_left
    intro r _
    rw [List.length_replicate]
  rw [hmap] at hlen
  omega

/-! ## Permutation invariance of the loop body -/

theorem ranksOf_length (c : List Card) : (ranksOf c).length = c.length := by
  unfold ranksOf sortDesc
  rw [List.length_map, List.length_insertionSort]

theorem ranksOf_perm_self (c : List Card) : (ranksOf c).Perm (c.map Card.rank) :=
  sortDesc_ranks_perm c

theorem ranksOf_perm {c c' : List Card} (hp : c.Perm c') : ranksOf c = ranksOf c' :=
  sortDesc_ranks_eq ((hp.map _).trans (sortDesc_ranks_perm c').symm) (sortDesc_ranks_sorted c')

theorem setCard_perm {a b : List Nat} (hp : a.Perm b) : setCard a = setCard b :=
  hp.dedup.length_eq

theorem suitsOf_perm {c c' : List Card} (hp : c.Perm c') : (suitsOf c).Perm (suitsOf c') :=
  ((sortDesc_perm c).map _).trans ((hp.map _).trans ((sortDesc_perm c').map _).symm)

theorem isFlushOf_perm {c c' : List Card} (hp : c.Perm c') : isFlushOf c = isFlushOf c' := by
  unfold isFlushOf
  rw [setCard_perm (suitsOf_perm hp)]

theorem isWheel_perm {c c' : List Card} (hp : c.Perm c') : isWheel c = isWheel c' := by
  unfold isWheel isStraightOf
  rw [ranksOf_perm hp]

theorem hvOf_perm {c c' : List Card} (hp : c.Perm c') : hvOf c = hvOf c' := by
  rw [hvOf_eq, hvOf_eq]
  unfold sbcOf
  rw [ranksOf_perm hp]

theorem catOf_perm {c c' : List Card} (hp : c.Perm c') : catOf c = catOf c' := by
  rw [catOf_eq, catOf_eq]
  unfold isStraight2Of isStraightOf ranks2Of countsOf sbcOf isWheel isStraightOf
  rw [ranksOf_perm hp, isFlushOf_perm hp]

theorem trueKey_perm {c c' : List Card} (hp : c.Perm c') : trueKey c = trueKey c' := by
  unfold trueKey
  rw [isWheel_perm hp, hvOf_perm hp]

theorem trueScore_perm {c c' : List Card} (hp : c.Perm c') : trueScore c = trueScore c' := by
  unfold trueScore
  rw [catOf_perm hp, trueKey_perm hp]

/-! ## The wheel rank multiset -/

theorem perm_of_nodup_mem_iff {α : Type} {a b : List α} (ha : a.Nodup) (hb : b.Nodup)
    (h : ∀ x, x ∈ a ↔ x ∈ b) : a.Perm b := by
  have h1 : a.Subperm b := ha.subperm (fun x hx => (h x).mp hx)
  have h2 : b.Subperm a := hb.subperm (fun x hx => (h x).mpr hx)
  exact h1.perm_of_length_le h2.length_le

theorem sameSet_five_perm {a : List Nat} (hlen : a.length = 5)
    (hs : sameSet a [14, 2, 3, 4, 5] = true) : a.Perm [14, 5, 4, 3, 2] := by
  simp only [sameSet, Bool.and_eq_true, List.all_eq_true, decide_eq_true_eq] at hs
  obtain ⟨h1, h2⟩ := hs
  have hsub : ([14, 5, 4, 3, 2] : List Nat) ⊆ a := by
    intro x hx
    apply h2
    simp only [List.mem_cons, List.not_mem_nil, or_false] at hx ⊢
    rcases hx with rfl | rfl | rfl | rfl | rfl <;> simp
  have hsp : ([14, 5, 4, 3, 2] : List Nat).Subperm a :=
    (by decide : ([14, 5, 4, 3, 2] : List Nat).Nodup).subperm hsub
  exact (hsp.perm_of_length_le (by rw [hlen]; decide)).symm

theorem isWheel_ranks_perm {c : List Card} (h5 : c.length = 5) (hw : isWheel c = true) :
    (ranksOf c).Perm [14, 5, 4, 3, 2] := by
  unfold isWheel at hw
  simp only [Bool.and_eq_true] at hw
  exact sameSet_five_perm (by rw [ranksOf_length, h5]) hw.2

/-! ## Facts about `sorted_by_count` of a combination -/

theorem rankCounts_perm {rs rs' : List Nat} (hp : rs.Perm rs') :
    (rankCounts rs).Perm (rankCounts rs') := by
  unfold rankCounts
  have hkeys : (firstOccs rs).Perm (firstOccs rs') :=
    perm_of_nodup_mem_iff (nodup_firstOccs _) (nodup_firstOccs _)
      (fun x => by rw [mem_firstOccs, mem_firstOccs, hp.mem_iff])
  have hfun : ((firstOccs rs).map fun r => (r, rs.count r))
      = (firstOccs rs).map fun r => (r, rs'.count r) :=
    List.map_congr_left (fun r _ => by rw [hp.count_eq])
  rw [hfun]
  exact hkeys.map _

theorem sbcOf_sorted (c : List Card) : (sbcOf c).Sorted pairGe :=
  sortPairsDesc_sorted _

theorem mem_sbcOf {c : List Card} {p : Nat × Nat} :
    p ∈ sbcOf c ↔ p.1 ∈ ranksOf c ∧ p.2 = (ranksOf c).count p.1 := by
  unfold sbcOf
  rw [(sortPairsDesc_perm _).mem_iff]
  exact mem_rankCounts

theorem sbcOf_keys_nodup (c : List Card) : ((sbcOf c).map Prod.fst).Nodup :=
  ((sortPairsDesc_perm _).map _).nodup_iff.mpr (rankCounts_keys_nodup _)

theorem sbcOf_sum_counts {c : List Card} (h5 : c.length = 5) :
    ((sbcOf c).map Prod.snd).sum = 5 := by
  have hperm : ((sbcOf c).map Prod.snd).Perm ((rankCounts (ranksOf c)).map Prod.snd) :=
    (sortPairsDesc_perm _).map _
  rw [hperm.sum_eq]
  unfold rankCounts
  rw [List.map_map]
  have heq : (Prod.snd ∘ fun r => (r, (ranksOf c).count r)) =
      fun r => (ranksOf c).count r := rfl
  rw [heq, sum_counts_firstOccs, ranksOf_length, h5]

theorem countsOf_sorted (c : List Card) : (countsOf c).Sorted (· ≥ ·) :=
  List.Pairwise.map _ (fun a b h => by unfold pairGe at h; omega) (sbcOf_sorted c)

theorem headD_ge_of_sorted {l : List Nat} (hs : l.Sorted (· ≥ ·)) {x : Nat} (hx : x ∈ l) :
    x ≤ l.headD 0 := by
  cases l with
  | nil => cases hx
  | cons a as =>
    rcases List.mem_cons.mp hx with rfl | h
    · exact le_refl _
    · exact (List.sorted_cons.mp hs).1 x h

theorem count_le_countsHead {c : List Card} {r : Nat} (hr : r ∈ ranksOf c) :
    (ranksOf c).count r ≤ (countsOf c).headD 0 := by
  have hmem : ((ranksOf c).count r) ∈ countsOf c := by
    unfold countsOf
    exact List.mem_map.mpr ⟨(r, (ranksOf c).count r), mem_sbcOf.mpr ⟨hr, rfl⟩, rfl⟩
  exact headD_ge_of_sorted (countsOf_sorted c) hmem

/-! ## The `sorted_by_count` value of each rank-multiset shape -/

theorem rankCounts_perm_explicit {rs : List Nat} {L : List (Nat × Nat)}
    (hnd : L.Nodup)
    (hmem : ∀ x : Nat × Nat, x ∈ L ↔ x.1 ∈ rs ∧ x.2 = rs.count x.1) :
    L.Perm (rankCounts rs) :=
  perm_of_nodup_mem_iff hnd (List.Nodup.of_map _ (rankCounts_keys_nodup _))
    (fun x => by rw [hmem, mem_rankCounts])

/-- `sorted_by_count` of a one-pair multiset. -/
theorem sbc_pair {c : List Card} {p a b d : Nat}
    (hp : (ranksOf c).Perm [p, p, a, b, d])
    (h1 : a > b) (h2 : b > d) (hpa : p ≠ a) (hpb : p ≠ b) (hpd : p ≠ d) :
    sbcOf c = [(p, 2), (a, 1), (b, 1), (d, 1)] := by
  have nab : ¬ (a = b) := by omega
  have nad : ¬ (a = d) := by omega
  have nba : ¬ (b = a) := by omega
  have nbd : ¬ (b = d) := by omega
  have nda : ¬ (d = a) := by omega
  have ndb : ¬ (d = b) := by omega
  have npa : ¬ (p = a) := hpa
  have npb : ¬ (p = b) := hpb
  have npd : ¬ (p = d) := hpd
  have nap : ¬ (a = p) := by omega
  have nbp : ¬ (b = p) := by omega
  have ndp : ¬ (d = p) := by omega
  have hcp : (ranksOf c).count p = 2 := by
    rw [hp.count_eq]
    simp [List.count_cons, List.count_nil, beq_iff_eq, npa, npb, npd]
  have hca : (ranksOf c).count a = 1 := by
    rw [hp.count_eq]
    simp [List.count_cons, List.count_nil, beq_iff_eq, nap, nab, nad]
  have hcb : (ranksOf c).count b = 1 := by
    rw [hp.count_eq]
    simp [List.count_cons, List.count_nil, beq_iff_eq, nbp, nba, nbd]
  have hcd : (ranksOf c).count d = 1 := by
    rw [hp.count_eq]
    simp [List.count_cons, List.count_nil, beq_iff_eq, ndp, nda, ndb]
  unfold sbcOf
  apply sortPairsDesc_eq
  · refine rankCounts_perm_explicit ?_ ?_
    · simp only [List.nodup_cons, List.mem_cons, List.not_mem_nil, or_false,
        Prod.mk.injEq, not_or, List.nodup_nil, not_and, and_true, not_false_iff, true_and]
      omega
    · intro x
      obtain ⟨x1, x2⟩ := x
      simp only [List.mem_cons, List.not_mem_nil, or_false, Prod.mk.injEq]
      constructor
      · rintro (⟨rfl, rfl⟩ | ⟨rfl, rfl⟩ | ⟨rfl, rfl⟩ | ⟨rfl, rfl⟩)
        · exact ⟨hp.mem_iff.mpr (by simp), hcp.symm⟩
        · exact ⟨hp.mem_iff.mpr (by simp), hca.symm⟩
        · exact ⟨hp.mem_iff.mpr (by simp), hcb.symm⟩
        · exact ⟨hp.mem_iff.mpr (by simp), hcd.symm⟩
      · rintro ⟨hx1, hx2⟩
        have hm := hp.mem_iff.mp hx1
        simp only [List.mem_cons, List.not_mem_nil, or_false] at hm
        rcases hm with rfl | rfl | rfl | rfl | rfl
        · rw [hcp] at hx2
          exact Or.inl ⟨rfl, hx2⟩
        · rw [hcp] at hx2
          exact Or.inl ⟨rfl, hx2⟩
        · rw [hca] at hx2
          exact Or.inr (Or.inl ⟨rfl, hx2⟩)
        · rw [hcb] at hx2
          exact Or.inr (Or.inr (Or.inl ⟨rfl, hx2⟩))
        · rw [hcd] at hx2
          exact Or.inr (Or.inr (Or.inr ⟨rfl, hx2⟩))
  · simp only [List.sorted_cons, List.mem_cons, List.not_mem_nil, or_false, List.sorted_nil,
      and_true, pairGe, forall_eq_or_imp, forall_eq, false_implies, implies_true,
      not_false_iff, true_and]
    omega


/-- `sorted_by_count` of the `distinct5` rank-multiset shape. -/
theorem sbc_distinct5 {c : List Card} {a b d e f : Nat}
    (hp : (ranksOf c).Perm [a, b, d, e, f])
    (h1 : a > b) (h2 : b > d) (h3 : d > e) (h4 : e > f) :
    sbcOf c = [(a, 1), (b, 1), (d, 1), (e, 1), (f, 1)] := by
  have nab : ¬ (a = b) := by omega
  have nad : ¬ (a = d) := by omega
  have nae : ¬ (a = e) := by omega
  have naf : ¬ (a = f) := by omega
  have nba : ¬ (b = a) := by omega
  have nbd : ¬ (b = d) := by omega
  have nbe : ¬ (b = e) := by omega
  have nbf : ¬ (b = f) := by omega
  have nda : ¬ (d = a) := by omega
  have ndb : ¬ (d = b) := by omega
  have nde : ¬ (d = e) := by omega
  have ndf : ¬ (d = f) := by omega
  have nea : ¬ (e = a) := by omega
  have neb : ¬ (e = b) := by omega
  have ned : ¬ (e = d) := by omega
  have nef : ¬ (e = f) := by omega
  have nfa : ¬ (f = a) := by omega
  have nfb : ¬ (f = b) := by omega
  have nfd : ¬ (f = d) := by omega
  have nfe : ¬ (f = e) := by omega
  have hca : (ranksOf c).count a = 1 := by
    rw [hp.count_eq]
    simp [List.count_cons, List.count_nil, beq_iff_eq, nab, nad, nae, naf]
  have hcb : (ranksOf c).count b = 1 := by
    rw [hp.count_eq]
    simp [List.count_cons, List.count_nil, beq_iff_eq, nba, nbd, nbe, nbf]
  have hcd : (ranksOf c).count d = 1 := by
    rw [hp.count_eq]
    simp [List.count_cons, List.count_nil, beq_iff_eq, nda, ndb, nde, ndf]
  have hce : (ranksOf c).count e = 1 := by
    rw [hp.count_eq]
    simp [List.count_cons, List.count_nil, beq_iff_eq, nea, neb, ned, nef]
  have hcf : (ranksOf c).count f = 1 := by
    rw [hp.count_eq]
    simp [List.count_cons, List.count_nil, beq_iff_eq, nfa, nfb, nfd, nfe]
  unfold sbcOf
  apply sortPairsDesc_eq
  · refine rankCounts_perm_explicit ?_ ?_
    · simp only [List.nodup_cons, List.mem_cons, List.not_mem_nil, or_false,
        Prod.mk.injEq, not_or, List.nodup_nil, not_and, and_true, not_false_iff, true_and]
      omega
    · intro x
      obtain ⟨x1, x2⟩ := x
      simp only [List.mem_cons, List.not_mem_nil, or_false, Prod.mk.injEq]
      constructor
      · rintro (⟨rfl, rfl⟩ | ⟨rfl, rfl⟩ | ⟨rfl, rfl⟩ | ⟨rfl, rfl⟩ | ⟨rfl, rfl⟩)
        · exact ⟨hp.mem_iff.mpr (by simp), hca.symm⟩
        · exact ⟨hp.mem_iff.mpr (by simp), hcb.symm⟩
        · exact ⟨hp.mem_iff.mpr (by simp), hcd.symm⟩
        · exact ⟨hp.mem_iff.mpr (by simp), hce.symm⟩
        · exact ⟨hp.mem_iff.mpr (by simp), hcf.symm⟩
      · rintro ⟨hx1, hx2⟩
        have hm := hp.mem_iff.mp hx1
        simp only [List.mem_cons, List.not_mem_nil, or_false] at hm
        rcases hm with rfl | rfl | rfl | rfl | rfl
        · rw [hca] at hx2
          exact Or.inl ⟨rfl, hx2⟩
        · rw [hcb] at hx2
          exact Or.inr (Or.inl ⟨rfl, hx2⟩)
        · rw [hcd] at hx2
          exact Or.inr (Or.inr (Or.inl ⟨rfl, hx2⟩))
        · rw [hce] at hx2
          exact Or.inr (Or.inr (Or.inr (Or.inl ⟨rfl, hx2⟩)))
        · rw [hcf] at hx2
          exact Or.inr (Or.inr (Or.inr (Or.inr (⟨rfl, hx2⟩))))
  · simp only [List.sorted_cons, List.mem_cons, List.not_mem_nil, or_false, List.sorted_nil,
      and_true, pairGe, forall_eq_or_imp, forall_eq, false_implies, implies_true,
      not_false_iff, true_and]
    omega

/-- `sorted_by_count` of the `twopair` rank-multiset shape. -/
theorem sbc_twopair {c : List Card} {p q k : Nat}
    (hp : (ranksOf c).Perm [p, p, q, q, k])
    (h1 : p > q) (hkp : k ≠ p) (hkq : k ≠ q) :
    sbcOf c = [(p, 2), (q, 2), (k, 1)] := by
  have npq : ¬ (p = q) := by omega
  have npk : ¬ (p = k) := by omega
  have nqp : ¬ (q = p) := by omega
  have nqk : ¬ (q = k) := by omega
  have nkp : ¬ (k = p) := by omega
  have nkq : ¬ (k = q) := by omega
  have hcp : (ranksOf c).count p = 2 := by
    rw [hp.count_eq]
    simp [List.count_cons, List.count_nil, beq_iff_eq, npq, npk]
  have hcq : (ranksOf c).count q = 2 := by
    rw [hp.count_eq]
    simp [List.count_cons, List.count_nil, beq_iff_eq, nqp, nqk]
  have hck : (ranksOf c).count k = 1 := by
    rw [hp.count_eq]
    simp [List.count_cons, List.count_nil, beq_iff_eq, nkp, nkq]
  unfold sbcOf
  apply sortPairsDesc_eq
  · refine rankCounts_perm_explicit ?_ ?_
    · simp only [List.nodup_cons, List.mem_cons, List.not_mem_nil, or_false,
        Prod.mk.injEq, not_or, List.nodup_nil, not_and, and_true, not_false_iff, true_and]
      omega
    · intro x
      obtain ⟨x1, x2⟩ := x
      simp only [List.mem_cons, List.not_mem_nil, or_false, Prod.mk.injEq]
      constructor
      · rintro (⟨rfl, rfl⟩ | ⟨rfl, rfl⟩ | ⟨rfl, rfl⟩)
        · exact ⟨hp.mem_iff.mpr (by simp), hcp.symm⟩
        · exact ⟨hp.mem_iff.mpr (by simp), hcq.symm⟩
        · exact ⟨hp.mem_iff.mpr (by simp), hck.symm⟩
      · rintro ⟨hx1, hx2⟩
        have hm := hp.mem_iff.mp hx1
        simp only [List.mem_cons, List.not_mem_nil, or_false] at hm
        rcases hm with rfl | rfl | rfl | rfl | rfl
        · rw [hcp] at hx2
          exact Or.inl ⟨rfl, hx2⟩
        · rw [hcp] at hx2
          exact Or.inl ⟨rfl, hx2⟩
        · rw [hcq] at hx2
          exact Or.inr (Or.inl ⟨rfl, hx2⟩)
        · rw [hcq] at hx2
          exact Or.inr (Or.inl ⟨rfl, hx2⟩)
        · rw [hck] at hx2
          exact Or.inr (Or.inr (⟨rfl, hx2⟩))
  · simp only [List.sorted_cons, List.mem_cons, List.not_mem_nil, or_false, List.sorted_nil,
      and_true, pairGe, forall_eq_or_imp, forall_eq, false_implies, implies_true,
      not_false_iff, true_and]
    omega

/-- `sorted_by_count` of the `trips` rank-multiset shape. -/
theorem sbc_trips {c : List Card} {t a b : Nat}
    (hp : (ranksOf c).Perm [t, t, t, a, b])
    (h1 : a > b) (hta : t ≠ a) (htb : t ≠ b) :
    sbcOf c = [(t, 3), (a, 1), (b, 1)] := by
  have nta : ¬ (t = a) := by omega
  have ntb : ¬ (t = b) := by omega
  have nat : ¬ (a = t) := by omega
  have nab : ¬ (a = b) := by omega
  have nbt : ¬ (b = t) := by omega
  have nba : ¬ (b = a) := by omega
  have hct : (ranksOf c).count t = 3 := by
    rw [hp.count_eq]
    simp [List.count_cons, List.count_nil, beq_iff_eq, nta, ntb]
  have hca : (ranksOf c).count a = 1 := by
    rw [hp.count_eq]
    simp [List.count_cons, List.count_nil, beq_iff_eq, nat, nab]
  have hcb : (ranksOf c).count b = 1 := by
    rw [hp.count_eq]
    simp [List.count_cons, List.count_nil, beq_iff_eq, nbt, nba]
  unfold sbcOf
  apply sortPairsDesc_eq
  · refine rankCounts_perm_explicit ?_ ?_
    · simp only [List.nodup_cons, List.mem_cons, List.not_mem_nil, or_false,
        Prod.mk.injEq, not_or, List.nodup_nil, not_and, and_true, not_false_iff, true_and]
      omega
    · intro x
      obtain ⟨x1, x2⟩ := x
      simp only [List.mem_cons, List.not_mem_nil, or_false, Prod.mk.injEq]
      constructor
      · rintro (⟨rfl, rfl⟩ | ⟨rfl, rfl⟩ | ⟨rfl, rfl⟩)
        · exact ⟨hp.mem_iff.mpr (by simp), hct.symm⟩
        · exact ⟨hp.mem_iff.mpr (by simp), hca.symm⟩
        · exact ⟨hp.mem_iff.mpr (by simp), hcb.symm⟩
      · rintro ⟨hx1, hx2⟩
        have hm := hp.mem_iff.mp hx1
        simp only [List.mem_cons, List.not_mem_nil, or_false] at hm
        rcases hm with rfl | rfl | rfl | rfl | rfl
        · rw [hct] at hx2
          exact Or.inl ⟨rfl, hx2⟩
        · rw [hct] at hx2
          exact Or.inl ⟨rfl, hx2⟩
        · rw [hct] at hx2
          exact Or.inl ⟨rfl, hx2⟩
        · rw [hca] at hx2
          exact Or.inr (Or.inl ⟨rfl, hx2⟩)
        · rw [hcb] at hx2
          exact Or.inr (Or.inr (⟨rfl, hx2⟩))
  · simp only [List.sorted_cons, List.mem_cons, List.not_mem_nil, or_false, List.sorted_nil,
      and_true, pairGe, forall_eq_or_imp, forall_eq, false_implies, implies_true,
      not_false_iff, true_and]
    omega

/-- `sorted_by_count` of the `full` rank-multiset shape. -/
theorem sbc_full {c : List Card} {t q : Nat}
    (hp : (ranksOf c).Perm [t, t, t, q, q])
    (htq : t ≠ q) :
    sbcOf c = [(t, 3), (q, 2)] := by
  have ntq : ¬ (t = q) := by omega
  have nqt : ¬ (q = t) := by omega
  have hct : (ranksOf c).count t = 3 := by
    rw [hp.count_eq]
    simp [List.count_cons, List.count_nil, beq_iff_eq, ntq]
  have hcq : (ranksOf c).count q = 2 := by
    rw [hp.count_eq]
    simp [List.count_cons, List.count_nil, beq_iff_eq, nqt]
  unfold sbcOf
  apply sortPairsDesc_eq
  · refine rankCounts_perm_explicit ?_ ?_
    · simp only [List.nodup_cons, List.mem_cons, List.not_mem_nil, or_false,
        Prod.mk.injEq, not_or, List.nodup_nil, not_and, and_true, not_false_iff, true_and]
      omega
    · intro x
      obtain ⟨x1, x2⟩ := x
      simp only [List.mem_cons, List.not_mem_nil, or_false, Prod.mk.injEq]
      constructor
      · rintro (⟨rfl, rfl⟩ | ⟨rfl, rfl⟩)
        · exact ⟨hp.mem_iff.mpr (by simp), hct.symm⟩
        · exact ⟨hp.mem_iff.mpr (by simp), hcq.symm⟩
      · rintro ⟨hx1, hx2⟩
        have hm := hp.mem_iff.mp hx1
        simp only [List.mem_cons, List.not_mem_nil, or_false] at hm
        rcases hm with rfl | rfl | rfl | rfl | rfl
        · rw [hct] at hx2
          exact Or.inl ⟨rfl, hx2⟩
        · rw [hct] at hx2
          exact Or.inl ⟨rfl, hx2⟩
        · rw [hct] at hx2
          exact Or.inl ⟨rfl, hx2⟩
        · rw [hcq] at hx2
          exact Or.inr (⟨rfl, hx2⟩)
        · rw [hcq] at hx2
          exact Or.inr (⟨rfl, hx2⟩)
  · simp only [List.sorted_cons, List.mem_cons, List.not_mem_nil, or_false, List.sorted_nil,
      and_true, pairGe, forall_eq_or_imp, forall_eq, false_implies, implies_true,
      not_false_iff, true_and]
    omega

/-- `sorted_by_count` of the `quads` rank-multiset shape. -/
theorem sbc_quads {c : List Card} {q k : Nat}
    (hp : (ranksOf c).Perm [q, q, q, q, k])
    (hqk : q ≠ k) :
    sbcOf c = [(q, 4), (k, 1)] := by
  have nqk : ¬ (q = k) := by omega
  have nkq : ¬ (k = q) := by omega
  have hcq : (ranksOf c).count q = 4 := by
    rw [hp.count_eq]
    simp [List.count_cons, List.count_nil, beq_iff_eq, nqk]
  have hck : (ranksOf c).count k = 1 := by
    rw [hp.count_eq]
    simp [List.count_cons, List.count_nil, beq_iff_eq, nkq]
  unfold sbcOf
  apply sortPairsDesc_eq
  · refine rankCounts_perm_explicit ?_ ?_
    · simp only [List.nodup_cons, List.mem_cons, List.not_mem_nil, or_false,
        Prod.mk.injEq, not_or, List.nodup_nil, not_and, and_true, not_false_iff, true_and]
      omega
    · intro x
      obtain ⟨x1, x2⟩ := x
      simp only [List.mem_cons, List.not_mem_nil, or_false, Prod.mk.injEq]
      constructor
      · rintro (⟨rfl, rfl⟩ | ⟨rfl, rfl⟩)
        · exact ⟨hp.mem_iff.mpr (by simp), hcq.symm⟩
        · exact ⟨hp.mem_iff.mpr (by simp), hck.symm⟩
      · rintro ⟨hx1, hx2⟩
        have hm := hp.mem_iff.mp hx1
        simp only [List.mem_cons, List.not_mem_nil, or_false] at hm
        rcases hm with rfl | rfl | rfl | rfl | rfl
        · rw [hcq] at hx2
          exact Or.inl ⟨rfl, hx2⟩
        · rw [hcq] at hx2
          exact Or.inl ⟨rfl, hx2⟩
        · rw [hcq] at hx2
          exact Or.inl ⟨rfl, hx2⟩
        · rw [hcq] at hx2
          exact Or.inl ⟨rfl, hx2⟩
        · rw [hck] at hx2
          exact Or.inr (⟨rfl, hx2⟩)
  · simp only [List.sorted_cons, List.mem_cons, List.not_mem_nil, or_false, List.sorted_nil,
      and_true, pairGe, forall_eq_or_imp, forall_eq, false_implies, implies_true,
      not_false_iff, true_and]
    omega

/-! ## Backward characterization of the category chain -/

/-- If the loop body assigns category 0, the branch conditions it
passed through hold. -/
theorem cat_eq_zero {c : List Card} (h : catOf c = 0) :
    (isStraight2Of c && isFlushOf c) = false ∧
    (countsOf c).headD 0 ≠ 4 ∧
    (countsOf c).take 2 ≠ [3, 2] ∧
    isFlushOf c = false ∧
    isStraight2Of c = false ∧
    (countsOf c).headD 0 ≠ 3 ∧
    (countsOf c).take 2 ≠ [2, 2] ∧
    (countsOf c).headD 0 ≠ 2 := by
  rw [catOf_eq] at h
  by_cases h1 : (isStraight2Of c && isFlushOf c) = true
  · rw [if_pos h1] at h
    split at h <;> omega
  · rw [if_neg h1] at h
    by_cases h2 : ((countsOf c).headD 0 == 4) = true
    · rw [if_pos h2] at h
      omega
    · rw [if_neg h2] at h
      by_cases h3 : ((countsOf c).take 2 == [3, 2]) = true
      · rw [if_pos h3] at h
        omega
      · rw [if_neg h3] at h
        by_cases h4 : isFlushOf c = true
        · rw [if_pos h4] at h
          omega
        · rw [if_neg h4] at h
          by_cases h5 : isStraight2Of c = true
          · rw [if_pos h5] at h
            omega
          · rw [if_neg h5] at h
            by_cases h6 : ((countsOf c).headD 0 == 3) = true
            · rw [if_pos h6] at h
              omega
            · rw [if_neg h6] at h
              by_cases h7 : ((countsOf c).take 2 == [2, 2]) = true
              · rw [if_pos h7] at h
                omega
              · rw [if_neg h7] at h
                by_cases h8 : ((countsOf c).headD 0 == 2) = true
                · rw [if_pos h8] at h
                  omega
                · rw [if_neg h8] at h
                  exact ⟨(by simpa using h1), (by simpa [beq_iff_eq] using h2), (by simpa [beq_iff_eq] using h3), (by simpa [beq_iff_eq] using h4), (by simpa [beq_iff_eq] using h5), (by simpa [beq_iff_eq] using h6), (by simpa [beq_iff_eq] using h7), (by simpa [beq_iff_eq] using h8)⟩

/-- If the loop body assigns category 1, the branch conditions it
passed through hold. -/
theorem cat_eq_one {c : List Card} (h : catOf c = 1) :
    (isStraight2Of c && isFlushOf c) = false ∧
    (countsOf c).headD 0 ≠ 4 ∧
    (countsOf c).take 2 ≠ [3, 2] ∧
    isFlushOf c = false ∧
    isStraight2Of c = false ∧
    (countsOf c).headD 0 ≠ 3 ∧
    (countsOf c).take 2 ≠ [2, 2] ∧
    (countsOf c).headD 0 = 2 := by
  rw [catOf_eq] at h
  by_cases h1 : (isStraight2Of c && isFlushOf c) = true
  · rw [if_pos h1] at h
    split at h <;> omega
  · rw [if_neg h1] at h
    by_cases h2 : ((countsOf c).headD 0 == 4) = true
    · rw [if_pos h2] at h
      omega
    · rw [if_neg h2] at h
      by_cases h3 : ((countsOf c).take 2 == [3, 2]) = true
      · rw [if_pos h3] at h
        omega
      · rw [if_neg h3] at h
        by_cases h4 : isFlushOf c = true
        · rw [if_pos h4] at h
          omega
        · rw [if_neg h4] at h
          by_cases h5 : isStraight2Of c = true
          · rw [if_pos h5] at h
            omega
          · rw [if_neg h5] at h
            by_cases h6 : ((countsOf c).headD 0 == 3) = true
            · rw [if_pos h6] at h
              omega
            · rw [if_neg h6] at h
              by_cases h7 : ((countsOf c).take 2 == [2, 2]) = true
              · rw [if_pos h7] at h
                omega
              · rw [if_neg h7] at h
                by_cases h8 : ((countsOf c).headD 0 == 2) = true
                · rw [if_pos h8] at h
                  exact ⟨(by simpa using h1), (by simpa [beq_iff_eq] using h2), (by simpa [beq_iff_eq] using h3), (by simpa [beq_iff_eq] using h4), (by simpa [beq_iff_eq] using h5), (by simpa [beq_iff_eq] using h6), (by simpa [beq_iff_eq] using h7), (by simpa [beq_iff_eq] using h8)⟩
                · rw [if_neg h8] at h
                  omega

/-- If the loop body assigns category 2, the branch conditions it
passed through hold. -/
theorem cat_eq_two {c : List Card} (h : catOf c = 2) :
    (isStraight2Of c && isFlushOf c) = false ∧
    (countsOf c).headD 0 ≠ 4 ∧
    (countsOf c).take 2 ≠ [3, 2] ∧
    isFlushOf c = false ∧
    isStraight2Of c = false ∧
    (countsOf c).headD 0 ≠ 3 ∧
    (countsOf c).take 2 = [2, 2] := by
  rw [catOf_eq] at h
  by_cases h1 : (isStraight2Of c && isFlushOf c) = true
  · rw [if_pos h1] at h
    split at h <;> omega
  · rw [if_neg h1] at h
    by_cases h2 : ((countsOf c).headD 0 == 4) = true
    · rw [if_pos h2] at h
      omega
    · rw [if_neg h2] at h
      by_cases h3 : ((countsOf c).take 2 == [3, 2]) = true
      · rw [if_pos h3] at h
        omega
      · rw [if_neg h3] at h
        by_cases h4 : isFlushOf c = true
        · rw [if_pos h4] at h
          omega
        · rw [if_neg h4] at h
          by_cases h5 : isStraight2Of c = true
          · rw [if_pos h5] at h
            omega
          · rw [if_neg h5] at h
            by_cases h6 : ((countsOf c).headD 0 == 3) = true
            · rw [if_pos h6] at h
              omega
            · rw [if_neg h6] at h
              by_cases h7 : ((countsOf c).take 2 == [2, 2]) = true
              · rw [if_pos h7] at h
                exact ⟨(by simpa using h1), (by simpa [beq_iff_eq] using h2), (by simpa [beq_iff_eq] using h3), (by simpa [beq_iff_eq] using h4), (by simpa [beq_iff_eq] using h5), (by simpa [beq_iff_eq] using h6), (by simpa [beq_iff_eq] using h7)⟩
              · rw [if_neg h7] at h
                split_ifs at h <;> omega

/-- If the loop body assigns category 3, the branch conditions it
passed through hold. -/
theorem cat_eq_three {c : List Card} (h : catOf c = 3) :
    (isStraight2Of c && isFlushOf c) = false ∧
    (countsOf c).headD 0 ≠ 4 ∧
    (countsOf c).take 2 ≠ [3, 2] ∧
    isFlushOf c = false ∧
    isStraight2Of c = false ∧
    (countsOf c).headD 0 = 3 := by
  rw [catOf_eq] at h
  by_cases h1 : (isStraight2Of c && isFlushOf c) = true
  · rw [if_pos h1] at h
    split at h <;> omega
  · rw [if_neg h1] at h
    by_cases h2 : ((countsOf c).headD 0 == 4) = true
    · rw [if_pos h2] at h
      omega
    · rw [if_neg h2] at h
      by_cases h3 : ((countsOf c).take 2 == [3, 2]) = true
      · rw [if_pos h3] at h
        omega
      · rw [if_neg h3] at h
        by_cases h4 : isFlushOf c = true
        · rw [if_pos h4] at h
          omega
        · rw [if_neg h4] at h
          by_cases h5 : isStraight2Of c = true
          · rw [if_pos h5] at h
            omega
          · rw [if_neg h5] at h
            by_cases h6 : ((countsOf c).headD 0 == 3) = true
            · rw [if_pos h6] at h
              exact ⟨(by simpa using h1), (by simpa [beq_iff_eq] using h2), (by simpa [beq_iff_eq] using h3), (by simpa [beq_iff_eq] using h4), (by simpa [beq_iff_eq] using h5), (by simpa [beq_iff_eq] using h6)⟩
            · rw [if_neg h6] at h
              split_ifs at h <;> omega

/-- If the loop body assigns category 4, the branch conditions it
passed through hold. -/
theorem cat_eq_four {c : List Card} (h : catOf c = 4) :
    (isStraight2Of c && isFlushOf c) = false ∧
    (countsOf c).headD 0 ≠ 4 ∧
    (countsOf c).take 2 ≠ [3, 2] ∧
    isFlushOf c = false ∧
    isStraight2Of c = true := by
  rw [catOf_eq] at h
  by_cases h1 : (isStraight2Of c && isFlushOf c) = true
  · rw [if_pos h1] at h
    split at h <;> omega
  · rw [if_neg h1] at h
    by_cases h2 : ((countsOf c).headD 0 == 4) = true
    · rw [if_pos h2] at h
      omega
    · rw [if_neg h2] at h
      by_cases h3 : ((countsOf c).take 2 == [3, 2]) = true
      · rw [if_pos h3] at h
        omega
      · rw [if_neg h3] at h
        by_cases h4 : isFlushOf c = true
        · rw [if_pos h4] at h
          omega
        · rw [if_neg h4] at h
          by_cases h5 : isStraight2Of c = true
          · rw [if_pos h5] at h
            exact ⟨(by simpa using h1), (by simpa [beq_iff_eq] using h2), (by simpa [beq_iff_eq] using h3), (by simpa [beq_iff_eq] using h4), (by simpa [beq_iff_eq] using h5)⟩
          · rw [if_neg h5] at h
            split_ifs at h <;> omega

/-- If the loop body assigns category 5, the branch conditions it
passed through hold. -/
theorem cat_eq_five {c : List Card} (h : catOf c = 5) :
    (isStraight2Of c && isFlushOf c) = false ∧
    (countsOf c).headD 0 ≠ 4 ∧
    (countsOf c).take 2 ≠ [3, 2] ∧
    isFlushOf c = true := by
  rw [catOf_eq] at h
  by_cases h1 : (isStraight2Of c && isFlushOf c) = true
  · rw [if_pos h1] at h
    split at h <;> omega
  · rw [if_neg h1] at h
    by_cases h2 : ((countsOf c).headD 0 == 4) = true
    · rw [if_pos h2] at h
      omega
    · rw [if_neg h2] at h
      by_cases h3 : ((countsOf c).take 2 == [3, 2]) = true
      · rw [if_pos h3] at h
        omega
      · rw [if_neg h3] at h
        by_cases h4 : isFlushOf c = true
        · rw [if_pos h4] at h
          exact ⟨(by simpa using h1), (by simpa [beq_iff_eq] using h2), (by simpa [beq_iff_eq] using h3), (by simpa [beq_iff_eq] using h4)⟩
        · rw [if_neg h4] at h
          split_ifs at h <;> omega

/-- If the loop body assigns category 6, the branch conditions it
passed through hold. -/
theorem cat_eq_six {c : List Card} (h : catOf c = 6) :
    (isStraight2Of c && isFlushOf c) = false ∧
    (countsOf c).headD 0 ≠ 4 ∧
    (countsOf c).take 2 = [3, 2] := by
  rw [catOf_eq] at h
  by_cases h1 : (isStraight2Of c && isFlushOf c) = true
  · rw [if_pos h1] at h
    split at h <;> omega
  · rw [if_neg h1] at h
    by_cases h2 : ((countsOf c).headD 0 == 4) = true
    · rw [if_pos h2] at h
      omega
    · rw [if_neg h2] at h
      by_cases h3 : ((countsOf c).take 2 == [3, 2]) = true
      · rw [if_pos h3] at h
        exact ⟨(by simpa using h1), (by simpa [beq_iff_eq] using h2), (by simpa [beq_iff_eq] using h3)⟩
      · rw [if_neg h3] at h
        split_ifs at h <;> omega

/-- If the loop body assigns category 7, the branch conditions it
passed through hold. -/
theorem cat_eq_seven {c : List Card} (h : catOf c = 7) :
    (isStraight2Of c && isFlushOf c) = false ∧
    (countsOf c).headD 0 = 4 := by
  rw [catOf_eq] at h
  by_cases h1 : (isStraight2Of c && isFlushOf c) = true
  · rw [if_pos h1] at h
    split at h <;> omega
  · rw [if_neg h1] at h
    by_cases h2 : ((countsOf c).headD 0 == 4) = true
    · rw [if_pos h2] at h
      exact ⟨(by simpa using h1), (by simpa [beq_iff_eq] using h2)⟩
    · rw [if_neg h2] at h
      split_ifs at h <;> omega

/-- If the loop body assigns category 8, the branch conditions it
passed through hold. -/
theorem cat_eq_eight {c : List Card} (h : catOf c = 8) :
    isStraight2Of c = true ∧
    isFlushOf c = true ∧
    (ranks2Of c).headD 0 ≠ 14 := by
  rw [catOf_eq] at h
  by_cases h1 : (isStraight2Of c && isFlushOf c) = true
  · rw [if_pos h1] at h
    by_cases hr : ((ranks2Of c).headD 0 == 14) = true
    · rw [if_pos hr] at h
      omega
    · rw [if_neg hr] at h
      exact ⟨(Bool.and_eq_true _ _).mp h1 |>.1, (Bool.and_eq_true _ _).mp h1 |>.2,
        by simpa [beq_iff_eq] using hr⟩
  · rw [if_neg h1] at h
    split_ifs at h <;> omega

/-- If the loop body assigns category 9, the branch conditions it
passed through hold. -/
theorem cat_eq_nine {c : List Card} (h : catOf c = 9) :
    isStraight2Of c = true ∧
    isFlushOf c = true ∧
    (ranks2Of c).headD 0 = 14 := by
  rw [catOf_eq] at h
  by_cases h1 : (isStraight2Of c && isFlushOf c) = true
  · rw [if_pos h1] at h
    by_cases hr : ((ranks2Of c).headD 0 == 14) = true
    · rw [if_pos hr] at h
      exact ⟨(Bool.and_eq_true _ _).mp h1 |>.1, (Bool.and_eq_true _ _).mp h1 |>.2,
        by simpa [beq_iff_eq] using hr⟩
    · rw [if_neg hr] at h
      omega
  · rw [if_neg h1] at h
    split_ifs at h <;> omega

/-! ## Forward lower bounds from the category chain -/

theorem catOf_ge_of_head_two {c : List Card} (h : (countsOf c).headD 0 = 2) : 1 ≤ catOf c := by
  rw [catOf_eq]
  split_ifs <;> first | omega | simp_all [beq_iff_eq]

theorem catOf_ge_of_head_three {c : List Card} (h : (countsOf c).headD 0 = 3) : 3 ≤ catOf c := by
  rw [catOf_eq]
  split_ifs <;> first | omega | simp_all [beq_iff_eq]

theorem catOf_ge_of_head_four {c : List Card} (h : (countsOf c).headD 0 = 4) : 7 ≤ catOf c := by
  rw [catOf_eq]
  split_ifs <;> first | omega | simp_all [beq_iff_eq]

theorem catOf_ge_of_twopair {c : List Card} (h : (countsOf c).take 2 = [2, 2]) :
    2 ≤ catOf c := by
  rw [catOf_eq]
  split_ifs <;> first | omega | simp_all [beq_iff_eq]

theorem catOf_ge_of_full {c : List Card} (h : (countsOf c).take 2 = [3, 2]) :
    6 ≤ catOf c := by
  rw [catOf_eq]
  split_ifs <;> first | omega | simp_all [beq_iff_eq]

theorem catOf_ge_of_flush {c : List Card} (h : isFlushOf c = true) : 5 ≤ catOf c := by
  rw [catOf_eq]
  split_ifs <;> first | omega | simp_all [beq_iff_eq]

theorem catOf_ge_of_straight2 {c : List Card} (h : isStraight2Of c = true) : 4 ≤ catOf c := by
  rw [catOf_eq]
  split_ifs <;> first | omega | simp_all [beq_iff_eq]

theorem isStraight2Of_of_wheel {c : List Card} (h : isWheel c = true) :
    isStraight2Of c = true := by
  unfold isStraight2Of
  rw [h, Bool.or_true]

theorem isStraight2Of_of_straight {c : List Card} (h : isStraightOf c = true) :
    isStraight2Of c = true := by
  unfold isStraight2Of
  rw [h, Bool.true_or]

theorem catOf_eq_nine_of {c : List Card} (hs : isStraight2Of c = true)
    (hf : isFlushOf c = true) (hr : (ranks2Of c).headD 0 = 14) : catOf c = 9 := by
  rw [catOf_eq, if_pos (by rw [hs, hf]; rfl), if_pos (by rw [beq_iff_eq]; exact hr)]

theorem catOf_eq_eight_of {c : List Card} (hs : isStraight2Of c = true)
    (hf : isFlushOf c = true) (hr : (ranks2Of c).headD 0 ≠ 14) : catOf c = 8 := by
  rw [catOf_eq, if_pos (by rw [hs, hf]; rfl), if_neg (by rw [beq_iff_eq]; exact hr)]

/-! ## Reconstructing the rank multiset from `sorted_by_count` -/

theorem ranksOf_perm_flat (c : List Card) :
    (ranksOf c).Perm ((sbcOf c).flatMap fun p => List.replicate p.2 p.1) := by
  have h1 := perm_flat_counts (ranksOf c)
  have h2 : ((rankCounts (ranksOf c)).flatMap fun p => List.replicate p.2 p.1)
      = (firstOccs (ranksOf c)).flatMap fun r => List.replicate ((ranksOf c).count r) r := by
    unfold rankCounts
    rw [List.flatMap_map]
  have h3 : ((sbcOf c).flatMap fun p => List.replicate p.2 p.1).Perm
      ((rankCounts (ranksOf c)).flatMap fun p => List.replicate p.2 p.1) :=
    List.Perm.flatMap_right _ (sortPairsDesc_perm _)
  rw [h2] at h3
  exact h1.trans h3.symm

theorem sbcOf_snd_pos {c : List Card} {p : Nat × Nat} (hp : p ∈ sbcOf c) : 1 ≤ p.2 := by
  obtain ⟨h1, h2⟩ := mem_sbcOf.mp hp
  rw [h2]
  exact List.count_pos_iff_mem.mpr h1

theorem sbcOf_ne_nil {c : List Card} (h5 : c.length = 5) : sbcOf c ≠ [] := by
  intro h
  have := sbcOf_sum_counts h5
  rw [h] at this
  simp at this

theorem nodup_length_le_of_lt (l : List Nat) (n : Nat) (hnd : l.Nodup) (hlt : ∀ x ∈ l, x < n) :
    l.length ≤ n := by
  have h1 : l.length = l.toFinset.card := (List.toFinset_card_of_nodup hnd).symm
  rw [h1]
  have hsub : l.toFinset ⊆ Finset.range n := by
    intro x hx
    rw [List.mem_toFinset] at hx
    exact Finset.mem_range.mpr (hlt x hx)
  simpa using Finset.card_le_card hsub

/-- In a duplicate-free hand with suits below 4, each rank occurs at most 4 times. -/
theorem count_rank_le_four {hand : List Card} (hnd : hand.Nodup)
    (hsuit : ∀ x ∈ hand, x.suit < 4) (r : Nat) :
    (hand.map Card.rank).count r ≤ 4 := by
  rw [List.count_eq_countP, List.countP_map]
  rw [List.countP_eq_length_filter]
  have hfnd : (hand.filter (fun x => x.rank == r)).Nodup := (List.filter_sublist _).nodup hnd
  have hsnd : ((hand.filter (fun x => x.rank == r)).map Card.suit).Nodup := by
    refine List.Nodup.map_on ?_ hfnd
    intro x hx y hy hxy
    have hxr : x.rank = r := by simpa using (List.mem_filter.mp hx).2
    have hyr : y.rank = r := by simpa using (List.mem_filter.mp hy).2
    cases x
    cases y
    simp_all
  have hlen := nodup_length_le_of_lt _ 4 hsnd ?_
  · rw [List.length_map] at hlen
    convert hlen using 2
  · intro x hx
    obtain ⟨y, hy, rfl⟩ := List.mem_map.mp hx
    exact hsuit y (List.mem_filter.mp hy).1

theorem count_ranksOf_le {hand : List Card} {c : List Card}
    (hc : List.Sublist c (sortDesc hand)) (r : Nat) :
    (ranksOf c).count r ≤ (hand.map Card.rank).count r := by
  have h1 : (ranksOf c).count r = (c.map Card.rank).count r := (ranksOf_perm_self c).count_eq r
  have h2 : ((sortDesc hand).map Card.rank).count r = (hand.map Card.rank).count r :=
    ((sortDesc_perm hand).map Card.rank).count_eq r
  rw [h1, ← h2]
  exact (hc.map Card.rank).count_le r

theorem countsHead_le_four {hand : List Card} (hnd : hand.Nodup)
    (hsuit : ∀ x ∈ hand, x.suit < 4) {c : List Card}
    (hc : List.Sublist c (sortDesc hand)) :
    (countsOf c).headD 0 ≤ 4 := by
  cases hsc : sbcOf c with
  | nil => simp [countsOf, hsc]
  | cons x S =>
    have hx : x ∈ sbcOf c := by rw [hsc]; exact List.mem_cons_self _ _
    obtain ⟨h1, h2⟩ := mem_sbcOf.mp hx
    have : (countsOf c).headD 0 = x.2 := by simp [countsOf, hsc]
    rw [this, h2]
    exact le_trans (count_ranksOf_le hc x.1) (count_rank_le_four hnd hsuit x.1)

theorem countsHead_pos {c : List Card} (h5 : c.length = 5) : 1 ≤ (countsOf c).headD 0 := by
  cases hsc : sbcOf c with
  | nil => exact absurd hsc (sbcOf_ne_nil h5)
  | cons x S =>
    have hx : x ∈ sbcOf c := by rw [hsc]; exact List.mem_cons_self _ _
    have : (countsOf c).headD 0 = x.2 := by simp [countsOf, hsc]
    rw [this]
    exact sbcOf_snd_pos hx

theorem flatMap_ones {L : List (Nat × Nat)} (h : ∀ p ∈ L, p.2 = 1) :
    (L.flatMap fun p => List.replicate p.2 p.1) = L.map Prod.fst := by
  induction L with
  | nil => rfl
  | cons x S ih =>
    rw [List.flatMap_cons, ih (fun p hp => h p (List.mem_cons_of_mem _ hp)),
      h x (List.mem_cons_self _ _), List.map_cons]
    rfl

/-- A combination whose top count is 4 is four of a kind plus a kicker. -/
theorem shape_of_quads {c : List Card} (h5 : c.length = 5)
    (hh : (countsOf c).headD 0 = 4) :
    ∃ q k, q ≠ k ∧ sbcOf c = [(q, 4), (k, 1)] ∧ (ranksOf c).Perm [q, q, q, q, k] ∧
      hvOf c = [q, k] := by
  have hsum := sbcOf_sum_counts h5
  cases hsc : sbcOf c with
  | nil => exact absurd hsc (sbcOf_ne_nil h5)
  | cons x S =>
    obtain ⟨x1, x2⟩ := x
    have hx2 : x2 = 4 := by
      have hhead : (countsOf c).headD 0 = x2 := by simp [countsOf, hsc]
      omega
    subst hx2
    rw [hsc] at hsum
    simp only [List.map_cons, List.sum_cons] at hsum
    cases S with
    | nil => simp at hsum
    | cons y T =>
      obtain ⟨y1, y2⟩ := y
      have hy1 : 1 ≤ y2 := sbcOf_snd_pos (p := (y1, y2)) (by rw [hsc]; simp)
      cases T with
      | cons z U =>
        exfalso
        have hz1 : 1 ≤ z.2 := sbcOf_snd_pos (by rw [hsc]; simp)
        simp only [List.map_cons, List.sum_cons] at hsum
        omega
      | nil =>
        have hy2 : y2 = 1 := by
          simp only [List.map_cons, List.sum_cons, List.map_nil, List.sum_nil] at hsum
          omega
        subst hy2
        have hnd := sbcOf_keys_nodup c
        rw [hsc] at hnd
        simp only [List.map_cons, List.map_nil, List.nodup_cons, List.mem_cons,
          List.not_mem_nil, or_false, List.nodup_nil, and_true] at hnd
        refine ⟨x1, y1, by omega, rfl, ?_, ?_⟩
        · have hflat := ranksOf_perm_flat c
          rw [hsc] at hflat
          exact hflat
        · rw [hvOf_eq, hsc]
          rfl

/-- A combination whose counts begin `[3, 2]` is a full house. -/
theorem shape_of_full {c : List Card} (h5 : c.length = 5)
    (htk : (countsOf c).take 2 = [3, 2]) :
    ∃ t q, t ≠ q ∧ sbcOf c = [(t, 3), (q, 2)] ∧ (ranksOf c).Perm [t, t, t, q, q] ∧
      hvOf c = [t, q] := by
  have hsum := sbcOf_sum_counts h5
  cases hsc : sbcOf c with
  | nil => exact absurd hsc (sbcOf_ne_nil h5)
  | cons x S =>
    obtain ⟨x1, x2⟩ := x
    cases S with
    | nil =>
      exfalso
      unfold countsOf at htk
      rw [hsc] at htk
      simp at htk
    | cons y T =>
      obtain ⟨y1, y2⟩ := y
      have hxy : x2 = 3 ∧ y2 = 2 := by
        unfold countsOf at htk
        rw [hsc] at htk
        simp only [List.map_cons] at htk
        rw [List.take_succ_cons, List.take_succ_cons, List.take_zero] at htk
        simpa using htk
      obtain ⟨hx2, hy2⟩ := hxy
      subst hx2
      subst hy2
      rw [hsc] at hsum
      simp only [List.map_cons, List.sum_cons] at hsum
      cases T with
      | cons z U =>
        exfalso
        have hz1 : 1 ≤ z.2 := sbcOf_snd_pos (by rw [hsc]; simp)
        simp only [List.map_cons, List.sum_cons] at hsum
        omega
      | nil =>
        have hnd := sbcOf_keys_nodup c
        rw [hsc] at hnd
        simp only [List.map_cons, List.map_nil, List.nodup_cons, List.mem_cons,
          List.not_mem_nil, or_false, List.nodup_nil, and_true] at hnd
        refine ⟨x1, y1, by omega, rfl, ?_, ?_⟩
        · have hflat := ranksOf_perm_flat c
          rw [hsc] at hflat
          exact hflat
        · rw [hvOf_eq, hsc]
          rfl

/-- A combination with top count 3 and counts not `[3, 2]` is three of a kind
with two distinct kickers. -/
theorem shape_of_trips {c : List Card} (h5 : c.length = 5)
    (hh : (countsOf c).headD 0 = 3) (htk : (countsOf c).take 2 ≠ [3, 2]) :
    ∃ t a b, a > b ∧ t ≠ a ∧ t ≠ b ∧ sbcOf c = [(t, 3), (a, 1), (b, 1)] ∧
      (ranksOf c).Perm [t, t, t, a, b] ∧ hvOf c = [t, a, b] := by
  have hsum := sbcOf_sum_counts h5
  cases hsc : sbcOf c with
  | nil => exact absurd hsc (sbcOf_ne_nil h5)
  | cons x S =>
    obtain ⟨x1, x2⟩ := x
    have hx2 : x2 = 3 := by
      have hhead : (countsOf c).headD 0 = x2 := by simp [countsOf, hsc]
      omega
    subst hx2
    rw [hsc] at hsum
    simp only [List.map_cons, List.sum_cons] at hsum
    cases S with
    | nil => simp at hsum
    | cons y T =>
      obtain ⟨y1, y2⟩ := y
      have hy1 : 1 ≤ y2 := sbcOf_snd_pos (p := (y1, y2)) (by rw [hsc]; simp)
      cases T with
      | nil =>
        exfalso
        simp only [List.map_cons, List.sum_cons, List.map_nil, List.sum_nil] at hsum
        have hy2 : y2 = 2 := by omega
        subst hy2
        refine htk ?_
        unfold countsOf
        rw [hsc]
        rfl
      | cons z U =>
        obtain ⟨z1, z2⟩ := z
        have hz1 : 1 ≤ z2 := sbcOf_snd_pos (p := (z1, z2)) (by rw [hsc]; simp)
        cases U with
        | cons w V =>
          exfalso
          have hw1 : 1 ≤ w.2 := sbcOf_snd_pos (by rw [hsc]; simp)
          simp only [List.map_cons, List.sum_cons] at hsum
          omega
        | nil =>
          have hyz : y2 = 1 ∧ z2 = 1 := by
            simp only [List.map_cons, List.sum_cons, List.map_nil, List.sum_nil] at hsum
            have hsort := sbcOf_sorted c
            rw [hsc] at hsort
            simp only [List.sorted_cons, List.mem_cons, List.not_mem_nil, or_false,
              forall_eq_or_imp, forall_eq, pairGe, and_true, implies_true,
              not_false_iff, true_and] at hsort
            omega
          obtain ⟨hy2, hz2⟩ := hyz
          subst hy2
          subst hz2
          have hnd := sbcOf_keys_nodup c
          rw [hsc] at hnd
          simp only [List.map_cons, List.map_nil, List.nodup_cons, List.mem_cons,
            List.not_mem_nil, or_false, List.nodup_nil, and_true, not_or] at hnd
          have hsort := sbcOf_sorted c
          rw [hsc] at hsort
          simp only [List.sorted_cons, List.mem_cons, List.not_mem_nil, or_false,
            forall_eq_or_imp, forall_eq, pairGe, and_true, implies_true,
            not_false_iff, true_and] at hsort
          refine ⟨x1, y1, z1, by omega, by omega, by omega, rfl, ?_, ?_⟩
          · have hflat := ranksOf_perm_flat c
            rw [hsc] at hflat
            exact hflat
          · rw [hvOf_eq, hsc]
            rfl

/-- A combination whose counts begin `[2, 2]` is two pair plus a kicker. -/
theorem shape_of_twopair {c : List Card} (h5 : c.length = 5)
    (htk : (countsOf c).take 2 = [2, 2]) :
    ∃ p q k, p > q ∧ k ≠ p ∧ k ≠ q ∧ sbcOf c = [(p, 2), (q, 2), (k, 1)] ∧
      (ranksOf c).Perm [p, p, q, q, k] ∧ hvOf c = [p, q, k] := by
  have hsum := sbcOf_sum_counts h5
  cases hsc : sbcOf c with
  | nil => exact absurd hsc (sbcOf_ne_nil h5)
  | cons x S =>
    obtain ⟨x1, x2⟩ := x
    cases S with
    | nil =>
      exfalso
      unfold countsOf at htk
      rw [hsc] at htk
      simp at htk
    | cons y T =>
      obtain ⟨y1, y2⟩ := y
      have hxy : x2 = 2 ∧ y2 = 2 := by
        unfold countsOf at htk
        rw [hsc] at htk
        simp only [List.map_cons] at htk
        rw [List.take_succ_cons, List.take_succ_cons, List.take_zero] at htk
        simpa using htk
      obtain ⟨hx2, hy2⟩ := hxy
      subst hx2
      subst hy2
      rw [hsc] at hsum
      simp only [List.map_cons, List.sum_cons] at hsum
      cases T with
      | nil =>
        exfalso
        simp only [List.map_nil, List.sum_nil] at hsum
        omega
      | cons z U =>
        obtain ⟨z1, z2⟩ := z
        have hz1 : 1 ≤ z2 := sbcOf_snd_pos (p := (z1, z2)) (by rw [hsc]; simp)
        cases U with
        | cons w V =>
          exfalso
          have hw1 : 1 ≤ w.2 := sbcOf_snd_pos (by rw [hsc]; simp)
          simp only [List.map_cons, List.sum_cons] at hsum
          omega
        | nil =>
          have hz2 : z2 = 1 := by
            simp only [List.map_cons, List.sum_cons, List.map_nil, List.sum_nil] at hsum
            omega
          subst hz2
          have hnd := sbcOf_keys_nodup c
          rw [hsc] at hnd
          simp only [List.map_cons, List.map_nil, List.nodup_cons, List.mem_cons,
            List.not_mem_nil, or_false, List.nodup_nil, and_true, not_or] at hnd
          have hsort := sbcOf_sorted c
          rw [hsc] at hsort
          simp only [List.sorted_cons, List.mem_cons, List.not_mem_nil, or_false,
            forall_eq_or_imp, forall_eq, pairGe, and_true, implies_true,
            not_false_iff, true_and] at hsort
          refine ⟨x1, y1, z1, by omega, by omega, by omega, rfl, ?_, ?_⟩
          · have hflat := ranksOf_perm_flat c
            rw [hsc] at hflat
            exact hflat
          · rw [hvOf_eq, hsc]
            rfl

/-- A combination with top count 2 and counts not `[2, 2]` is one pair with
three distinct kickers. -/
theorem shape_of_pair {c : List Card} (h5 : c.length = 5)
    (hh : (countsOf c).headD 0 = 2) (htk : (countsOf c).take 2 ≠ [2, 2]) :
    ∃ p a b d, a > b ∧ b > d ∧ p ≠ a ∧ p ≠ b ∧ p ≠ d ∧
      sbcOf c = [(p, 2), (a, 1), (b, 1), (d, 1)] ∧
      (ranksOf c).Perm [p, p, a, b, d] ∧ hvOf c = [p, a, b, d] := by
  have hsum := sbcOf_sum_counts h5
  cases hsc : sbcOf c with
  | nil => exact absurd hsc (sbcOf_ne_nil h5)
  | cons x S =>
    obtain ⟨x1, x2⟩ := x
    have hx2 : x2 = 2 := by
      have hhead : (countsOf c).headD 0 = x2 := by simp [countsOf, hsc]
      omega
    subst hx2
    rw [hsc] at hsum
    simp only [List.map_cons, List.sum_cons] at hsum
    cases S with
    | nil => simp at hsum
    | cons y T =>
      obtain ⟨y1, y2⟩ := y
      have hy1 : 1 ≤ y2 := sbcOf_snd_pos (p := (y1, y2)) (by rw [hsc]; simp)
      have hy2 : y2 = 1 := by
        by_contra hne
        have hsort := sbcOf_sorted c
        rw [hsc] at hsort
        simp only [List.sorted_cons, List.mem_cons, forall_eq_or_imp, pairGe] at hsort
        have hy2' : y2 = 2 := by omega
        subst hy2'
        refine htk ?_
        unfold countsOf
        rw [hsc]
        rfl
      subst hy2
      cases T with
      | nil =>
        exfalso
        simp only [List.map_cons, List.sum_cons, List.map_nil, List.sum_nil] at hsum
        omega
      | cons z U =>
        obtain ⟨z1, z2⟩ := z
        have hz1 : 1 ≤ z2 := sbcOf_snd_pos (p := (z1, z2)) (by rw [hsc]; simp)
        have hz2 : z2 = 1 := by
          have hsort := sbcOf_sorted c
          rw [hsc] at hsort
          simp only [List.sorted_cons, List.mem_cons, forall_eq_or_imp, pairGe] at hsort
          omega
        subst hz2
        cases U with
        | nil =>
          exfalso
          simp only [List.map_cons, List.sum_cons, List.map_nil, List.sum_nil] at hsum
          omega
        | cons w V =>
          obtain ⟨w1, w2⟩ := w
          have hw1 : 1 ≤ w2 := sbcOf_snd_pos (p := (w1, w2)) (by rw [hsc]; simp)
          cases V with
          | cons v W =>
            exfalso
            have hv1 : 1 ≤ v.2 := sbcOf_snd_pos (by rw [hsc]; simp)
            simp only [List.map_cons, List.sum_cons] at hsum
            omega
          | nil =>
            have hw2 : w2 = 1 := by
              simp only [List.map_cons, List.sum_cons, List.map_nil, List.sum_nil] at hsum
              omega
            subst hw2
            have hnd := sbcOf_keys_nodup c
            rw [hsc] at hnd
            simp only [List.map_cons, List.map_nil, List.nodup_cons, List.mem_cons,
              List.not_mem_nil, or_false, List.nodup_nil, and_true, not_or] at hnd
            have hsort := sbcOf_sorted c
            rw [hsc] at hsort
            simp only [List.sorted_cons, List.mem_cons, List.not_mem_nil, or_false,
              forall_eq_or_imp, forall_eq, pairGe, and_true, implies_true,
              not_false_iff, true_and] at hsort
            refine ⟨x1, y1, z1, w1, by omega, by omega, by omega, by omega, by omega,
              rfl, ?_, ?_⟩
            · have hflat := ranksOf_perm_flat c
              rw [hsc] at hflat
              exact hflat
            · rw [hvOf_eq, hsc]
              rfl

/-- A combination with top count 1 has five distinct ranks and its
`hand_values` is just its descending rank sequence. -/
theorem shape_of_distinct {c : List Card} (h5 : c.length = 5)
    (hh : (countsOf c).headD 0 = 1) :
    hvOf c = ranksOf c ∧ (ranksOf c).Nodup := by
  have hones : ∀ p ∈ sbcOf c, p.2 = 1 := by
    intro p hp
    have h1 := sbcOf_snd_pos hp
    obtain ⟨hm, hcnt⟩ := mem_sbcOf.mp hp
    have h2 := count_le_countsHead hm
    omega
  have hflat := ranksOf_perm_flat c
  rw [flatMap_ones hones, ← hvOf_eq] at hflat
  have hsorted_hv : (hvOf c).Sorted (· ≥ ·) := by
    rw [hvOf_eq]
    refine List.Pairwise.map _ (fun a b hab => hab) ?_
    refine List.Pairwise.imp_of_mem ?_ (sbcOf_sorted c)
    intro a b ha hb hab
    have ha1 := hones a ha
    have hb1 := hones b hb
    unfold pairGe at hab
    omega
  have heq : hvOf c = ranksOf c :=
    List.eq_of_perm_of_sorted hflat.symm hsorted_hv (sortDesc_ranks_sorted c)
  refine ⟨heq, ?_⟩
  rw [← heq, hvOf_eq]
  exact sbcOf_keys_nodup c

/-! ## Positional domination from rank counts -/

theorem length_filter_and_split (X : List Card) (P A : Card → Bool) :
    (X.filter P).length
      = (X.filter fun x => P x && A x).length + (X.filter fun x => P x && !A x).length := by
  induction X with
  | nil => rfl
  | cons x xs ih =>
    by_cases hP : P x = true <;> by_cases hA : A x = true <;>
      simp [List.filter_cons, hP, hA, ih] <;> omega

/-- If `E` takes, within every rank, an initial segment of the support cards of
that rank, and its cumulative rank counts dominate those of `c`, then `E`
dominates `c` positionally on every prefix of the sorted hand. -/
theorem prefix_counts_of_rank_counts {l c E : List Card} {s : Card → Bool}
    (hls : l.Sorted rankGe) (hnd : l.Nodup)
    (hc : List.Sublist c l) (hE : List.Sublist E l)
    (hlen : c.length = E.length)
    (hcs : ∀ x ∈ c, s x = true)
    (hpre : ∀ r : Nat, ∃ t, l.filter (fun x => s x && (x.rank == r))
        = E.filter (fun x => x.rank == r) ++ t)
    (hR1 : ∀ r : Nat, (c.filter (fun x => decide (r ≤ x.rank))).length
        ≤ (E.filter (fun x => decide (r ≤ x.rank))).length) :
    ∀ p q, l = p ++ q → (c.filter (· ∈ p)).length ≤ (E.filter (· ∈ p)).length := by
  intro p q hpq
  have hdisj : ∀ x, x ∈ p → x ∈ q → False := by
    intro x hxp hxq
    have hnd' := hnd
    rw [hpq] at hnd'
    exact (List.nodup_append.mp hnd').2.2 hxp hxq
  have hmeml : ∀ x ∈ l, x ∈ p ∨ x ∈ q := by
    intro x hx
    rw [hpq] at hx
    exact List.mem_append.mp hx
  have hXsplit : ∀ X : List Card, List.Sublist X l →
      (X.filter (· ∈ p)).length + (X.filter (· ∈ q)).length = X.length := by
    intro X hX
    have h1 := length_filter_and_split X (fun _ => true) (fun x => decide (x ∈ p))
    rw [List.filter_true] at h1
    have h2 : X.filter (fun x => (fun _ : Card => true) x && decide (x ∈ p))
        = X.filter (· ∈ p) := by
      apply List.filter_congr
      intro x _
      simp
    have h3 : X.filter (fun x => (fun _ : Card => true) x && !(decide (x ∈ p)))
        = X.filter (· ∈ q) := by
      apply List.filter_congr
      intro x hx
      have hxl := hX.subset hx
      rcases hmeml x hxl with h | h
      · have hnq : x ∉ q := fun hq => hdisj x h hq
        simp [h, hnq]
      · have hnp : x ∉ p := fun hp => hdisj x hp h
        simp [h, hnp]
    rw [h2, h3] at h1
    omega
  cases q with
  | nil =>
    have hlp : l = p := by simpa using hpq
    have hcall : c.filter (· ∈ p) = c := List.filter_eq_self.mpr (fun x hx => by
      simp only [decide_eq_true_eq]
      rw [← hlp]
      exact hc.subset hx)
    have hEall : E.filter (· ∈ p) = E := List.filter_eq_self.mpr (fun x hx => by
      simp only [decide_eq_true_eq]
      rw [← hlp]
      exact hE.subset hx)
    rw [hcall, hEall]
    omega
  | cons qh qt =>
    have hls' := hls
    rw [hpq] at hls'
    have hpw := List.pairwise_append.mp hls'
    have hF1 : ∀ x ∈ p, qh.rank ≤ x.rank := fun x hx =>
      hpw.2.2 x hx qh (List.mem_cons_self _ _)
    have hF2 : ∀ y ∈ qh :: qt, y.rank ≤ qh.rank := by
      intro y hy
      rcases List.mem_cons.mp hy with rfl | hy'
      · exact le_refl _
      · exact (List.sorted_cons.mp hpw.2.1).1 y hy'
    -- decomposition of the q-side count at the threshold rank
    have hdecomp : ∀ X : List Card, List.Sublist X l →
        (X.filter (· ∈ qh :: qt)).length
          = (X.filter (fun x => decide (x.rank < qh.rank))).length
            + (X.filter (fun x => (x.rank == qh.rank) && decide (x ∈ qh :: qt))).length := by
      intro X hX
      have h1 := length_filter_and_split X (fun x => decide (x ∈ qh :: qt))
        (fun x => x.rank == qh.rank)
      have h2 : X.filter (fun x => decide (x ∈ qh :: qt) && !(x.rank == qh.rank))
          = X.filter (fun x => decide (x.rank < qh.rank)) := by
        apply List.filter_congr
        intro x hx
        have hxl := hX.subset hx
        by_cases hmq : x ∈ qh :: qt
        · have hle := hF2 x hmq
          by_cases heq : x.rank = qh.rank
          · simp [hmq, heq]
          · have hlt : x.rank < qh.rank := by omega
            simp [hmq, heq, hlt]
        · have hxp : x ∈ p := by
            rcases hmeml x hxl with h | h
            · exact h
            · exact absurd h hmq
          have hge := hF1 x hxp
          have hnlt : ¬ (x.rank < qh.rank) := by omega
          simp [hmq, hnlt]
      have h3 : X.filter (fun x => decide (x ∈ qh :: qt) && (x.rank == qh.rank))
          = X.filter (fun x => (x.rank == qh.rank) && decide (x ∈ qh :: qt)) := by
        apply List.filter_congr
        intro x _
        rw [Bool.and_comm]
      rw [h2, h3] at h1
      omega
    -- counts at ≥ θ split into = θ and ≥ θ + 1
    have hge_split : ∀ X : List Card,
        (X.filter (fun x => decide (qh.rank ≤ x.rank))).length
          = (X.filter (fun x => x.rank == qh.rank)).length
            + (X.filter (fun x => decide (qh.rank + 1 ≤ x.rank))).length := by
      intro X
      have h1 := length_filter_and_split X (fun x => decide (qh.rank ≤ x.rank))
        (fun x => x.rank == qh.rank)
      have h2 : X.filter (fun x => decide (qh.rank ≤ x.rank) && (x.rank == qh.rank))
          = X.filter (fun x => x.rank == qh.rank) := by
        apply List.filter_congr
        intro x _
        by_cases heq : x.rank = qh.rank
        · have : qh.rank ≤ x.rank := by omega
          simp [heq, this]
        · simp [heq]
      have h3 : X.filter (fun x => decide (qh.rank ≤ x.rank) && !(x.rank == qh.rank))
          = X.filter (fun x => decide (qh.rank + 1 ≤ x.rank)) := by
        apply List.filter_congr
        intro x _
        by_cases hle : qh.rank ≤ x.rank
        · by_cases heq : x.rank = qh.rank
          · have : ¬ (qh.rank + 1 ≤ x.rank) := by omega
            simp [hle, heq, this]
          · have : qh.rank + 1 ≤ x.rank := by omega
            simp [hle, heq, this]
        · have h4 : ¬ (qh.rank + 1 ≤ x.rank) := by omega
          simp [hle, h4]
      rw [h2, h3] at h1
      exact h1
    -- total length splits into ≥ θ and < θ
    have hlt_split : ∀ X : List Card,
        X.length = (X.filter (fun x => decide (qh.rank ≤ x.rank))).length
          + (X.filter (fun x => decide (x.rank < qh.rank))).length := by
      intro X
      have h1 := length_filter_and_split X (fun _ => true)
        (fun x => decide (qh.rank ≤ x.rank))
      rw [List.filter_true] at h1
      have h2 : X.filter (fun x => (fun _ : Card => true) x && decide (qh.rank ≤ x.rank))
          = X.filter (fun x => decide (qh.rank ≤ x.rank)) := by
        apply List.filter_congr
        intro x _
        simp
      have h3 : X.filter (fun x => (fun _ : Card => true) x && !(decide (qh.rank ≤ x.rank)))
          = X.filter (fun x => decide (x.rank < qh.rank)) := by
        apply List.filter_congr
        intro x _
        by_cases hle : qh.rank ≤ x.rank
        · have : ¬ (x.rank < qh.rank) := by omega
          simp [hle, this]
        · have : x.rank < qh.rank := by omega
          simp [hle, this]
      rw [h2, h3] at h1
      exact h1
    -- the support cards at the threshold rank split along p ++ q
    obtain ⟨t, ht⟩ := hpre qh.rank
    rw [hpq, List.filter_append] at ht
    -- case analysis on how the two splits align
    rcases List.append_eq_append_iff.mp ht with ⟨a', ha1, ha2⟩ | ⟨c', hc1, hc2⟩
    · -- E's threshold cards extend past p's support cards: Eθ = Pθ ++ a'
      have hEθq : (E.filter (fun x => (x.rank == qh.rank) && decide (x ∈ qh :: qt)))
          = (p.filter (fun x => s x && (x.rank == qh.rank))).filter
              (fun x => decide (x ∈ qh :: qt)) ++ a'.filter (fun x => decide (x ∈ qh :: qt)) := by
        have hff : (E.filter (fun x => x.rank == qh.rank)).filter
            (fun x => decide (x ∈ qh :: qt))
            = E.filter (fun x => (x.rank == qh.rank) && decide (x ∈ qh :: qt)) := by
          rw [List.filter_filter]
          apply List.filter_congr
          intro x _
          rw [Bool.and_comm]
        rw [← hff, ha1, List.filter_append]
      have hPθq : (p.filter (fun x => s x && (x.rank == qh.rank))).filter
          (fun x => decide (x ∈ qh :: qt)) = [] := by
        rw [List.filter_eq_nil_iff]
        intro x hx
        have hxp : x ∈ p := (List.mem_filter.mp hx).1
        simp only [decide_eq_true_eq]
        exact fun hq => hdisj x hxp hq
      have ha'q : a'.filter (fun x => decide (x ∈ qh :: qt)) = a' := by
        rw [List.filter_eq_self]
        intro x hx
        have hxq : x ∈ (qh :: qt).filter (fun x => s x && (x.rank == qh.rank)) := by
          rw [ha2]
          exact List.mem_append_left _ hx
        simp only [decide_eq_true_eq]
        exact (List.mem_filter.mp hxq).1
      have hEθq_len : (E.filter (fun x => (x.rank == qh.rank)
          && decide (x ∈ qh :: qt))).length = a'.length := by
        rw [hEθq, hPθq, List.nil_append]
        exact congrArg List.length ha'q
      have hEθ_len : (E.filter (fun x => x.rank == qh.rank)).length
          = (p.filter (fun x => s x && (x.rank == qh.rank))).length + a'.length := by
        rw [ha1, List.length_append]
      -- c's threshold cards in p lie among p's support cards of that rank
      have hcθ_sub : List.Sublist (c.filter (fun x => x.rank == qh.rank)) l :=
        (List.filter_sublist c).trans hc
      have hcθ_split := hXsplit (c.filter (fun x => x.rank == qh.rank)) hcθ_sub
      have hcθp_le : ((c.filter (fun x => x.rank == qh.rank)).filter (· ∈ p)).length
          ≤ (p.filter (fun x => s x && (x.rank == qh.rank))).length := by
        have hsubp : ∀ x ∈ (c.filter (fun x => x.rank == qh.rank)).filter (· ∈ p),
            x ∈ p.filter (fun x => s x && (x.rank == qh.rank)) := by
          intro x hx
          have hx1 := List.mem_filter.mp hx
          have hx2 := List.mem_filter.mp hx1.1
          refine List.mem_filter.mpr ⟨by simpa using hx1.2, ?_⟩
          rw [Bool.and_eq_true]
          exact ⟨hcs x hx2.1, hx2.2⟩
        have hndc : ((c.filter (fun x => x.rank == qh.rank)).filter (· ∈ p)).Nodup :=
          ((List.filter_sublist _).trans hcθ_sub).nodup hnd
        exact (hndc.subperm hsubp).length_le
      have hcθq_eq : ((c.filter (fun x => x.rank == qh.rank)).filter (· ∈ qh :: qt)).length
          = (c.filter (fun x => (x.rank == qh.rank) && decide (x ∈ qh :: qt))).length := by
        rw [List.filter_filter]
        congr 1
        apply List.filter_congr
        intro x _
        rw [Bool.and_comm]
      have hd_c := hdecomp c hc
      have hd_E := hdecomp E hE
      have hsc := hXsplit c hc
      have hsE := hXsplit E hE
      have hgc := hge_split c
      have hgE := hge_split E
      have hlc := hlt_split c
      have hlE := hlt_split E
      have hr1 := hR1 qh.rank
      have hr2 := hR1 (qh.rank + 1)
      omega
    · -- E's threshold cards all lie in p: Pθ = Eθ ++ c'
      have hEθq0 : (E.filter (fun x => (x.rank == qh.rank) && decide (x ∈ qh :: qt))).length
          = 0 := by
        rw [List.length_eq_zero]
        rw [List.filter_eq_nil_iff]
        intro x hx hb
        rw [Bool.and_eq_true] at hb
        have hxEθ : x ∈ E.filter (fun x => x.rank == qh.rank) :=
          List.mem_filter.mpr ⟨hx, hb.1⟩
        have hxPθ : x ∈ p.filter (fun x => s x && (x.rank == qh.rank)) := by
          rw [hc1]
          exact List.mem_append_left _ hxEθ
        have hxp : x ∈ p := (List.mem_filter.mp hxPθ).1
        have hxq : x ∈ qh :: qt := by simpa using hb.2
        exact hdisj x hxp hxq
      have hd_c := hdecomp c hc
      have hd_E := hdecomp E hE
      have hsc := hXsplit c hc
      have hsE := hXsplit E hE
      have hlc := hlt_split c
      have hlE := hlt_split E
      have hr1 := hR1 qh.rank
      omega

/-! ## Generic assembly: the evaluator returns the dominant combination -/

theorem scoreGt_eq_false_of {a b : Int × List Nat}
    (h : a.1 < b.1 ∨ (a.1 = b.1 ∧ listGt a.2 b.2 = false)) : scoreGt a b = false := by
  unfold scoreGt
  rcases h with h | ⟨h1, h2⟩
  · rw [if_neg (by omega), if_pos h]
  · rw [if_neg (by omega), if_neg (by omega)]
    exact h2

theorem foldl_evalStep_stable {M : Nat} {d : List Card} (cs : List (List Card))
    (hub : ∀ c ∈ cs, catOf c ≤ M)
    (hstay : ∀ c ∈ cs, catOf c = M → listGt (hvOf c) (d.map Card.rank) = false) :
    cs.foldl evalStep ((M : Int), d) = ((M : Int), d) := by
  induction cs with
  | nil => rfl
  | cons c cs ih =>
    simp only [List.foldl_cons]
    have hstep : evalStep ((M : Int), d) c = ((M : Int), d) := by
      unfold evalStep
      dsimp only
      rw [if_neg ?_]
      rw [Bool.not_eq_true]
      apply scoreGt_eq_false_of
      have hle := hub c (List.mem_cons_self _ _)
      by_cases heq : catOf c = M
      · refine Or.inr ⟨by simp [catOf] at heq ⊢; omega, ?_⟩
        exact hstay c (List.mem_cons_self _ _) heq
      · left
        have : catOf c < M := by omega
        simp only [catOf] at this
        omega
    rw [hstep]
    exact ih (fun c' hc' => hub c' (List.mem_cons_of_mem _ hc'))
      (fun c' hc' h => hstay c' (List.mem_cons_of_mem _ hc') h)

/-- If `E` attains the maximal category `M`, is `hand_values`-maximal among
category-`M` combinations, positionally dominates them all, and its
`hand_values` does not exceed its display ranks, then the evaluator returns
exactly `(M, display of E)`. -/
theorem evaluate_eq_of_dominant {hand E : List Card} {M : Nat}
    (hnd : (sortDesc hand).Nodup)
    (hEmem : E ∈ combinations 5 (sortDesc hand))
    (hEcat : catOf E = M)
    (hub : ∀ c ∈ combinations 5 (sortDesc hand), catOf c ≤ M)
    (hhv : ∀ c ∈ combinations 5 (sortDesc hand), catOf c = M →
      listGt (hvOf c) (hvOf E) = false)
    (hdom : ∀ c ∈ combinations 5 (sortDesc hand), catOf c = M →
      Dom (sortDesc hand) E c)
    (hEraw : listGt (hvOf E) (rawOf E) = false) :
    evaluate_hand hand = ((M : Int), (classify E).combo) := by
  obtain ⟨B, A, hsplit, -⟩ :=
    combinations_dom_precedes hEmem hEmem (hdom E hEmem hEcat)
  have hndCombos : (combinations 5 (sortDesc hand)).Nodup := combinations_nodup hnd
  have hBnotM : ∀ c ∈ B, catOf c ≠ M := by
    intro c hcB hcM
    have hcmem : c ∈ combinations 5 (sortDesc hand) := by
      rw [hsplit]
      exact List.mem_append_left _ hcB
    obtain ⟨B', A', hsplit', hmem'⟩ :=
      combinations_dom_precedes hEmem hcmem (hdom c hcmem hcM)
    obtain ⟨hBB, hAA⟩ := nodup_split_unique hndCombos E hsplit hsplit'
    subst hBB
    subst hAA
    have hndBA := hndCombos
    rw [hsplit] at hndBA
    exact (List.nodup_append.mp hndBA).2.2 hcB hmem'
  unfold evaluate_hand
  rw [hsplit, List.foldl_append, List.foldl_cons]
  have hBfst : ((B.foldl evalStep (-1, [])).1) ≤ (M : Int) - 1 := by
    rw [foldl_evalStep_fst]
    apply foldl_max_le
    · omega
    · intro c hcB
      have hcmem : c ∈ combinations 5 (sortDesc hand) := by
        rw [hsplit]
        exact List.mem_append_left _ hcB
      have h1 := hub c hcmem
      have h2 := hBnotM c hcB
      omega
  have hstepE : ∀ b : Int × List Card, b.1 ≤ (M : Int) - 1 →
      evalStep b E = ((M : Int), (classify E).combo) := by
    intro b hb
    have hcond : (((classify E).handRank : Int), (classify E).handValues).1
        > (b.1, b.2.map Card.rank).1 := by
      dsimp only
      rw [show (classify E).handRank = M from hEcat]
      omega
    have hsc : scoreGt (((classify E).handRank : Int), (classify E).handValues)
        (b.1, b.2.map Card.rank) = true := by
      unfold scoreGt
      rw [if_pos hcond]
    unfold evalStep
    dsimp only
    rw [if_pos hsc, show (classify E).handRank = M from hEcat]
  rw [hstepE _ hBfst]
  apply foldl_evalStep_stable
  · intro c hcA
    refine hub c ?_
    rw [hsplit]
    exact List.mem_append_right _ (List.mem_cons_of_mem _ hcA)
  · intro c hcA hcM
    have hcmem : c ∈ combinations 5 (sortDesc hand) := by
      rw [hsplit]
      exact List.mem_append_right _ (List.mem_cons_of_mem _ hcA)
    exact listGt_le_trans (hhv c hcmem hcM) hEraw

/-! ## Cumulative rank counts and top-k dominance -/

/-- Number of entries `≥ r` in a rank list. -/
def cntGe (v : List Nat) (r : Nat) : Nat := (v.filter (fun x => decide (r ≤ x))).length

theorem cntGe_append (a b : List Nat) (r : Nat) :
    cntGe (a ++ b) r = cntGe a r + cntGe b r := by
  unfold cntGe
  rw [List.filter_append, List.length_append]

theorem cntGe_perm {a b : List Nat} (h : a.Perm b) (r : Nat) : cntGe a r = cntGe b r := by
  unfold cntGe
  exact (h.filter _).length_eq

theorem cntGe_card_filter (c : List Card) (r : Nat) :
    (c.filter (fun x => decide (r ≤ x.rank))).length = cntGe (c.map Card.rank) r := by
  unfold cntGe
  rw [← List.countP_eq_length_filter, ← List.countP_eq_length_filter, List.countP_map]
  rfl

theorem cntGe_le_length (v : List Nat) (r : Nat) : cntGe v r ≤ v.length :=
  List.length_filter_le _ _

theorem cntGe_subperm {a b : List Nat} (h : a.Subperm b) (r : Nat) : cntGe a r ≤ cntGe b r := by
  unfold cntGe
  rw [← List.countP_eq_length_filter, ← List.countP_eq_length_filter]
  exact h.countP_le _

/-- In a descending list, the prefix of length `k` has `min k (total)` entries
`≥ r`. -/
theorem cntGe_take_sorted {N : List Nat} (hs : N.Sorted (· ≥ ·)) (k r : Nat) :
    cntGe (N.take k) r = min k (cntGe N r) := by
  induction N generalizing k with
  | nil => simp [cntGe]
  | cons n N ih =>
    cases k with
    | zero => simp [cntGe]
    | succ k =>
      have hs' := List.sorted_cons.mp hs
      by_cases hr : r ≤ n
      · unfold cntGe
        rw [List.take_succ_cons, List.filter_cons_of_pos (by simpa using hr),
          List.filter_cons_of_pos (by simpa using hr)]
        simp only [List.length_cons]
        have := ih hs'.2 k
        unfold cntGe at this
        omega
      · have hnil1 : (n :: N).filter (fun x => decide (r ≤ x)) = [] := by
          rw [List.filter_eq_nil_iff]
          intro x hx
          rcases List.mem_cons.mp hx with rfl | hx'
          · simpa using hr
          · have := hs'.1 x hx'
            simp only [decide_eq_true_eq]
            omega
        have hnil2 : ((n :: N).take (k + 1)).filter (fun x => decide (r ≤ x)) = [] := by
          rw [List.filter_eq_nil_iff]
          intro x hx
          have hx' := (List.take_sublist _ _).subset hx
          rcases List.mem_cons.mp hx' with rfl | hx''
          · simpa using hr
          · have := hs'.1 x hx''
            simp only [decide_eq_true_eq]
            omega
        unfold cntGe
        rw [hnil1, hnil2]
        simp

/-- Any sub-multiset of size at most `k` is count-dominated by the top `k`
of the descending list. -/
theorem cntGe_le_take {N S : List Nat} (hs : N.Sorted (· ≥ ·)) (hsub : S.Subperm N)
    {k : Nat} (hk : S.length ≤ k) (r : Nat) :
    cntGe S r ≤ cntGe (N.take k) r := by
  rw [cntGe_take_sorted hs]
  refine le_min ?_ ?_
  · exact le_trans (cntGe_le_length S r) hk
  · exact cntGe_subperm hsub r

/-- Cumulative-count dominance between descending lists implies the dominated
list is not lexicographically greater. -/
theorem listGt_eq_false_of_cntGe {u v : List Nat} (hu : u.Sorted (· ≥ ·))
    (hv : v.Sorted (· ≥ ·)) (hdom : ∀ r, cntGe v r ≤ cntGe u r) :
    listGt v u = false := by
  induction u generalizing v with
  | nil =>
    cases v with
    | nil => rfl
    | cons a v' =>
      exfalso
      have := hdom 0
      unfold cntGe at this
      simp at this
  | cons b u' ih =>
    cases v with
    | nil => rfl
    | cons a v' =>
      have hu' := List.sorted_cons.mp hu
      have hv' := List.sorted_cons.mp hv
      have hab : a ≤ b := by
        by_contra hab
        have hd := hdom a
        unfold cntGe at hd
        rw [List.filter_cons_of_pos (by simp)] at hd
        have hnil : (b :: u').filter (fun x => decide (a ≤ x)) = [] := by
          rw [List.filter_eq_nil_iff]
          intro x hx
          rcases List.mem_cons.mp hx with rfl | hx'
          · simp only [decide_eq_true_eq]
            omega
          · have := hu'.1 x hx'
            simp only [decide_eq_true_eq]
            omega
        rw [hnil] at hd
        simp at hd
      rw [listGt_cons_cons]
      by_cases heq : a = b
      · subst heq
        have htail : ∀ r, cntGe v' r ≤ cntGe u' r := by
          intro r
          by_cases hr : r ≤ a
          · have hd := hdom r
            unfold cntGe at hd ⊢
            rw [List.filter_cons_of_pos (by simpa using hr),
              List.filter_cons_of_pos (by simpa using hr)] at hd
            simpa using hd
          · have hnilv : v'.filter (fun x => decide (r ≤ x)) = [] := by
              rw [List.filter_eq_nil_iff]
              intro x hx
              have := hv'.1 x hx
              simp only [decide_eq_true_eq]
              omega
            unfold cntGe
            rw [hnilv]
            simp
        rw [ih hu'.2 hv'.2 htail]
        simp
      · have : ¬ b < a := by omega
        simp [this, heq]

/-! ## Helpers for the explicit dominant combinations -/

theorem sublist_eq_of_mem_iff {α : Type} {l A B : List α} (hnd : l.Nodup)
    (hA : A.Sublist l) (hB : B.Sublist l) (h : ∀ x, x ∈ A ↔ x ∈ B) : A = B := by
  induction l generalizing A B with
  | nil =>
    rw [List.sublist_nil.mp hA, List.sublist_nil.mp hB]
  | cons a l' ih =>
    have hal' : a ∉ l' := (List.nodup_cons.mp hnd).1
    have hnd' : l'.Nodup := (List.nodup_cons.mp hnd).2
    by_cases hmem : a ∈ A
    · have hmemB : a ∈ B := (h a).mp hmem
      cases hA with
      | cons _ hA' => exact absurd (hA'.subset hmem) hal'
      | cons₂ _ hA' =>
        cases hB with
        | cons _ hB' => exact absurd (hB'.subset hmemB) hal'
        | cons₂ _ hB' =>
          rename_i A' B'
          have hA'a : a ∉ A' := fun hx => hal' (hA'.subset hx)
          have hB'a : a ∉ B' := fun hx => hal' (hB'.subset hx)
          have hmem' : ∀ x, x ∈ A' ↔ x ∈ B' := by
            intro x
            by_cases hxa : x = a
            · subst hxa
              exact ⟨fun hx => absurd hx hA'a, fun hx => absurd hx hB'a⟩
            · constructor
              · intro hx
                have := (h x).mp (List.mem_cons_of_mem _ hx)
                rcases List.mem_cons.mp this with h1 | h1
                · exact absurd h1 hxa
                · exact h1
              · intro hx
                have := (h x).mpr (List.mem_cons_of_mem _ hx)
                rcases List.mem_cons.mp this with h1 | h1
                · exact absurd h1 hxa
                · exact h1
          rw [ih hnd' hA' hB' hmem']
    · have hmemB : a ∉ B := fun hx => hmem ((h a).mpr hx)
      cases hA with
      | cons₂ _ hA' => exact absurd (List.mem_cons_self _ _) hmem
      | cons _ hA' =>
        cases hB with
        | cons₂ _ hB' => exact absurd (List.mem_cons_self _ _) hmemB
        | cons _ hB' => exact ih hnd' hA' hB' h

theorem length_filter_or (X : List Card) (A B : Card → Bool)
    (hdisj : ∀ x ∈ X, ¬(A x = true ∧ B x = true)) :
    (X.filter fun x => A x || B x).length = (X.filter A).length + (X.filter B).length := by
  induction X with
  | nil => rfl
  | cons x xs ih =>
    have ih' := ih (fun y hy => hdisj y (List.mem_cons_of_mem _ hy))
    have hd := hdisj x (List.mem_cons_self _ _)
    by_cases hA : A x = true <;> by_cases hB : B x = true
    · exact absurd ⟨hA, hB⟩ hd
    all_goals (simp [List.filter_cons, hA, hB, ih'] <;> omega)

theorem length_filter_rank_eq_count (l : List Card) (r : Nat) :
    (l.filter (fun x => x.rank == r)).length = (l.map Card.rank).count r := by
  rw [List.count_eq_countP, List.countP_map, ← List.countP_eq_length_filter]
  rfl

theorem subperm_take_filter_append {hand : List Card} (p : Card → Bool) (i j : Nat) :
    (((hand.filter p).take i) ++ ((hand.filter (fun x => !p x)).take j)).Subperm hand := by
  rw [List.subperm_ext_iff]
  intro x hx
  rw [List.count_append]
  have hsubA : List.Sublist ((hand.filter p).take i) hand :=
    (List.take_sublist _ _).trans (List.filter_sublist _)
  have hsubB : List.Sublist ((hand.filter (fun x => !p x)).take j) hand :=
    (List.take_sublist _ _).trans (List.filter_sublist _)
  by_cases hp : p x = true
  · have hB : x ∉ (hand.filter (fun x => !p x)).take j := by
      intro hmem
      have := (List.mem_filter.mp ((List.take_sublist _ _).subset hmem)).2
      rw [hp] at this
      cases this
    have hB0 := List.count_eq_zero.mpr hB
    have hA1 := hsubA.count_le x
    omega
  · have hA : x ∉ (hand.filter p).take i := by
      intro hmem
      exact hp (List.mem_filter.mp ((List.take_sublist _ _).subset hmem)).2
    have hA0 := List.count_eq_zero.mpr hA
    have hB1 := hsubB.count_le x
    omega

theorem subperm_three_takes {hand : List Card} (p q : Card → Bool) (i j k : Nat)
    (hdisj : ∀ x, ¬(p x = true ∧ q x = true)) :
    (((hand.filter p).take i) ++ ((hand.filter q).take j)
      ++ ((hand.filter (fun x => !p x && !q x)).take k)).Subperm hand := by
  rw [List.subperm_ext_iff]
  intro x hx
  rw [List.count_append, List.count_append]
  have hsubA : List.Sublist ((hand.filter p).take i) hand :=
    (List.take_sublist _ _).trans (List.filter_sublist _)
  have hsubB : List.Sublist ((hand.filter q).take j) hand :=
    (List.take_sublist _ _).trans (List.filter_sublist _)
  have hsubC : List.Sublist ((hand.filter (fun x => !p x && !q x)).take k) hand :=
    (List.take_sublist _ _).trans (List.filter_sublist _)
  have hmemA : ∀ y ∈ (hand.filter p).take i, p y = true :=
    fun y hy => (List.mem_filter.mp ((List.take_sublist _ _).subset hy)).2
  have hmemB : ∀ y ∈ (hand.filter q).take j, q y = true :=
    fun y hy => (List.mem_filter.mp ((List.take_sublist _ _).subset hy)).2
  have hmemC : ∀ y ∈ (hand.filter (fun x => !p x && !q x)).take k,
      p y = false ∧ q y = false := by
    intro y hy
    have := (List.mem_filter.mp ((List.take_sublist _ _).subset hy)).2
    rw [Bool.and_eq_true, Bool.not_eq_true', Bool.not_eq_true'] at this
    exact this
  by_cases hp : p x = true
  · have hB : x ∉ (hand.filter q).take j := fun hm => hdisj x ⟨hp, hmemB x hm⟩
    have hC : x ∉ (hand.filter (fun x => !p x && !q x)).take k := by
      intro hm
      have := (hmemC x hm).1
      rw [hp] at this
      cases this
    have hB0 := List.count_eq_zero.mpr hB
    have hC0 := List.count_eq_zero.mpr hC
    have hA1 := hsubA.count_le x
    omega
  · by_cases hq : q x = true
    · have hA : x ∉ (hand.filter p).take i := fun hm => hp (hmemA x hm)
      have hC : x ∉ (hand.filter (fun x => !p x && !q x)).take k := by
        intro hm
        have := (hmemC x hm).2
        rw [hq] at this
        cases this
      have hA0 := List.count_eq_zero.mpr hA
      have hC0 := List.count_eq_zero.mpr hC
      have hB1 := hsubB.count_le x
      omega
    · have hA : x ∉ (hand.filter p).take i := fun hm => hp (hmemA x hm)
      have hB : x ∉ (hand.filter q).take j := fun hm => hq (hmemB x hm)
      have hA0 := List.count_eq_zero.mpr hA
      have hB0 := List.count_eq_zero.mpr hB
      have hC1 := hsubC.count_le x
      omega

/-- If at most one card of rank `r` exists, any sub-selection of that rank is
an initial segment. -/
theorem prefix_of_count_le_one {l E : List Card} (hE : E.Sublist l) (r : Nat)
    (hcnt : (l.filter (fun x => x.rank == r)).length ≤ 1) :
    ∃ t, l.filter (fun x => x.rank == r) = E.filter (fun x => x.rank == r) ++ t := by
  have hsub : List.Sublist (E.filter (fun x => x.rank == r))
      (l.filter (fun x => x.rank == r)) := hE.filter _
  cases hlf : l.filter (fun x => x.rank == r) with
  | nil =>
    rw [hlf] at hsub
    rw [List.sublist_nil.mp hsub]
    exact ⟨[], rfl⟩
  | cons a tl =>
    rw [hlf] at hsub hcnt
    cases tl with
    | cons b tl' => simp at hcnt
    | nil =>
      cases hEf : E.filter (fun x => x.rank == r) with
      | nil => exact ⟨[a], rfl⟩
      | cons c tc =>
        rw [hEf] at hsub
        have := hsub.length_le
        simp only [List.length_cons, List.length_singleton] at this
        have htc : tc = [] := by
          cases tc with
          | nil => rfl
          | cons d td => simp at this
        subst htc
        have hca : c = a := by
          have hmem := hsub.subset (List.mem_cons_self c [])
          simpa using hmem
        subst hca
        exact ⟨[], rfl⟩

theorem length_filter_neg_add (X : List Card) (p : Card → Bool) :
    (X.filter p).length + (X.filter (fun x => !p x)).length = X.length := by
  induction X with
  | nil => rfl
  | cons x xs ih =>
    by_cases hp : p x = true <;> simp [List.filter_cons, hp, ← ih] <;> omega

theorem subperm_two_takes {hand : List Card} (p q : Card → Bool) (i j : Nat)
    (hdisj : ∀ x, ¬(p x = true ∧ q x = true)) :
    (((hand.filter p).take i) ++ ((hand.filter q).take j)).Subperm hand := by
  rw [List.subperm_ext_iff]
  intro x hx
  rw [List.count_append]
  have hsubA : List.Sublist ((hand.filter p).take i) hand :=
    (List.take_sublist _ _).trans (List.filter_sublist _)
  have hsubB : List.Sublist ((hand.filter q).take j) hand :=
    (List.take_sublist _ _).trans (List.filter_sublist _)
  have hmemA : ∀ y ∈ (hand.filter p).take i, p y = true :=
    fun y hy => (List.mem_filter.mp ((List.take_sublist _ _).subset hy)).2
  have hmemB : ∀ y ∈ (hand.filter q).take j, q y = true :=
    fun y hy => (List.mem_filter.mp ((List.take_sublist _ _).subset hy)).2
  by_cases hp : p x = true
  · have hB : x ∉ (hand.filter q).take j := fun hm => hdisj x ⟨hp, hmemB x hm⟩
    have hB0 := List.count_eq_zero.mpr hB
    have hA1 := hsubA.count_le x
    omega
  · have hA : x ∉ (hand.filter p).take i := fun hm => hp (hmemA x hm)
    have hA0 := List.count_eq_zero.mpr hA
    have hB1 := hsubB.count_le x
    omega

theorem subperm_sortDesc {S hand : List Card} (h : S.Subperm hand) :
    S.Subperm (sortDesc hand) :=
  h.trans (sortDesc_perm hand).symm.subperm

theorem count_map_rank_take_filter_self (hand : List Card) (r : Nat) (i : Nat) :
    (((hand.filter (fun x => x.rank == r)).take i).map Card.rank).count r
      = min i ((hand.map Card.rank).count r) := by
  have hall : ∀ v ∈ ((hand.filter (fun x => x.rank == r)).take i).map Card.rank, v = r := by
    intro v hv
    obtain ⟨y, hy, rfl⟩ := List.mem_map.mp hv
    have := (List.mem_filter.mp ((List.take_sublist _ _).subset hy)).2
    simpa using this
  have hrep : ((hand.filter (fun x => x.rank == r)).take i).map Card.rank
      = List.replicate (((hand.filter (fun x => x.rank == r)).take i).length) r := by
    rw [List.eq_replicate]
    exact ⟨by rw [List.length_map], hall⟩
  rw [hrep, List.count_replicate, if_pos (by simp), List.length_take,
    length_filter_rank_eq_count]

theorem count_map_rank_zero {S : List Card} {r : Nat}
    (h : ∀ x ∈ S, x.rank ≠ r) : (S.map Card.rank).count r = 0 := by
  rw [List.count_eq_zero]
  intro hm
  obtain ⟨y, hy, hrk⟩ := List.mem_map.mp hm
  exact h y hy hrk

/-- Three cards of one rank can always be completed to a combination of
category at least 3. -/
theorem exists_combo_trips {hand : List Card} (h7 : hand.length = 7)
    (hnd : hand.Nodup) (hsuit : ∀ x ∈ hand, x.suit < 4) {r : Nat}
    (h3 : 3 ≤ (hand.map Card.rank).count r) :
    ∃ c ∈ combinations 5 (sortDesc hand), 3 ≤ catOf c := by
  have hcnt4 := count_rank_le_four hnd hsuit r
  have hflen : (hand.filter (fun x => x.rank == r)).length = (hand.map Card.rank).count r :=
    length_filter_rank_eq_count hand r
  have hnlen := length_filter_neg_add hand (fun x => x.rank == r)
  have hSlen : (((hand.filter (fun x => x.rank == r)).take 3)
      ++ ((hand.filter (fun x => !(x.rank == r))).take 2)).length = 5 := by
    rw [List.length_append, List.length_take, List.length_take]
    omega
  obtain ⟨c, hcmem, hcperm⟩ := combinations_of_subperm
    (subperm_sortDesc (subperm_two_takes _ _ 3 2 (fun x => by simp))) hSlen
  refine ⟨c, hcmem, ?_⟩
  have hcount : (ranksOf c).count r = 3 := by
    have h1 : (ranksOf c).count r = (c.map Card.rank).count r :=
      (ranksOf_perm_self c).count_eq r
    rw [h1, (hcperm.map Card.rank).count_eq, List.map_append, List.count_append]
    have h2 := count_map_rank_take_filter_self hand r 3
    have h3' : ((((hand.filter (fun x => !(x.rank == r))).take 2)).map Card.rank).count r
        = 0 := by
      apply count_map_rank_zero
      intro x hx hr
      have := (List.mem_filter.mp ((List.take_sublist _ _).subset hx)).2
      rw [Bool.not_eq_true'] at this
      simp [hr] at this
    omega
  have hmemr : r ∈ ranksOf c := by
    rw [← List.count_pos_iff_mem]
    omega
  have hhead3 := count_le_countsHead hmemr
  rw [hcount] at hhead3
  have hsub : List.Sublist c (sortDesc hand) := (mem_combinations.mp hcmem).1
  have hhead4 := countsHead_le_four hnd hsuit hsub
  rcases Nat.lt_or_ge ((countsOf c).headD 0) 4 with h4 | h4
  · have : (countsOf c).headD 0 = 3 := by omega
    exact catOf_ge_of_head_three this
  · have : (countsOf c).headD 0 = 4 := by omega
    exact le_trans (by omega) (catOf_ge_of_head_four this)

/-- Four cards of one rank can always be completed to a combination of
category at least 7. -/
theorem exists_combo_quads {hand : List Card} (h7 : hand.length = 7)
    (hnd : hand.Nodup) (hsuit : ∀ x ∈ hand, x.suit < 4) {r : Nat}
    (h4 : 4 ≤ (hand.map Card.rank).count r) :
    ∃ c ∈ combinations 5 (sortDesc hand), 7 ≤ catOf c := by
  have hcnt4 := count_rank_le_four hnd hsuit r
  have hflen : (hand.filter (fun x => x.rank == r)).length = (hand.map Card.rank).count r :=
    length_filter_rank_eq_count hand r
  have hnlen := length_filter_neg_add hand (fun x => x.rank == r)
  have hSlen : (((hand.filter (fun x => x.rank == r)).take 4)
      ++ ((hand.filter (fun x => !(x.rank == r))).take 1)).length = 5 := by
    rw [List.length_append, List.length_take, List.length_take]
    omega
  obtain ⟨c, hcmem, hcperm⟩ := combinations_of_subperm
    (subperm_sortDesc (subperm_two_takes _ _ 4 1 (fun x => by simp))) hSlen
  refine ⟨c, hcmem, ?_⟩
  have hcount : (ranksOf c).count r = 4 := by
    have h1 : (ranksOf c).count r = (c.map Card.rank).count r :=
      (ranksOf_perm_self c).count_eq r
    rw [h1, (hcperm.map Card.rank).count_eq, List.map_append, List.count_append]
    have h2 := count_map_rank_take_filter_self hand r 4
    have h3' : ((((hand.filter (fun x => !(x.rank == r))).take 1)).map Card.rank).count r
        = 0 := by
      apply count_map_rank_zero
      intro x hx hr
      have := (List.mem_filter.mp ((List.take_sublist _ _).subset hx)).2
      rw [Bool.not_eq_true'] at this
      simp [hr] at this
    omega
  have hmemr : r ∈ ranksOf c := by
    rw [← List.count_pos_iff_mem]
    omega
  have hhead4 := count_le_countsHead hmemr
  rw [hcount] at hhead4
  have hsub : List.Sublist c (sortDesc hand) := (mem_combinations.mp hcmem).1
  have hhead4' := countsHead_le_four hnd hsuit hsub
  exact catOf_ge_of_head_four (by omega)

/-- Two cards of one rank can always be completed to a combination of
category at least 1. -/
theorem exists_combo_pair {hand : List Card} (h7 : hand.length = 7)
    (hnd : hand.Nodup) (hsuit : ∀ x ∈ hand, x.suit < 4) {r : Nat}
    (h2 : 2 ≤ (hand.map Card.rank).count r) :
    ∃ c ∈ combinations 5 (sortDesc hand), 1 ≤ catOf c := by
  have hcnt4 := count_rank_le_four hnd hsuit r
  have hflen : (hand.filter (fun x => x.rank == r)).length = (hand.map Card.rank).count r :=
    length_filter_rank_eq_count hand r
  have hnlen := length_filter_neg_add hand (fun x => x.rank == r)
  have hSlen : (((hand.filter (fun x => x.rank == r)).take 2)
      ++ ((hand.filter (fun x => !(x.rank == r))).take 3)).length = 5 := by
    rw [List.length_append, List.length_take, List.length_take]
    omega
  obtain ⟨c, hcmem, hcperm⟩ := combinations_of_subperm
    (subperm_sortDesc (subperm_two_takes _ _ 2 3 (fun x => by simp))) hSlen
  refine ⟨c, hcmem, ?_⟩
  have hcount : (ranksOf c).count r = 2 := by
    have h1 : (ranksOf c).count r = (c.map Card.rank).count r :=
      (ranksOf_perm_self c).count_eq r
    rw [h1, (hcperm.map Card.rank).count_eq, List.map_append, List.count_append]
    have h2' := count_map_rank_take_filter_self hand r 2
    have h3' : ((((hand.filter (fun x => !(x.rank == r))).take 3)).map Card.rank).count r
        = 0 := by
      apply count_map_rank_zero
      intro x hx hr
      have := (List.mem_filter.mp ((List.take_sublist _ _).subset hx)).2
      rw [Bool.not_eq_true'] at this
      simp [hr] at this
    omega
  have hmemr : r ∈ ranksOf c := by
    rw [← List.count_pos_iff_mem]
    omega
  have hhead2 := count_le_countsHead hmemr
  rw [hcount] at hhead2
  have hsub : List.Sublist c (sortDesc hand) := (mem_combinations.mp hcmem).1
  have hhead4 := countsHead_le_four hnd hsuit hsub
  rcases Nat.lt_or_ge ((countsOf c).headD 0) 3 with h3 | h3
  · exact catOf_ge_of_head_two (by omega)
  · rcases Nat.lt_or_ge ((countsOf c).headD 0) 4 with h4 | h4
    · exact le_trans (by omega) (catOf_ge_of_head_three (by omega))
    · exact le_trans (by omega) (catOf_ge_of_head_four (by omega))

/-- Two distinct paired ranks can always be completed to a combination of
category at least 2. -/
theorem exists_combo_twopair {hand : List Card} (h7 : hand.length = 7)
    (hnd : hand.Nodup) (hsuit : ∀ x ∈ hand, x.suit < 4) {r1 r2 : Nat}
    (hlt : r2 < r1)
    (h21 : 2 ≤ (hand.map Card.rank).count r1) (h22 : 2 ≤ (hand.map Card.rank).count r2) :
    ∃ c ∈ combinations 5 (sortDesc hand), 2 ≤ catOf c := by
  rcases Nat.lt_or_ge ((hand.map Card.rank).count r1) 3 with hc1 | hc1
  swap
  · obtain ⟨c, hm, hc⟩ := exists_combo_trips h7 hnd hsuit hc1
    exact ⟨c, hm, by omega⟩
  rcases Nat.lt_or_ge ((hand.map Card.rank).count r2) 3 with hc2 | hc2
  swap
  · obtain ⟨c, hm, hc⟩ := exists_combo_trips h7 hnd hsuit hc2
    exact ⟨c, hm, by omega⟩
  have he1 : (hand.map Card.rank).count r1 = 2 := by omega
  have he2 : (hand.map Card.rank).count r2 = 2 := by omega
  have hflen1 : (hand.filter (fun x => x.rank == r1)).length = 2 := by
    rw [length_filter_rank_eq_count, he1]
  have hflen2 : (hand.filter (fun x => x.rank == r2)).length = 2 := by
    rw [length_filter_rank_eq_count, he2]
  have hsplit1 := length_filter_and_split hand (fun x => !(x.rank == r1))
    (fun x => x.rank == r2)
  have hneg1 := length_filter_neg_add hand (fun x => x.rank == r1)
  have hq1 : hand.filter (fun x => !(x.rank == r1) && (x.rank == r2))
      = hand.filter (fun x => x.rank == r2) := by
    apply List.filter_congr
    intro x _
    by_cases hx2 : x.rank = r2
    · have hx1 : ¬ (x.rank = r1) := by omega
      have hne : ¬ (r2 = r1) := by omega
      simp [hx1, hx2, hne]
    · simp [hx2]
  have hrest : (hand.filter (fun x => !(x.rank == r1) && !(x.rank == r2))).length = 3 := by
    rw [hq1, hflen2] at hsplit1
    omega
  have hSlen : ((((hand.filter (fun x => x.rank == r1)).take 2)
      ++ ((hand.filter (fun x => x.rank == r2)).take 2))
      ++ ((hand.filter (fun x => !(x.rank == r1) && !(x.rank == r2))).take 1)).length = 5 := by
    rw [List.length_append, List.length_append, List.length_take, List.length_take,
      List.length_take]
    omega
  obtain ⟨c, hcmem, hcperm⟩ := combinations_of_subperm
    (subperm_sortDesc (subperm_three_takes _ _ 2 2 1 (fun x => by
      simp only [beq_iff_eq, not_and]
      intro ha hb
      omega))) hSlen
  refine ⟨c, hcmem, ?_⟩
  obtain ⟨k0, hk0⟩ : ∃ k0, (hand.filter (fun x => !(x.rank == r1) && !(x.rank == r2))).take 1
      = [k0] := by
    rw [← List.length_eq_one, List.length_take]
    omega
  have hk0mem : k0 ∈ hand.filter (fun x => !(x.rank == r1) && !(x.rank == r2)) := by
    have : k0 ∈ (hand.filter (fun x => !(x.rank == r1) && !(x.rank == r2))).take 1 := by
      rw [hk0]
      exact List.mem_singleton.mpr rfl
    exact (List.take_sublist _ _).subset this
  have hk0r : ¬ (k0.rank = r1) ∧ ¬ (k0.rank = r2) := by
    have := (List.mem_filter.mp hk0mem).2
    rw [Bool.and_eq_true, Bool.not_eq_true', Bool.not_eq_true'] at this
    constructor
    · simpa using this.1
    · simpa using this.2
  have ht1 : (hand.filter (fun x => x.rank == r1)).take 2
      = hand.filter (fun x => x.rank == r1) := by
    rw [List.take_of_length_le (by omega)]
  have ht2 : (hand.filter (fun x => x.rank == r2)).take 2
      = hand.filter (fun x => x.rank == r2) := by
    rw [List.take_of_length_le (by omega)]
  have hmap1 : ((hand.filter (fun x => x.rank == r1)).map Card.rank)
      = List.replicate 2 r1 := by
    rw [List.eq_replicate]
    refine ⟨by rw [List.length_map, hflen1], ?_⟩
    intro b hb
    obtain ⟨y, hy, rfl⟩ := List.mem_map.mp hb
    simpa using (List.mem_filter.mp hy).2
  have hmap2 : ((hand.filter (fun x => x.rank == r2)).map Card.rank)
      = List.replicate 2 r2 := by
    rw [List.eq_replicate]
    refine ⟨by rw [List.length_map, hflen2], ?_⟩
    intro b hb
    obtain ⟨y, hy, rfl⟩ := List.mem_map.mp hb
    simpa using (List.mem_filter.mp hy).2
  have hperm : (ranksOf c).Perm [r1, r1, r2, r2, k0.rank] := by
    refine ((ranksOf_perm_self c).trans (hcperm.map Card.rank)).trans ?_
    rw [List.map_append, List.map_append, ht1, ht2, hmap1, hmap2, hk0]
    rfl
  have hsbc := sbc_twopair hperm hlt hk0r.1 hk0r.2
  apply catOf_ge_of_twopair
  unfold countsOf
  rw [hsbc]
  rfl

theorem listGt_nil_left (bs : List Nat) : listGt [] bs = false := by
  cases bs <;> rfl

/-- For any non-wheel combination, `hand_values` never exceeds the display
rank sequence lexicographically. -/
theorem hv_le_raw_of_not_wheel {c : List Card} (h5 : c.length = 5) (hw : isWheel c = false)
    (hd4 : (countsOf c).headD 0 ≤ 4) :
    listGt (hvOf c) (rawOf c) = false := by
  have hd1 : 1 ≤ (countsOf c).headD 0 := countsHead_pos h5
  rw [rawOf_not_wheel hw]
  rcases (by omega : (countsOf c).headD 0 = 1 ∨ (countsOf c).headD 0 = 2 ∨
      (countsOf c).headD 0 = 3 ∨ (countsOf c).headD 0 = 4) with h1 | h2 | h3 | h4
  · obtain ⟨hhv, -⟩ := shape_of_distinct h5 h1
    rw [hhv]
    exact listGt_irrefl _
  · by_cases htk : (countsOf c).take 2 = [2, 2]
    · obtain ⟨p, q, k, hpq, hkp, hkq, -, hperm, hhv⟩ := shape_of_twopair h5 htk
      rw [hhv]
      rcases Nat.lt_trichotomy k p with hc1 | hc1 | hc1
      · rcases Nat.lt_trichotomy k q with hc2 | hc2 | hc2
        · -- k < q < p : [p,p,q,q,k]

          have hpermc : ([p, p, q, q, k] : List Nat).Perm [p, p, q, q, k] := List.Perm.refl _
          have hsortedc : ([p, p, q, q, k] : List Nat).Sorted (· ≥ ·) := by
            simp only [List.sorted_cons, List.mem_cons, List.not_mem_nil, or_false,
              forall_eq_or_imp, forall_eq, List.sorted_nil, and_true, not_false_iff,
              true_and, implies_true, false_implies, forall_const]
            omega
          have hcand : ranksOf c = [p, p, q, q, k] :=
            ranks_sorted_unique (hperm.trans hpermc) (sortDesc_ranks_sorted c) hsortedc
          rw [hcand]
          simp [listGt_cons_cons, listGt_nil_left]
          omega
        · exact absurd hc2 hkq
        · -- q < k < p : [p,p,k,q,q]

          have hpermc : ([p, p, q, q, k] : List Nat).Perm [p, p, k, q, q] := by
            refine List.perm_iff_count.mpr fun x => ?_
            simp only [List.count_cons, List.count_nil]
            split_ifs <;> omega
          have hsortedc : ([p, p, k, q, q] : List Nat).Sorted (· ≥ ·) := by
            simp only [List.sorted_cons, List.mem_cons, List.not_mem_nil, or_false,
              forall_eq_or_imp, forall_eq, List.sorted_nil, and_true, not_false_iff,
              true_and, implies_true, false_implies, forall_const]
            omega
          have hcand : ranksOf c = [p, p, k, q, q] :=
            ranks_sorted_unique (hperm.trans hpermc) (sortDesc_ranks_sorted c) hsortedc
          rw [hcand]
          simp [listGt_cons_cons, listGt_nil_left]
          omega
      · exact absurd hc1 hkp
      · -- p < k : [k,p,p,q,q]

        have hpermc : ([p, p, q, q, k] : List Nat).Perm [k, p, p, q, q] := by
          refine List.perm_iff_count.mpr fun x => ?_
          simp only [List.count_cons, List.count_nil]
          split_ifs <;> omega
        have hsortedc : ([k, p, p, q, q] : List Nat).Sorted (· ≥ ·) := by
          simp only [List.sorted_cons, List.mem_cons, List.not_mem_nil, or_false,
            forall_eq_or_imp, forall_eq, List.sorted_nil, and_true, not_false_iff,
            true_and, implies_true, false_implies, forall_const]
          omega
        have hcand : ranksOf c = [k, p, p, q, q] :=
          ranks_sorted_unique (hperm.trans hpermc) (sortDesc_ranks_sorted c) hsortedc
        rw [hcand]
        simp [listGt_cons_cons, listGt_nil_left]
        omega
    · obtain ⟨p, a, b, d, hab, hbd, hpa, hpb, hpd, -, hperm, hhv⟩ :=
        shape_of_pair h5 h2 htk
      rw [hhv]
      rcases Nat.lt_trichotomy p a with hc1 | hc1 | hc1
      · rcases Nat.lt_trichotomy p b with hc2 | hc2 | hc2
        · rcases Nat.lt_trichotomy p d with hc3 | hc3 | hc3
          · -- p < d : [a,b,d,p,p]

            have hpermc : ([p, p, a, b, d] : List Nat).Perm [a, b, d, p, p] := by
              refine List.perm_iff_count.mpr fun x => ?_
              simp only [List.count_cons, List.count_nil]
              split_ifs <;> omega
            have hsortedc : ([a, b, d, p, p] : List Nat).Sorted (· ≥ ·) := by
              simp only [List.sorted_cons, List.mem_cons, List.not_mem_nil, or_false,
                forall_eq_or_imp, forall_eq, List.sorted_nil, and_true, not_false_iff,
                true_and, implies_true, false_implies, forall_const]
              omega
            have hcand : ranksOf c = [a, b, d, p, p] :=
              ranks_sorted_unique (hperm.trans hpermc) (sortDesc_ranks_sorted c) hsortedc
            rw [hcand]
            simp [listGt_cons_cons, listGt_nil_left]
            omega
          · exact absurd hc3 hpd
          · -- d < p < b : [a,b,p,p,d]

            have hpermc : ([p, p, a, b, d] : List Nat).Perm [a, b, p, p, d] := by
              refine List.perm_iff_count.mpr fun x => ?_
              simp only [List.count_cons, List.count_nil]
              split_ifs <;> omega
            have hsortedc : ([a, b, p, p, d] : List Nat).Sorted (· ≥ ·) := by
              simp only [List.sorted_cons, List.mem_cons, List.not_mem_nil, or_false,
                forall_eq_or_imp, forall_eq, List.sorted_nil, and_true, not_false_iff,
                true_and, implies_true, false_implies, forall_const]
              omega
            have hcand : ranksOf c = [a, b, p, p, d] :=
              ranks_sorted_unique (hperm.trans hpermc) (sortDesc_ranks_sorted c) hsortedc
            rw [hcand]
            simp [listGt_cons_cons, listGt_nil_left]
            omega
        · exact absurd hc2 hpb
        · -- b < p < a : [a,p,p,b,d]

          have hpermc : ([p, p, a, b, d] : List Nat).Perm [a, p, p, b, d] := by
            refine List.perm_iff_count.mpr fun x => ?_
            simp only [List.count_cons, List.count_nil]
            split_ifs <;> omega
          have hsortedc : ([a, p, p, b, d] : List Nat).Sorted (· ≥ ·) := by
            simp only [List.sorted_cons, List.mem_cons, List.not_mem_nil, or_false,
              forall_eq_or_imp, forall_eq, List.sorted_nil, and_true, not_false_iff,
              true_and, implies_true, false_implies, forall_const]
            omega
          have hcand : ranksOf c = [a, p, p, b, d] :=
            ranks_sorted_unique (hperm.trans hpermc) (sortDesc_ranks_sorted c) hsortedc
          rw [hcand]
          simp [listGt_cons_cons, listGt_nil_left]
          omega
      · exact absurd hc1 hpa
      · -- a < p : [p,p,a,b,d]

        have hpermc : ([p, p, a, b, d] : List Nat).Perm [p, p, a, b, d] := List.Perm.refl _
        have hsortedc : ([p, p, a, b, d] : List Nat).Sorted (· ≥ ·) := by
          simp only [List.sorted_cons, List.mem_cons, List.not_mem_nil, or_false,
            forall_eq_or_imp, forall_eq, List.sorted_nil, and_true, not_false_iff,
            true_and, implies_true, false_implies, forall_const]
          omega
        have hcand : ranksOf c = [p, p, a, b, d] :=
          ranks_sorted_unique (hperm.trans hpermc) (sortDesc_ranks_sorted c) hsortedc
        rw [hcand]
        simp [listGt_cons_cons, listGt_nil_left]
        omega
  · by_cases htk : (countsOf c).take 2 = [3, 2]
    · obtain ⟨t, q, htq, -, hperm, hhv⟩ := shape_of_full h5 htk
      rw [hhv]
      rcases Nat.lt_trichotomy t q with hc1 | hc1 | hc1
      · -- t < q : [q,q,t,t,t]

        have hpermc : ([t, t, t, q, q] : List Nat).Perm [q, q, t, t, t] := by
          refine List.perm_iff_count.mpr fun x => ?_
          simp only [List.count_cons, List.count_nil]
          split_ifs <;> omega
        have hsortedc : ([q, q, t, t, t] : List Nat).Sorted (· ≥ ·) := by
          simp only [List.sorted_cons, List.mem_cons, List.not_mem_nil, or_false,
            forall_eq_or_imp, forall_eq, List.sorted_nil, and_true, not_false_iff,
            true_and, implies_true, false_implies, forall_const]
          omega
        have hcand : ranksOf c = [q, q, t, t, t] :=
          ranks_sorted_unique (hperm.trans hpermc) (sortDesc_ranks_sorted c) hsortedc
        rw [hcand]
        simp [listGt_cons_cons, listGt_nil_left]
        omega
      · exact absurd hc1 htq
      · -- q < t : [t,t,t,q,q]

        have hpermc : ([t, t, t, q, q] : List Nat).Perm [t, t, t, q, q] := List.Perm.refl _
        have hsortedc : ([t, t, t, q, q] : List Nat).Sorted (· ≥ ·) := by
          simp only [List.sorted_cons, List.mem_cons, List.not_mem_nil, or_false,
            forall_eq_or_imp, forall_eq, List.sorted_nil, and_true, not_false_iff,
            true_and, implies_true, false_implies, forall_const]
          omega
        have hcand : ranksOf c = [t, t, t, q, q] :=
          ranks_sorted_unique (hperm.trans hpermc) (sortDesc_ranks_sorted c) hsortedc
        rw [hcand]
        simp [listGt_cons_cons, listGt_nil_left]
        omega
    · obtain ⟨t, a, b, hab, hta, htb, -, hperm, hhv⟩ := shape_of_trips h5 h3 htk
      rw [hhv]
      rcases Nat.lt_trichotomy t a with hc1 | hc1 | hc1
      · rcases Nat.lt_trichotomy t b with hc2 | hc2 | hc2
        · -- t < b : [a,b,t,t,t]

          have hpermc : ([t, t, t, a, b] : List Nat).Perm [a, b, t, t, t] := by
            refine List.perm_iff_count.mpr fun x => ?_
            simp only [List.count_cons, List.count_nil]
            split_ifs <;> omega
          have hsortedc : ([a, b, t, t, t] : List Nat).Sorted (· ≥ ·) := by
            simp only [List.sorted_cons, List.mem_cons, List.not_mem_nil, or_false,
              forall_eq_or_imp, forall_eq, List.sorted_nil, and_true, not_false_iff,
              true_and, implies_true, false_implies, forall_const]
            omega
          have hcand : ranksOf c = [a, b, t, t, t] :=
            ranks_sorted_unique (hperm.trans hpermc) (sortDesc_ranks_sorted c) hsortedc
          rw [hcand]
          simp [listGt_cons_cons, listGt_nil_left]
          omega
        · exact absurd hc2 htb
        · -- b < t < a : [a,t,t,t,b]

          have hpermc : ([t, t, t, a, b] : List Nat).Perm [a, t, t, t, b] := by
            refine List.perm_iff_count.mpr fun x => ?_
            simp only [List.count_cons, List.count_nil]
            split_ifs <;> omega
          have hsortedc : ([a, t, t, t, b] : List Nat).Sorted (· ≥ ·) := by
            simp only [List.sorted_cons, List.mem_cons, List.not_mem_nil, or_false,
              forall_eq_or_imp, forall_eq, List.sorted_nil, and_true, not_false_iff,
              true_and, implies_true, false_implies, forall_const]
            omega
          have hcand : ranksOf c = [a, t, t, t, b] :=
            ranks_sorted_unique (hperm.trans hpermc) (sortDesc_ranks_sorted c) hsortedc
          rw [hcand]
          simp [listGt_cons_cons, listGt_nil_left]
          omega
      · exact absurd hc1 hta
      · -- a < t : [t,t,t,a,b]

        have hpermc : ([t, t, t, a, b] : List Nat).Perm [t, t, t, a, b] := List.Perm.refl _
        have hsortedc : ([t, t, t, a, b] : List Nat).Sorted (· ≥ ·) := by
          simp only [List.sorted_cons, List.mem_cons, List.not_mem_nil, or_false,
            forall_eq_or_imp, forall_eq, List.sorted_nil, and_true, not_false_iff,
            true_and, implies_true, false_implies, forall_const]
          omega
        have hcand : ranksOf c = [t, t, t, a, b] :=
          ranks_sorted_unique (hperm.trans hpermc) (sortDesc_ranks_sorted c) hsortedc
        rw [hcand]
        simp [listGt_cons_cons, listGt_nil_left]
        omega
  · obtain ⟨q, k, hqk, -, hperm, hhv⟩ := shape_of_quads h5 h4
    rw [hhv]
    rcases Nat.lt_trichotomy q k with hc1 | hc1 | hc1
    · -- q < k : [k,q,q,q,q]

      have hpermc : ([q, q, q, q, k] : List Nat).Perm [k, q, q, q, q] := by
        refine List.perm_iff_count.mpr fun x => ?_
        simp only [List.count_cons, List.count_nil]
        split_ifs <;> omega
      have hsortedc : ([k, q, q, q, q] : List Nat).Sorted (· ≥ ·) := by
        simp only [List.sorted_cons, List.mem_cons, List.not_mem_nil, or_false,
          forall_eq_or_imp, forall_eq, List.sorted_nil, and_true, not_false_iff,
          true_and, implies_true, false_implies, forall_const]
        omega
      have hcand : ranksOf c = [k, q, q, q, q] :=
        ranks_sorted_unique (hperm.trans hpermc) (sortDesc_ranks_sorted c) hsortedc
      rw [hcand]
      simp [listGt_cons_cons, listGt_nil_left]
      omega
    · exact absurd hc1 hqk
    · -- k < q : [q,q,q,q,k]

      have hpermc : ([q, q, q, q, k] : List Nat).Perm [q, q, q, q, k] := List.Perm.refl _
      have hsortedc : ([q, q, q, q, k] : List Nat).Sorted (· ≥ ·) := by
        simp only [List.sorted_cons, List.mem_cons, List.not_mem_nil, or_false,
          forall_eq_or_imp, forall_eq, List.sorted_nil, and_true, not_false_iff,
          true_and, implies_true, false_implies, forall_const]
        omega
      have hcand : ranksOf c = [q, q, q, q, k] :=
        ranks_sorted_unique (hperm.trans hpermc) (sortDesc_ranks_sorted c) hsortedc
      rw [hcand]
      simp [listGt_cons_cons, listGt_nil_left]
      omega

theorem filter_true_and (l : List Card) (p : Card → Bool) :
    l.filter (fun x => (fun _ : Card => true) x && p x) = l.filter p := by
  apply List.filter_congr
  intro x _
  simp

theorem list_eq_three {α : Type} {l : List α} (h : l.length = 3) :
    ∃ a b c, l = [a, b, c] := by
  cases l with
  | nil => simp at h
  | cons a t =>
    cases t with
    | nil => simp at h
    | cons b t2 =>
      cases t2 with
      | nil => simp at h
      | cons c t3 =>
        cases t3 with
        | nil => exact ⟨a, b, c, rfl⟩
        | cons d t4 => simp at h

theorem listGt_cons_same (x : Nat) (as bs : List Nat) (h : listGt as bs = false) :
    listGt (x :: as) (x :: bs) = false := by
  rw [listGt_cons_cons, h]
  simp

/-- The support-prefix property for combinations of the form "all cards of a
rank class plus an initial segment of the remaining cards". -/
theorem hpre_filter_or_take {l : List Card} (hnd : l.Nodup) (inRS : Card → Bool)
    (hrank : ∀ x y : Card, x.rank = y.rank → inRS x = inRS y) (j : Nat) (r : Nat) :
    ∃ t, l.filter (fun x => x.rank == r)
      = ((l.filter (fun x => inRS x ||
          decide (x ∈ (l.filter (fun x => !inRS x)).take j))).filter
          (fun x => x.rank == r)) ++ t := by
  by_cases hb : inRS ⟨0, r⟩ = true
  · refine ⟨[], ?_⟩
    rw [List.append_nil]
    symm
    apply sublist_eq_of_mem_iff hnd
    · exact (List.filter_sublist _).trans (List.filter_sublist _)
    · exact List.filter_sublist _
    · intro x
      simp only [List.mem_filter]
      constructor
      · rintro ⟨⟨h1, _⟩, h3⟩
        exact ⟨h1, h3⟩
      · rintro ⟨h1, h3⟩
        have hx : x.rank = r := by simpa using h3
        have hRS : inRS x = true := by
          rw [hrank x ⟨0, r⟩ hx]
          exact hb
        exact ⟨⟨h1, by rw [hRS, Bool.true_or]⟩, h3⟩
  · have hb' : inRS ⟨0, r⟩ = false := by
      revert hb
      cases inRS ⟨0, r⟩ <;> simp
    have hEr : ((l.filter (fun x => inRS x ||
          decide (x ∈ (l.filter (fun x => !inRS x)).take j))).filter
          (fun x => x.rank == r))
        = ((l.filter (fun x => !inRS x)).take j).filter (fun x => x.rank == r) := by
      apply sublist_eq_of_mem_iff hnd
      · exact (List.filter_sublist _).trans (List.filter_sublist _)
      · exact (List.filter_sublist _).trans
          ((List.take_sublist _ _).trans (List.filter_sublist _))
      · intro x
        simp only [List.mem_filter]
        constructor
        · rintro ⟨⟨h1, h2⟩, h3⟩
          have hx : x.rank = r := by simpa using h3
          have hRS : inRS x = false := by
            rw [hrank x ⟨0, r⟩ hx]
            exact hb'
          rw [hRS, Bool.false_or] at h2
          exact ⟨by simpa using h2, h3⟩
        · rintro ⟨h1, h3⟩
          have hxl : x ∈ l :=
            (List.filter_sublist _).subset ((List.take_sublist _ _).subset h1)
          exact ⟨⟨hxl, by rw [Bool.or_eq_true]; right; simpa using h1⟩, h3⟩
    have hlF : l.filter (fun x => x.rank == r)
        = (l.filter (fun x => !inRS x)).filter (fun x => x.rank == r) := by
      rw [List.filter_filter]
      apply List.filter_congr
      intro x _
      by_cases hx : x.rank = r
      · have hRS : inRS x = false := by
          rw [hrank x ⟨0, r⟩ hx]
          exact hb'
        simp [hx, hRS]
      · simp [hx]
    refine ⟨((l.filter (fun x => !inRS x)).drop j).filter (fun x => x.rank == r), ?_⟩
    rw [hEr, hlF]
    conv =>
      lhs
      rw [← List.take_append_drop j (l.filter (fun x => !inRS x))]
    rw [List.filter_append]

theorem mem_four_of_five_absurd {p a b d : Nat}
    (h : ∀ x ∈ [(14 : Nat), 2, 3, 4, 5], x ∈ [p, p, a, b, d]) : False := by
  have hsub : ([(14 : Nat), 2, 3, 4, 5]).toFinset ⊆ ([p, p, a, b, d]).toFinset := by
    intro x hx
    rw [List.mem_toFinset] at hx ⊢
    exact h x hx
  have h5 : ([(14 : Nat), 2, 3, 4, 5]).toFinset.card = 5 := by decide
  have h4 : ([p, p, a, b, d]).toFinset.card ≤ 4 := by
    have h1 : ([p, p, a, b, d]).toFinset = ([p, a, b, d]).toFinset := by
      simp [List.toFinset_cons, Finset.insert_idem]
    rw [h1]
    refine le_trans (List.toFinset_card_le _) ?_
    simp
  have := Finset.card_le_card hsub
  omega

theorem isWheel_false_of_pair {c : List Card} {p a b d : Nat}
    (hp : (ranksOf c).Perm [p, p, a, b, d]) : isWheel c = false := by
  have h2 : sameSet (ranksOf c) [14, 2, 3, 4, 5] = false := by
    rw [Bool.eq_false_iff]
    intro hss
    unfold sameSet at hss
    rw [Bool.and_eq_true, List.all_eq_true, List.all_eq_true] at hss
    have hm : ∀ x ∈ [(14 : Nat), 2, 3, 4, 5], x ∈ [p, p, a, b, d] := by
      intro x hx
      have hx2 := hss.2 x hx
      rw [decide_eq_true_iff] at hx2
      exact hp.mem_iff.mp hx2
    exact mem_four_of_five_absurd hm
  unfold isWheel
  rw [h2, Bool.and_false]

set_option maxHeartbeats 1000000 in
/-- The dominant one-pair combination: when the maximum category over all
five-card combinations is 1, the paired cards together with the three highest
remaining cards beat every other one-pair combination both on hand values and
on enumeration position. -/
theorem dom_case_pair {hand : List Card} (h7 : hand.length = 7) (hnd : hand.Nodup)
    (hsuit : ∀ x ∈ hand, x.suit < 4)
    (hub : ∀ c ∈ combinations 5 (sortDesc hand), catOf c ≤ 1)
    (hex : ∃ c0 ∈ combinations 5 (sortDesc hand), catOf c0 = 1) :
    ∃ E ∈ combinations 5 (sortDesc hand), catOf E = 1 ∧
      (∀ c ∈ combinations 5 (sortDesc hand), catOf c = 1 →
        listGt (hvOf c) (hvOf E) = false) ∧
      (∀ c ∈ combinations 5 (sortDesc hand), catOf c = 1 →
        Dom (sortDesc hand) E c) ∧
      listGt (hvOf E) (rawOf E) = false := by
  have hlnd : (sortDesc hand).Nodup := (sortDesc_perm hand).nodup_iff.mpr hnd
  have hlsort : (sortDesc hand).Sorted rankGe := sortDesc_sorted hand
  have hllen : (sortDesc hand).length = 7 := by
    rw [(sortDesc_perm hand).length_eq, h7]
  have hlcnt : ∀ r : Nat, ((sortDesc hand).map Card.rank).count r
      = (hand.map Card.rank).count r :=
    fun r => ((sortDesc_perm hand).map Card.rank).count_eq r
  obtain ⟨c0, hc0mem, hc0cat⟩ := hex
  have h5c0 : c0.length = 5 := (mem_combinations.mp hc0mem).2
  obtain ⟨-, -, -, -, -, -, htk0, hhd0⟩ := cat_eq_one hc0cat
  obtain ⟨P, a0, b0, d0, hab0, hbd0, hpa0, hpb0, hpd0, hsbc0, hperm0, hhv0⟩ :=
    shape_of_pair h5c0 hhd0 htk0
  have hpush : ∀ {c : List Card}, c ∈ combinations 5 (sortDesc hand) →
      ∀ {r : Nat}, 2 ≤ (ranksOf c).count r → 2 ≤ (hand.map Card.rank).count r := by
    intro c hcmem r h2
    have hsubc : List.Sublist c (sortDesc hand) := (mem_combinations.mp hcmem).1
    have h1 : (ranksOf c).count r = (c.map Card.rank).count r :=
      (ranksOf_perm_self c).count_eq r
    have h2' := (hsubc.map Card.rank).count_le r
    rw [← hlcnt r]
    omega
  have hcntP : 2 ≤ (hand.map Card.rank).count P := by
    refine hpush hc0mem ?_
    rw [hperm0.count_eq]
    have hap0 : ¬ (a0 = P) := fun h => hpa0 h.symm
    have hbp0 : ¬ (b0 = P) := fun h => hpb0 h.symm
    have hdp0 : ¬ (d0 = P) := fun h => hpd0 h.symm
    simp [List.count_cons, List.count_nil, beq_iff_eq, hap0, hbp0, hdp0]
  have hG1 : ∀ r : Nat, (hand.map Card.rank).count r ≤ 2 := by
    intro r
    by_contra hgt
    have h3 : 3 ≤ (hand.map Card.rank).count r := by omega
    obtain ⟨c, hm, hc⟩ := exists_combo_trips h7 hnd hsuit h3
    have := hub c hm
    omega
  have hG2 : ∀ r : Nat, r ≠ P → (hand.map Card.rank).count r ≤ 1 := by
    intro r hrP
    by_contra hgt
    have h2 : 2 ≤ (hand.map Card.rank).count r := by omega
    rcases Nat.lt_or_ge r P with hlt | hge
    · obtain ⟨c, hm, hc⟩ := exists_combo_twopair h7 hnd hsuit hlt hcntP h2
      have := hub c hm
      omega
    · have hlt : P < r := by omega
      obtain ⟨c, hm, hc⟩ := exists_combo_twopair h7 hnd hsuit hlt h2 hcntP
      have := hub c hm
      omega
  have hcntPe : (hand.map Card.rank).count P = 2 := le_antisymm (hG1 P) hcntP
  have hPlen : ((sortDesc hand).filter (fun x => x.rank == P)).length = 2 := by
    rw [length_filter_rank_eq_count, hlcnt, hcntPe]
  have hFlen : ((sortDesc hand).filter (fun x => !(x.rank == P))).length = 5 := by
    have := length_filter_neg_add (sortDesc hand) (fun x => x.rank == P)
    omega
  have hKlen : (((sortDesc hand).filter (fun x => !(x.rank == P))).take 3).length = 3 := by
    rw [List.length_take, hFlen]
    omega
  obtain ⟨k1, k2, k3, hK⟩ := list_eq_three hKlen
  have hKsubl : List.Sublist [k1, k2, k3] (sortDesc hand) := by
    rw [← hK]
    exact (List.take_sublist _ _).trans (List.filter_sublist _)
  have hKmemF : ∀ x ∈ [k1, k2, k3], (!(x.rank == P)) = true := by
    intro x hx
    rw [← hK] at hx
    exact (List.mem_filter.mp ((List.take_sublist _ _).subset hx)).2
  have hk1P : k1.rank ≠ P := by
    have := hKmemF k1 (by simp)
    simpa using this
  have hk2P : k2.rank ≠ P := by
    have := hKmemF k2 (by simp)
    simpa using this
  have hk3P : k3.rank ≠ P := by
    have := hKmemF k3 (by simp)
    simpa using this
  have hKsort : List.Pairwise rankGe [k1, k2, k3] :=
    List.Pairwise.sublist hKsubl hlsort
  have hs12 : k2.rank ≤ k1.rank := (List.pairwise_cons.mp hKsort).1 k2 (by simp)
  have hs23 : k3.rank ≤ k2.rank :=
    (List.pairwise_cons.mp (List.pairwise_cons.mp hKsort).2).1 k3 (by simp)
  have hcntK : ∀ r, (([k1, k2, k3].map Card.rank).count r) ≤ (hand.map Card.rank).count r := by
    intro r
    have h1 := (hKsubl.map Card.rank).count_le r
    rw [hlcnt] at h1
    exact h1
  have hne12 : k1.rank ≠ k2.rank := by
    intro heq
    have h1 := hcntK k2.rank
    have h2 := hG2 k2.rank hk2P
    have hge2 : 2 ≤ ([k1, k2, k3].map Card.rank).count k2.rank := by
      simp only [List.map_cons, List.map_nil, List.count_cons, List.count_nil, beq_iff_eq]
      split_ifs <;> omega
    omega
  have hne23 : k2.rank ≠ k3.rank := by
    intro heq
    have h1 := hcntK k3.rank
    have h2 := hG2 k3.rank hk3P
    have hge2 : 2 ≤ ([k1, k2, k3].map Card.rank).count k3.rank := by
      simp only [List.map_cons, List.map_nil, List.count_cons, List.count_nil, beq_iff_eq]
      split_ifs <;> omega
    omega
  have hk12 : k2.rank < k1.rank := by omega
  have hk23 : k3.rank < k2.rank := by omega
  have hPpsub : List.Sublist ((sortDesc hand).filter (fun x => x.rank == P))
      (sortDesc hand) := List.filter_sublist _
  set E := (sortDesc hand).filter (fun x => (x.rank == P) ||
      decide (x ∈ ((sortDesc hand).filter (fun x => !(x.rank == P))).take 3)) with hEdef
  have hEsub : List.Sublist E (sortDesc hand) := by
    rw [hEdef]
    exact List.filter_sublist _
  have hEndp : E.Nodup := hEsub.nodup hlnd
  have hPKnodup : (((sortDesc hand).filter (fun x => x.rank == P)) ++ [k1, k2, k3]).Nodup := by
    refine List.Nodup.append (hPpsub.nodup hlnd) (hKsubl.nodup hlnd) ?_
    intro x hx1 hx2
    have hxP : x.rank = P := by simpa using (List.mem_filter.mp hx1).2
    have := hKmemF x hx2
    simp [hxP] at this
  have hEperm : E.Perm (((sortDesc hand).filter (fun x => x.rank == P)) ++ [k1, k2, k3]) := by
    rw [List.perm_ext_iff_of_nodup hEndp hPKnodup]
    intro x
    rw [hEdef]
    simp only [List.mem_filter, List.mem_append, Bool.or_eq_true, beq_iff_eq,
      decide_eq_true_iff, hK]
    constructor
    · rintro ⟨hxl, hor⟩
      rcases hor with h | h
      · exact Or.inl ⟨hxl, by simpa using h⟩
      · exact Or.inr h
    · rintro (⟨hxl, h⟩ | h)
      · exact ⟨hxl, Or.inl (by simpa using h)⟩
      · exact ⟨hKsubl.subset h, Or.inr h⟩
  have hPpranks : (((sortDesc hand).filter (fun x => x.rank == P)).map Card.rank)
      = [P, P] := by
    have hrep : (((sortDesc hand).filter (fun x => x.rank == P)).map Card.rank)
        = List.replicate 2 P := by
      rw [List.eq_replicate]
      constructor
      · rw [List.length_map, hPlen]
      · intro v hv
        obtain ⟨y, hy, rfl⟩ := List.mem_map.mp hv
        simpa using (List.mem_filter.mp hy).2
    rw [hrep]
    rfl
  have hEranks : (ranksOf E).Perm [P, P, k1.rank, k2.rank, k3.rank] := by
    refine (ranksOf_perm_self E).trans ?_
    refine (hEperm.map Card.rank).trans ?_
    rw [List.map_append, hPpranks]
    exact List.Perm.refl _
  have h5E : E.length = 5 := by
    have h1 := hEperm.length_eq
    rw [List.length_append, hPlen] at h1
    simpa using h1
  have hEmem : E ∈ combinations 5 (sortDesc hand) := mem_combinations.mpr ⟨hEsub, h5E⟩
  have hPk1 : P ≠ k1.rank := fun h => hk1P h.symm
  have hPk2 : P ≠ k2.rank := fun h => hk2P h.symm
  have hPk3 : P ≠ k3.rank := fun h => hk3P h.symm
  have hsbcE : sbcOf E = [(P, 2), (k1.rank, 1), (k2.rank, 1), (k3.rank, 1)] :=
    sbc_pair hEranks hk12 hk23 hPk1 hPk2 hPk3
  have hhvE : hvOf E = [P, k1.rank, k2.rank, k3.rank] := by
    rw [hvOf_eq, hsbcE]
    rfl
  have hcdE : (countsOf E).headD 0 = 2 := by
    unfold countsOf
    rw [hsbcE]
    rfl
  have hcatE : catOf E = 1 := by
    have hle := hub E hEmem
    have := catOf_ge_of_head_two hcdE
    omega
  have hwE : isWheel E = false := isWheel_false_of_pair hEranks
  have hEraw : listGt (hvOf E) (rawOf E) = false :=
    hv_le_raw_of_not_wheel h5E hwE (by omega)
  have hFsort : List.Pairwise rankGe ((sortDesc hand).filter (fun x => !(x.rank == P))) :=
    List.Pairwise.sublist (List.filter_sublist _) hlsort
  have hNsort : (((sortDesc hand).filter (fun x => !(x.rank == P))).map Card.rank).Sorted
      (· ≥ ·) :=
    List.Pairwise.map _ (fun _ _ h => h) hFsort
  have hKmap : (((sortDesc hand).filter (fun x => !(x.rank == P))).map Card.rank).take 3
      = [k1.rank, k2.rank, k3.rank] := by
    rw [← List.map_take, hK]
    rfl
  have hcntE : ∀ r : Nat, cntGe (ranksOf E) r
      = cntGe [P, P] r + cntGe [k1.rank, k2.rank, k3.rank] r := by
    intro r
    rw [cntGe_perm hEranks r]
    exact cntGe_append [P, P] [k1.rank, k2.rank, k3.rank] r
  have hrkdet : ∀ x y : Card, x.rank = y.rank →
      ((fun x => x.rank == P) x) = ((fun x => x.rank == P) y) := by
    intro x y h
    simp only [h]
  have hkey : ∀ c ∈ combinations 5 (sortDesc hand), catOf c = 1 →
      listGt (hvOf c) (hvOf E) = false ∧ Dom (sortDesc hand) E c := by
    intro c hcmem hccat
    have h5c : c.length = 5 := (mem_combinations.mp hcmem).2
    have hsubc : List.Sublist c (sortDesc hand) := (mem_combinations.mp hcmem).1
    obtain ⟨-, -, -, -, -, -, htkc, hhdc⟩ := cat_eq_one hccat
    obtain ⟨pc, ac, bc, dc, habc, hbdc, hpac, hpbc, hpdc, hsbcc, hpermc, hhvc⟩ :=
      shape_of_pair h5c hhdc htkc
    have hpcP : pc = P := by
      by_contra hne
      have h2 : 2 ≤ (hand.map Card.rank).count pc := by
        refine hpush hcmem ?_
        rw [hpermc.count_eq]
        have hac : ¬ (ac = pc) := fun h => hpac h.symm
        have hbc' : ¬ (bc = pc) := fun h => hpbc h.symm
        have hdc' : ¬ (dc = pc) := fun h => hpdc h.symm
        simp [List.count_cons, List.count_nil, beq_iff_eq, hac, hbc', hdc']
      have := hG2 pc hne
      omega
    rw [hpcP] at hpermc hhvc hpac hpbc hpdc
    have hmemN : ∀ r : Nat, r ∈ [ac, bc, dc] →
        r ∈ (((sortDesc hand).filter (fun x => !(x.rank == P))).map Card.rank) := by
      intro r hr
      have hrP : r ≠ P := by
        simp only [List.mem_cons, List.not_mem_nil, or_false] at hr
        omega
      have hrc : r ∈ ranksOf c := by
        refine hpermc.mem_iff.mpr ?_
        simp only [List.mem_cons, List.not_mem_nil, or_false] at hr ⊢
        rcases hr with h | h | h
        · exact Or.inr (Or.inr (Or.inl h))
        · exact Or.inr (Or.inr (Or.inr (Or.inl h)))
        · exact Or.inr (Or.inr (Or.inr (Or.inr h)))
      obtain ⟨y, hy, hyr⟩ := List.mem_map.mp ((ranksOf_perm_self c).subset hrc)
      refine List.mem_map.mpr ⟨y, ?_, hyr⟩
      rw [List.mem_filter]
      refine ⟨hsubc.subset hy, ?_⟩
      simp [hyr, hrP]
    have hknodup : ([ac, bc, dc] : List Nat).Nodup := by
      simp only [List.nodup_cons, List.mem_cons, List.not_mem_nil, or_false,
        List.nodup_nil, and_true, not_or, not_false_iff]
      omega
    have hksub : ([ac, bc, dc] : List Nat).Subperm
        (((sortDesc hand).filter (fun x => !(x.rank == P))).map Card.rank) := by
      refine hknodup.subperm ?_
      intro x hx
      exact hmemN x hx
    have hkick : ∀ r : Nat, cntGe [ac, bc, dc] r ≤ cntGe [k1.rank, k2.rank, k3.rank] r := by
      intro r
      rw [← hKmap]
      exact cntGe_le_take hNsort hksub (by simp) r
    have hhvle : listGt (hvOf c) (hvOf E) = false := by
      rw [hhvc, hhvE]
      refine listGt_cons_same P _ _ ?_
      refine listGt_eq_false_of_cntGe ?_ ?_ hkick
      · simp only [List.sorted_cons, List.mem_cons, List.not_mem_nil, or_false,
          List.sorted_nil, and_true, forall_eq_or_imp, forall_eq, false_implies,
          implies_true, not_false_iff, true_and, ge_iff_le]
        omega
      · simp only [List.sorted_cons, List.mem_cons, List.not_mem_nil, or_false,
          List.sorted_nil, and_true, forall_eq_or_imp, forall_eq, false_implies,
          implies_true, not_false_iff, true_and, ge_iff_le]
        omega
    have hcntc : ∀ r : Nat, cntGe (ranksOf c) r
        = cntGe [P, P] r + cntGe [ac, bc, dc] r := by
      intro r
      rw [cntGe_perm hpermc r]
      exact cntGe_append [P, P] [ac, bc, dc] r
    have hR1 : ∀ r : Nat, (c.filter (fun x => decide (r ≤ x.rank))).length
        ≤ (E.filter (fun x => decide (r ≤ x.rank))).length := by
      intro r
      rw [cntGe_card_filter c r, cntGe_card_filter E r]
      have h1 : cntGe (c.map Card.rank) r = cntGe (ranksOf c) r :=
        cntGe_perm (ranksOf_perm_self c).symm r
      have h2 : cntGe (E.map Card.rank) r = cntGe (ranksOf E) r :=
        cntGe_perm (ranksOf_perm_self E).symm r
      have h3 := hcntc r
      have h4 := hcntE r
      have h5 := hkick r
      omega
    have hpre : ∀ r : Nat, ∃ t, (sortDesc hand).filter
          (fun x => (fun _ : Card => true) x && (x.rank == r))
        = E.filter (fun x => x.rank == r) ++ t := by
      intro r
      obtain ⟨t, ht⟩ := hpre_filter_or_take hlnd (fun x => x.rank == P) hrkdet 3 r
      refine ⟨t, ?_⟩
      rw [filter_true_and, hEdef]
      exact ht
    have hdomc : Dom (sortDesc hand) E c := by
      refine dom_of_counts hlnd hEsub hsubc ?_ ?_
      · rw [h5E, h5c]
      · exact prefix_counts_of_rank_counts hlsort hlnd hsubc hEsub
          (by rw [h5c, h5E]) (fun x _ => rfl) hpre hR1
    exact ⟨hhvle, hdomc⟩
  exact ⟨E, hEmem, hcatE, fun c hm hc => (hkey c hm hc).1,
    fun c hm hc => (hkey c hm hc).2, hEraw⟩

theorem hpre_take_prefix {l : List Card} (hnd : l.Nodup) (j r : Nat) :
    ∃ t, l.filter (fun x => x.rank == r)
      = ((l.filter (fun x => decide (x ∈ l.take j))).filter (fun x => x.rank == r)) ++ t := by
  have hE : l.filter (fun x => decide (x ∈ l.take j)) = l.take j := by
    refine sublist_eq_of_mem_iff hnd (List.filter_sublist _) (List.take_sublist _ _) ?_
    intro x
    simp only [List.mem_filter, decide_eq_true_iff]
    constructor
    · rintro ⟨h1, h2⟩
      exact h2
    · intro h
      exact ⟨(List.take_sublist _ _).subset h, h⟩
  refine ⟨(l.drop j).filter (fun x => x.rank == r), ?_⟩
  rw [hE]
  conv_lhs => rw [← List.take_append_drop j l]
  rw [List.filter_append]

set_option maxHeartbeats 1000000 in
/-- The dominant high-card combination: when every five-card combination is
high card, the five highest cards beat every combination both on hand values
and on enumeration position. -/
theorem dom_case_highcard {hand : List Card} (h7 : hand.length = 7) (hnd : hand.Nodup)
    (hsuit : ∀ x ∈ hand, x.suit < 4)
    (hub : ∀ c ∈ combinations 5 (sortDesc hand), catOf c ≤ 0) :
    ∃ E ∈ combinations 5 (sortDesc hand), catOf E = 0 ∧
      (∀ c ∈ combinations 5 (sortDesc hand), catOf c = 0 →
        listGt (hvOf c) (hvOf E) = false) ∧
      (∀ c ∈ combinations 5 (sortDesc hand), catOf c = 0 →
        Dom (sortDesc hand) E c) ∧
      listGt (hvOf E) (rawOf E) = false := by
  have hlnd : (sortDesc hand).Nodup := (sortDesc_perm hand).nodup_iff.mpr hnd
  have hlsort : (sortDesc hand).Sorted rankGe := sortDesc_sorted hand
  have hllen : (sortDesc hand).length = 7 := by
    rw [(sortDesc_perm hand).length_eq, h7]
  set E := (sortDesc hand).filter (fun x => decide (x ∈ (sortDesc hand).take 5)) with hEdef
  have hEtake : E = (sortDesc hand).take 5 := by
    rw [hEdef]
    refine sublist_eq_of_mem_iff hlnd (List.filter_sublist _) (List.take_sublist _ _) ?_
    intro x
    simp only [List.mem_filter, decide_eq_true_iff]
    constructor
    · rintro ⟨h1, h2⟩
      exact h2
    · intro h
      exact ⟨(List.take_sublist _ _).subset h, h⟩
  have hEsub : List.Sublist E (sortDesc hand) := by
    rw [hEdef]
    exact List.filter_sublist _
  have h5E : E.length = 5 := by
    rw [hEtake, List.length_take, hllen]
    omega
  have hEmem : E ∈ combinations 5 (sortDesc hand) := mem_combinations.mpr ⟨hEsub, h5E⟩
  have hcatE : catOf E = 0 := Nat.le_zero.mp (hub E hEmem)
  obtain ⟨hsf0, hd4E, h32E, hflE, hstE, hd3E, h22E, hd2E⟩ := cat_eq_zero hcatE
  have hd1E : (countsOf E).headD 0 = 1 := by
    have h1 := countsHead_pos h5E
    have h4 := countsHead_le_four hnd hsuit hEsub
    omega
  obtain ⟨hhvE, hndE⟩ := shape_of_distinct h5E hd1E
  have hwE : isWheel E = false := by
    by_contra hw
    rw [Bool.not_eq_false] at hw
    have hs2 := isStraight2Of_of_wheel hw
    rw [hs2] at hstE
    simp at hstE
  have hEraw : listGt (hvOf E) (rawOf E) = false :=
    hv_le_raw_of_not_wheel h5E hwE (by omega)
  have hNsort : ((sortDesc hand).map Card.rank).Sorted (· ≥ ·) := sortDesc_ranks_sorted hand
  have hEranks : ranksOf E = ((sortDesc hand).map Card.rank).take 5 := by
    have hEsort : E.Sorted rankGe := List.Pairwise.sublist hEsub hlsort
    unfold ranksOf
    rw [sortDesc_eq_self hEsort, hEtake, List.map_take]
  have hcntdom : ∀ c ∈ combinations 5 (sortDesc hand), ∀ r : Nat,
      cntGe (ranksOf c) r ≤ cntGe (ranksOf E) r := by
    intro c hcmem r
    have hsubc : List.Sublist c (sortDesc hand) := (mem_combinations.mp hcmem).1
    have h5c : c.length = 5 := (mem_combinations.mp hcmem).2
    have hsub : (ranksOf c).Subperm ((sortDesc hand).map Card.rank) :=
      (ranksOf_perm_self c).subperm.trans (hsubc.map Card.rank).subperm
    rw [hEranks]
    refine cntGe_le_take hNsort hsub ?_ r
    rw [ranksOf_length, h5c]
  have hkey : ∀ c ∈ combinations 5 (sortDesc hand), catOf c = 0 →
      listGt (hvOf c) (hvOf E) = false ∧ Dom (sortDesc hand) E c := by
    intro c hcmem hccat
    have h5c : c.length = 5 := (mem_combinations.mp hcmem).2
    have hsubc : List.Sublist c (sortDesc hand) := (mem_combinations.mp hcmem).1
    obtain ⟨-, hd4c, -, -, -, hd3c, -, hd2c⟩ := cat_eq_zero hccat
    have hd1c : (countsOf c).headD 0 = 1 := by
      have h1 := countsHead_pos h5c
      have h4 := countsHead_le_four hnd hsuit hsubc
      omega
    obtain ⟨hhvc, hndc⟩ := shape_of_distinct h5c hd1c
    have hhvle : listGt (hvOf c) (hvOf E) = false := by
      rw [hhvc, hhvE]
      refine listGt_eq_false_of_cntGe ?_ ?_ (hcntdom c hcmem)
      · rw [hEranks]
        exact List.Pairwise.sublist (List.take_sublist _ _) hNsort
      · exact sortDesc_ranks_sorted c
    have hR1 : ∀ r : Nat, (c.filter (fun x => decide (r ≤ x.rank))).length
        ≤ (E.filter (fun x => decide (r ≤ x.rank))).length := by
      intro r
      rw [cntGe_card_filter c r, cntGe_card_filter E r]
      have h1 : cntGe (c.map Card.rank) r = cntGe (ranksOf c) r :=
        cntGe_perm (ranksOf_perm_self c).symm r
      have h2 : cntGe (E.map Card.rank) r = cntGe (ranksOf E) r :=
        cntGe_perm (ranksOf_perm_self E).symm r
      have h3 := hcntdom c hcmem r
      omega
    have hpre : ∀ r : Nat, ∃ t, (sortDesc hand).filter
          (fun x => (fun _ : Card => true) x && (x.rank == r))
        = E.filter (fun x => x.rank == r) ++ t := by
      intro r
      obtain ⟨t, ht⟩ := hpre_take_prefix hlnd 5 r
      refine ⟨t, ?_⟩
      rw [filter_true_and, hEdef]
      exact ht
    have hdomc : Dom (sortDesc hand) E c := by
      refine dom_of_counts hlnd hEsub hsubc ?_ ?_
      · rw [h5E, h5c]
      · exact prefix_counts_of_rank_counts hlsort hlnd hsubc hEsub
          (by rw [h5c, h5E]) (fun x _ => rfl) hpre hR1
    exact ⟨hhvle, hdomc⟩
  exact ⟨E, hEmem, hcatE, fun c hm hc => (hkey c hm hc).1,
    fun c hm hc => (hkey c hm hc).2, hEraw⟩
